import Mathlib

/-!
# libnhr: the gzip / deflate drivers of `src/nhr_gz.c`

A shallow embedding of `nhr_gz_extend`, `nhr_gz_write_header`,
`nhr_gz_write_footer`, `nhr_gz_compress`, `nhr_gz_is_gzip_file` and
`nhr_gz_decompress`.

Modelling conventions.

* A byte is a `Nat`; a memory block is a `List Nat` whose length is the size
  of the allocation.  A pointer into the output block is an offset.
* A store outside the block it addresses is undefined behaviour in C; the
  embedding stops there with status `Status.fault`.
* zlib is an external library: it is a parameter, `Engine`.  One engine step
  reports its return code, how many input bytes it consumed and the bytes it
  produced; the `z_stream` cursors and counters are advanced from that report
  the way zlib.h documents them.  An engine never consumes more than
  `avail_in` bytes and never produces more than `avail_out` bytes.
* `uInt` is 32 bits wide.  The widths of `uLong` and `size_t` depend on the
  C data model of the host (`DataModel`); the host is little-endian.  The
  counter `total_out` of a `z_stream` is a `uLong` and wraps at its range.
* A `size_t` value of the drivers is the size of a block or an offset into
  one.  The allocator of the model never fails (in the library an allocation
  failure is fatal), so a block may have any size, and the sums of such values
  are exact: they are the `size_t` sums of the source whenever those do not
  pass `SIZE_MAX`.  The difference `buff_size - writed` of the footer writer is
  taken modulo the range of `size_t`.
* The method constants of `nhr_gz.h` are parameters of the host.
* The loops run on fuel: one unit per iteration of a `while` / `do` body.
* The calls made to the engine and to the allocator are recorded in a trace.
-/

namespace Nhr

/-! ## Constants -/

/-- Return code `Z_OK` of zlib.h. -/
def Z_OK : Int := 0
/-- Return code `Z_STREAM_END` of zlib.h. -/
def Z_STREAM_END : Int := 1
/-- Return code `Z_NEED_DICT` of zlib.h. -/
def Z_NEED_DICT : Int := 2
/-- Return code `Z_ERRNO` of zlib.h. -/
def Z_ERRNO : Int := -1
/-- Return code `Z_STREAM_ERROR` of zlib.h. -/
def Z_STREAM_ERROR : Int := -2
/-- Return code `Z_DATA_ERROR` of zlib.h. -/
def Z_DATA_ERROR : Int := -3
/-- Return code `Z_MEM_ERROR` of zlib.h. -/
def Z_MEM_ERROR : Int := -4
/-- Return code `Z_BUF_ERROR` of zlib.h. -/
def Z_BUF_ERROR : Int := -5
/-- Flush mode `Z_NO_FLUSH` of zlib.h. -/
def Z_NO_FLUSH : Int := 0
/-- Flush mode `Z_FINISH` of zlib.h. -/
def Z_FINISH : Int := 4
/-- Compression level `Z_BEST_COMPRESSION` of zlib.h. -/
def Z_BEST_COMPRESSION : Int := 9
/-- Compression method `Z_DEFLATED` of zlib.h. -/
def Z_DEFLATED : Int := 8
/-- Strategy `Z_DEFAULT_STRATEGY` of zlib.h. -/
def Z_DEFAULT_STRATEGY : Int := 0

/-- The macro `NHR_GZ_CHUNK_SIZE`. -/
def NHR_GZ_CHUNK_SIZE : Nat := 512
/-- The macro `NHR_GZ_HEADER_SIZE`. -/
def NHR_GZ_HEADER_SIZE : Nat := 10
/-- The macro `NHR_GZ_FOOTER_SIZE`. -/
def NHR_GZ_FOOTER_SIZE : Nat := 8
/-- The macro `NHR_GZ_WINDOWS_BITS`. -/
def NHR_GZ_WINDOWS_BITS : Int := -15

/-- One more than the largest `uInt` (zlib's `uInt` is a 32-bit `unsigned int`). -/
def UINT_RANGE : Nat := 2 ^ 32

/-! ## The host -/

/-- C data models: they fix the widths of `unsigned long` and `size_t`. -/
inductive DataModel
  | ILP32
  | LLP64
  | LP64
  deriving DecidableEq, Repr

/-- The value of `sizeof(uLong)`: zlib's `uLong` is `unsigned long`. -/
def DataModel.sizeof_uLong : DataModel → Nat
  | .LP64 => 8
  | _ => 4

/-- One more than `SIZE_MAX`. -/
def DataModel.size_range : DataModel → Nat
  | .ILP32 => 2 ^ 32
  | _ => 2 ^ 64

/-- One more than the largest `uLong`. -/
def DataModel.uLong_range (d : DataModel) : Nat := 256 ^ d.sizeof_uLong

/-- What the build fixes: the data model and the two method constants of
`nhr_gz.h` (not under `src/`).  They label two cases of one `switch`, so they
are distinct. -/
structure Host where
  abi : DataModel
  NHR_GZ_METHOD_GZIP : Nat
  NHR_GZ_METHOD_DEFLATE : Nat
  methods_distinct : NHR_GZ_METHOD_GZIP ≠ NHR_GZ_METHOD_DEFLATE

/-! ## Memory -/

/-- The object representation of the unsigned value `v` in `w` bytes, least
significant byte first. -/
def le_bytes (w v : Nat) : List Nat :=
  (List.range w).map (fun i => v / 256 ^ i % 256)

/-- Store `bytes` at offset `off` of the block `mem`; `none` when one of them
would fall outside the block. -/
def store (mem : List Nat) (off : Nat) (bytes : List Nat) : Option (List Nat) :=
  if off + bytes.length ≤ mem.length then
    some (mem.take off ++ bytes ++ mem.drop (off + bytes.length))
  else none

/-- Modelled from the spec: `nhr_malloc` of `nhr_memory.h` is not under `src/`.
An allocation failure is fatal (spec, section 7), so a block that is returned
has the size asked for; its content is unspecified and stands here as zeros. -/
def nhr_malloc (size : Nat) : List Nat := List.replicate size 0

/-- The libc `memcpy(dst, src, n)` on blocks: the first `n` bytes of `dst`
become the first `n` bytes of `src`. -/
def memcpy (dst src : List Nat) (n : Nat) : List Nat :=
  src.take n ++ dst.drop n

/-! ## The engine -/

/-- What one call of `deflate` or `inflate` reports. -/
structure Step (σ : Type) where
  code : Int
  consumed : Nat
  produced : List Nat
  next : σ

/-- The part of zlib the drivers call.  `σ` is zlib's internal state.  A step
gets the state, the flush mode, the `avail_in` bytes at `next_in` and
`avail_out`. -/
structure Engine (σ : Type) where
  deflateInit2 : Int → Int → Int → Int → Int → Int × σ
  deflateInit : Int → Int × σ
  deflate : σ → Int → List Nat → Nat → Step σ
  inflateInit2 : Int → Int × σ
  inflateInit : Int × σ
  inflate : σ → Int → List Nat → Nat → Step σ
  crc32 : Nat → Option (List Nat) → Nat
  deflate_consumed : ∀ s f i w, (deflate s f i w).consumed ≤ i.length
  deflate_produced : ∀ s f i w, (deflate s f i w).produced.length ≤ w
  inflate_consumed : ∀ s f i w, (inflate s f i w).consumed ≤ i.length
  inflate_produced : ∀ s f i w, (inflate s f i w).produced.length ≤ w

/-- The fields of `z_stream` the drivers use.  `next_in` is an offset into the
input block, `next_out` an offset into the current output block. -/
structure z_stream (σ : Type) where
  next_in : Nat
  avail_in : Nat
  next_out : Nat
  avail_out : Nat
  total_out : Nat
  state : σ

/-- The input an engine step may read: `avail_in` bytes from `next_in`. -/
def window {σ : Type} (inp : List Nat) (z : z_stream σ) : List Nat :=
  (inp.drop z.next_in).take z.avail_in

/-- The stream after a step: both cursors advance, both counts shrink and
`total_out` grows by what the step reports.  `total_out` is a `uLong`: the sum
is taken modulo the range of `uLong` on the host. -/
def zstep {σ : Type} (H : Host) (z : z_stream σ) (r : Step σ) : z_stream σ :=
  { next_in := z.next_in + r.consumed
    avail_in := z.avail_in - r.consumed
    next_out := z.next_out + r.produced.length
    avail_out := z.avail_out - r.produced.length
    total_out := (z.total_out + r.produced.length) % H.abi.uLong_range
    state := r.next }

/-! ## Traces and outcomes -/

/-- Calls a driver makes.  An init event carries the arguments and the return
code; a step event carries `avail_in`, `next_out`, `avail_out` and the size of
the output block at the call, then what the step produced and returned. -/
inductive Event
  | deflateInit2 (level method windowBits memLevel strategy rc : Int)
  | deflateInit (level rc : Int)
  | inflateInit2 (windowBits rc : Int)
  | inflateInit (rc : Int)
  | malloc (size : Nat)
  | free
  | deflate (flush : Int) (avail_in next_out avail_out capacity : Nat)
      (produced : List Nat) (code : Int)
  | inflate (avail_in next_out avail_out capacity : Nat)
      (produced : List Nat) (code : Int)
  | deflateEnd
  | inflateEnd
  deriving DecidableEq, Repr

/-- How a call ended: it returned, it stored outside a block, or the fuel
ran out. -/
inductive Status
  | returned
  | fault
  | out_of_fuel
  deriving DecidableEq, Repr

/-- The outcome of a call: `ret` is the block returned (`none` for `NULL`),
`size_out` the value stored through the size pointer (`none` when nothing was
stored). -/
structure Run where
  status : Status
  ret : Option (List Nat)
  size_out : Option Nat
  trace : List Event
  deriving DecidableEq, Repr

/-- The call returned `NULL`. -/
def Run.null (tr : List Event) : Run := ⟨.returned, none, none, tr⟩
/-- The call stored outside a block. -/
def Run.crash (tr : List Event) : Run := ⟨.fault, none, none, tr⟩
/-- The fuel ran out. -/
def Run.timeout (tr : List Event) : Run := ⟨.out_of_fuel, none, none, tr⟩
/-- The call returned a block. -/
def Run.ok (buf : List Nat) (size : Option Nat) (tr : List Event) : Run :=
  ⟨.returned, some buf, size, tr⟩

/-- The locals of a driver. -/
structure Locals (σ : Type) where
  zip : z_stream σ
  out_buff : List Nat
  out_size : Nat
  writed : Nat
  trace : List Event

/-! ## nhr_gz.c -/

/-- The function `nhr_gz_extend`: the new block and the new value of
`*buff_size`.  The sum `*buff_size + increment` is exact: it is the `size_t`
sum of the source when it does not pass `SIZE_MAX` (a block of the model may
have any size).  `nhr_gz_extend_sized` below takes the sum as the host does. -/
def nhr_gz_extend (buff : List Nat) (buff_size increment : Nat) : List Nat × Nat :=
  let new_size := buff_size + increment
  let new_buff := nhr_malloc new_size
  (memcpy new_buff buff buff_size, new_size)

/-- The function `nhr_gz_extend` with the sum of l.40 as the host computes it:
a `size_t` sum, taken modulo the range of `size_t`.  When the sum wraps, the
new block is smaller than `*buff_size` and the `memcpy` of l.42 stores outside
it: `none` for the block.  It agrees with `nhr_gz_extend` whenever the sum does
not pass `SIZE_MAX`; the drivers extend by 512 or by 8. -/
def nhr_gz_extend_sized (H : Host) (buff : List Nat) (buff_size increment : Nat) :
    Option (List Nat) × Nat :=
  let new_size := (buff_size + increment) % H.abi.size_range
  let new_buff := nhr_malloc new_size
  (store new_buff 0 (buff.take buff_size), new_size)

/-- The function `nhr_gz_write_header`; `now` is `(uLong)time(NULL)`, of which
`memcpy` takes the first 4 bytes. -/
def nhr_gz_write_header (now : Nat) (buff : List Nat) : Option (List Nat) :=
  store buff 0 ([0x1f, 0x8b, 8, 0] ++ le_bytes 4 now ++ [0, 0])

/-- The function `nhr_gz_write_footer`: the block it returns (`none` when a
store falls outside it) and the allocator calls it made.  `left` is a `size_t`
difference; each of the two stores writes one `uLong`. -/
def nhr_gz_write_footer {σ : Type} (H : Host) (E : Engine σ) (buff : List Nat)
    (buff_size writed : Nat) (src_buff : List Nat) (src_size : Nat) :
    Option (List Nat) × List Event :=
  let left := (buff_size + H.abi.size_range - writed) % H.abi.size_range
  let grown := if left < 8 then nhr_gz_extend buff buff_size 8 else (buff, buff_size)
  let evs := if left < 8 then [Event.malloc grown.2, Event.free] else []
  let crc := E.crc32 0 none
  let crc := E.crc32 crc (some (src_buff.take (src_size % UINT_RANGE)))
  let w := H.abi.sizeof_uLong
  ((store grown.1 writed (le_bytes w crc)).bind
      (fun b => store b (writed + w) (le_bytes w src_size)), evs)

/-- The two growth blocks of `nhr_gz_compress` (`if (zip.avail_out == 0)`). -/
def compress_grow {σ : Type} (L : Locals σ) : Locals σ :=
  let e := nhr_gz_extend L.out_buff L.out_size NHR_GZ_CHUNK_SIZE
  let w := L.writed + NHR_GZ_CHUNK_SIZE
  { L with
    out_buff := e.1
    out_size := e.2
    writed := w
    zip := { L.zip with next_out := w, avail_out := NHR_GZ_CHUNK_SIZE }
    trace := L.trace ++ [Event.malloc e.2, Event.free] }

/-- The end of `nhr_gz_compress`, from `writed = zip.total_out` on.  The
conversion of `total_out` from `uLong` to `size_t` keeps its value: `size_t` is
at least as wide as `uLong` in each data model. -/
def compress_tail {σ : Type} (H : Host) (E : Engine σ) (inp : List Nat) (buff_size : Nat)
    (compressed_size : Bool) (method : Nat) (L : Locals σ) : Run :=
  let writed := L.zip.total_out
  if method = H.NHR_GZ_METHOD_GZIP then
    let writed := writed + NHR_GZ_HEADER_SIZE
    let f := nhr_gz_write_footer H E L.out_buff L.out_size writed inp buff_size
    match f.1 with
    | none => Run.crash (L.trace ++ f.2)
    | some b =>
      Run.ok b (if compressed_size then some (writed + NHR_GZ_FOOTER_SIZE) else none)
        (L.trace ++ f.2 ++ [Event.deflateEnd])
  else
    Run.ok L.out_buff (if compressed_size then some writed else none)
      (L.trace ++ [Event.deflateEnd])

/-- The call `deflate(&zip, flush)` on the locals `L`. -/
def deflate_call {σ : Type} (E : Engine σ) (inp : List Nat) (flush : Int) (L : Locals σ) :
    Step σ :=
  E.deflate L.zip.state flush (window inp L.zip) L.zip.avail_out

/-- The trace entry of a `deflate` call. -/
def deflate_event {σ : Type} (flush : Int) (L : Locals σ) (r : Step σ) : Event :=
  Event.deflate flush L.zip.avail_in L.zip.next_out L.zip.avail_out L.out_buff.length
    r.produced r.code

/-- The locals after an engine step that left the output block as `mem`. -/
def after_step {σ : Type} (H : Host) (L : Locals σ) (r : Step σ) (mem : List Nat)
    (ev : Event) : Locals σ :=
  { L with zip := zstep H L.zip r, out_buff := mem, trace := L.trace ++ [ev] }

/-- The statement `if (zip.avail_out == 0) { ... }` of both loops. -/
def maybe_grow {σ : Type} (L : Locals σ) : Locals σ :=
  if L.zip.avail_out = 0 then compress_grow L else L

/-- The loop `while (result == Z_OK)` of `nhr_gz_compress`, then its end. -/
def compress_finish {σ : Type} (H : Host) (E : Engine σ) (inp : List Nat) (buff_size : Nat)
    (compressed_size : Bool) (method : Nat) : Nat → Locals σ → Run
  | 0, L => Run.timeout L.trace
  | fuel + 1, L =>
    let L1 := maybe_grow L
    let r := deflate_call E inp Z_FINISH L1
    let ev := deflate_event Z_FINISH L1 r
    match store L1.out_buff L1.zip.next_out r.produced with
    | none => Run.crash (L1.trace ++ [ev])
    | some mem =>
      let L2 := after_step H L1 r mem ev
      if r.code = Z_OK then compress_finish H E inp buff_size compressed_size method fuel L2
      else if r.code ≠ Z_STREAM_END then Run.null (L2.trace ++ [Event.deflateEnd, Event.free])
      else compress_tail H E inp buff_size compressed_size method L2

/-- The loop `while (zip.avail_in != 0)` of `nhr_gz_compress`, then the rest. -/
def compress_feed {σ : Type} (H : Host) (E : Engine σ) (inp : List Nat) (buff_size : Nat)
    (compressed_size : Bool) (method : Nat) : Nat → Locals σ → Run
  | 0, L => Run.timeout L.trace
  | fuel + 1, L =>
    if L.zip.avail_in = 0 then
      compress_finish H E inp buff_size compressed_size method (fuel + 1) L
    else
      let r := deflate_call E inp Z_NO_FLUSH L
      let ev := deflate_event Z_NO_FLUSH L r
      match store L.out_buff L.zip.next_out r.produced with
      | none => Run.crash (L.trace ++ [ev])
      | some mem =>
        let L2 := after_step H L r mem ev
        if r.code ≠ Z_OK then Run.null (L2.trace ++ [Event.deflateEnd, Event.free])
        else compress_feed H E inp buff_size compressed_size method fuel (maybe_grow L2)

/-- The function `nhr_gz_compress`.  `buff` is `none` for a null pointer;
`compressed_size` tells whether the size pointer is non-null; `now` is the
clock read by the header writer. -/
def nhr_gz_compress {σ : Type} (H : Host) (E : Engine σ) (now fuel : Nat)
    (buff : Option (List Nat)) (buff_size : Nat) (compressed_size : Bool)
    (method : Nat) : Run :=
  match buff with
  | none => Run.null []
  | some inp =>
    if buff_size = 0 then Run.null []
    else
      let init : Option ((Int × σ) × (Int → Event)) :=
        if method = H.NHR_GZ_METHOD_GZIP then
          some (E.deflateInit2 Z_BEST_COMPRESSION Z_DEFLATED NHR_GZ_WINDOWS_BITS 8
                  Z_DEFAULT_STRATEGY,
                Event.deflateInit2 Z_BEST_COMPRESSION Z_DEFLATED NHR_GZ_WINDOWS_BITS 8
                  Z_DEFAULT_STRATEGY)
        else if method = H.NHR_GZ_METHOD_DEFLATE then
          some (E.deflateInit Z_BEST_COMPRESSION, Event.deflateInit Z_BEST_COMPRESSION)
        else none
      match init with
      | none => Run.null []
      | some (res, ev) =>
        if res.1 ≠ Z_OK then Run.null [ev res.1]
        else
          let out_size := NHR_GZ_CHUNK_SIZE
          let zip (writed : Nat) : z_stream σ :=
            { next_in := 0, avail_in := buff_size % UINT_RANGE, next_out := writed,
              avail_out := NHR_GZ_CHUNK_SIZE, total_out := 0, state := res.2 }
          if method = H.NHR_GZ_METHOD_GZIP then
            let out_size := out_size + NHR_GZ_HEADER_SIZE
            match nhr_gz_write_header now (nhr_malloc out_size) with
            | none => Run.crash [ev res.1, Event.malloc out_size]
            | some out_buff =>
              compress_feed H E inp buff_size compressed_size method fuel
                { zip := zip NHR_GZ_HEADER_SIZE, out_buff := out_buff, out_size := out_size,
                  writed := NHR_GZ_HEADER_SIZE, trace := [ev res.1, Event.malloc out_size] }
          else
            compress_feed H E inp buff_size compressed_size method fuel
              { zip := zip 0, out_buff := nhr_malloc out_size, out_size := out_size,
                writed := 0, trace := [ev res.1, Event.malloc out_size] }

/-- The function `nhr_gz_is_gzip_file`: `none` when it reads outside the
block, else the `int` it returns.  The second byte is read only when the first
matches (`&&`). -/
def nhr_gz_is_gzip_file (buff : List Nat) (buff_size : Nat) : Option Nat :=
  if buff_size ≤ NHR_GZ_HEADER_SIZE + NHR_GZ_FOOTER_SIZE then some 0
  else
    match buff[0]? with
    | none => none
    | some b0 =>
      if b0 = 0x1f then
        match buff[1]? with
        | none => none
        | some b1 => some (if b1 = 0x8b then 1 else 0)
      else some 0

/-- The call `inflate(&zip, Z_NO_FLUSH)` on the locals `L`. -/
def inflate_call {σ : Type} (E : Engine σ) (inp : List Nat) (L : Locals σ) : Step σ :=
  E.inflate L.zip.state Z_NO_FLUSH (window inp L.zip) L.zip.avail_out

/-- The trace entry of an `inflate` call. -/
def inflate_event {σ : Type} (L : Locals σ) (r : Step σ) : Event :=
  Event.inflate L.zip.avail_in L.zip.next_out L.zip.avail_out L.out_buff.length
    r.produced r.code

/-- The statement `zip.next_out = out_buff + writed` that opens a round. -/
def point_out {σ : Type} (L : Locals σ) : Locals σ :=
  { L with zip := { L.zip with next_out := L.writed } }

/-- The four return codes on which a round of `nhr_gz_decompress` gives up. -/
def hard_error (code : Int) : Prop :=
  code = Z_NEED_DICT ∨ code = Z_DATA_ERROR ∨ code = Z_MEM_ERROR ∨ code = Z_STREAM_ERROR

instance (code : Int) : Decidable (hard_error code) := by
  unfold hard_error; infer_instance

/-- The value of `((int)NHR_GZ_CHUNK_SIZE) - zip.avail_out`, an `int`. -/
def available {σ : Type} (L : Locals σ) : Int :=
  (NHR_GZ_CHUNK_SIZE : Int) - (L.zip.avail_out : Int)

/-- The branch `if (available_size > 0) { ... }` of a round. -/
def decompress_account {σ : Type} (L : Locals σ) (available_size : Int) : Locals σ :=
  let writed := L.writed + available_size.toNat
  if writed < L.out_size then
    { L with
      writed := writed
      zip := { L.zip with avail_out := ((NHR_GZ_CHUNK_SIZE : Int) - available_size).toNat } }
  else
    let e := nhr_gz_extend L.out_buff L.out_size NHR_GZ_CHUNK_SIZE
    { L with
      writed := writed
      out_buff := e.1
      out_size := e.2
      zip := { L.zip with avail_out := NHR_GZ_CHUNK_SIZE }
      trace := L.trace ++ [Event.malloc e.2, Event.free] }

/-- The `do ... while (result != Z_STREAM_END)` loop of `nhr_gz_decompress`,
then its end. -/
def decompress_loop {σ : Type} (H : Host) (E : Engine σ) (inp : List Nat)
    (decompressed_size : Bool) : Nat → Locals σ → Run
  | 0, L => Run.timeout L.trace
  | fuel + 1, L =>
    let L0 := point_out L
    let r := inflate_call E inp L0
    let ev := inflate_event L0 r
    match store L0.out_buff L0.zip.next_out r.produced with
    | none => Run.crash (L0.trace ++ [ev])
    | some mem =>
      let L1 := after_step H L0 r mem ev
      if hard_error r.code then Run.null (L1.trace ++ [Event.free, Event.inflateEnd])
      else if available L1 > 0 then
        let L2 := decompress_account L1 (available L1)
        if r.code ≠ Z_STREAM_END then decompress_loop H E inp decompressed_size fuel L2
        else
          Run.ok L2.out_buff (if decompressed_size then some L2.writed else none)
            (L2.trace ++ [Event.inflateEnd])
      else Run.null (L1.trace ++ [Event.inflateEnd, Event.free])

/-- The locals of `nhr_gz_decompress` when its loop is entered: `res` is what
the init call returned, `ev` its trace entry. -/
def start_inflate {σ : Type} (next_in avail_in : Nat) (res : Int × σ) (ev : Event) :
    Locals σ :=
  { zip :=
      { next_in := next_in, avail_in := avail_in, next_out := 0
        avail_out := NHR_GZ_CHUNK_SIZE, total_out := 0, state := res.2 }
    out_buff := nhr_malloc NHR_GZ_CHUNK_SIZE
    out_size := NHR_GZ_CHUNK_SIZE
    writed := 0
    trace := [ev, Event.malloc NHR_GZ_CHUNK_SIZE] }

/-- The part of `nhr_gz_decompress` after the `switch`: the test of the init
result, the first allocation and the loop. -/
def decompress_run {σ : Type} (H : Host) (E : Engine σ) (inp : List Nat)
    (decompressed_size : Bool) (fuel next_in avail_in : Nat) (res : Int × σ) (ev : Event) :
    Run :=
  if res.1 ≠ Z_OK then Run.null [ev]
  else decompress_loop H E inp decompressed_size fuel (start_inflate next_in avail_in res ev)

/-- The function `nhr_gz_decompress`.  `buff` is `none` for a null pointer;
`decompressed_size` tells whether the size pointer is non-null.  The gzip case
sets `avail_in` by `uInt` arithmetic. -/
def nhr_gz_decompress {σ : Type} (H : Host) (E : Engine σ) (fuel : Nat)
    (buff : Option (List Nat)) (buff_size : Nat) (decompressed_size : Bool)
    (method : Nat) : Run :=
  match buff with
  | none => Run.null []
  | some inp =>
    if buff_size = 0 then Run.null []
    else if method = H.NHR_GZ_METHOD_GZIP then
      match nhr_gz_is_gzip_file inp buff_size with
      | none => Run.crash []
      | some g =>
        if g ≠ 0 then
          let res := E.inflateInit2 NHR_GZ_WINDOWS_BITS
          decompress_run H E inp decompressed_size fuel NHR_GZ_HEADER_SIZE
            ((buff_size % UINT_RANGE + UINT_RANGE - NHR_GZ_HEADER_SIZE - NHR_GZ_FOOTER_SIZE)
              % UINT_RANGE)
            res (Event.inflateInit2 NHR_GZ_WINDOWS_BITS res.1)
        else Run.null []
    else if method = H.NHR_GZ_METHOD_DEFLATE then
      let res := E.inflateInit
      decompress_run H E inp decompressed_size fuel 0 (buff_size % UINT_RANGE) res
        (Event.inflateInit res.1)
    else Run.null []

/-! ## Two concrete engines

`storeEngine` is a coder that stores: its stream is the header byte `78`
followed by the payload.  It takes the whole input at once, keeps what does not
fit the output window and hands it out on the next calls.  `scriptEngine` plays
a fixed list of step reports, cut to the window it is given. -/

/-- One bit of the CRC-32 shift register (reflected polynomial `EDB88320`). -/
def crc32_bit (c : Nat) : Nat := if c % 2 = 1 then (c / 2) ^^^ 0xEDB88320 else c / 2

/-- One byte through the CRC-32 register. -/
def crc32_byte (c b : Nat) : Nat := crc32_bit^[8] (c ^^^ b)

/-- CRC-32 of `l`, continuing from the running value `crc`. -/
def crc32_update (crc : Nat) (l : List Nat) : Nat :=
  (l.foldl crc32_byte (crc ^^^ 0xFFFFFFFF)) ^^^ 0xFFFFFFFF

/-- Hand out up to `w` of the bytes `all`; the stream ends when `last` holds and
nothing is kept back. -/
def handOut (all inp : List Nat) (w : Nat) (last : Bool) : Step (Option (List Nat)) :=
  { code := if last = true ∧ all.length ≤ w then Z_STREAM_END else Z_OK
    consumed := inp.length
    produced := all.take w
    next := some (all.drop w) }

/-- The `deflate` of the store engine: the state is `none` before the header
byte is queued, then the bytes queued and not yet handed out. -/
def storeDeflate (s : Option (List Nat)) (flush : Int) (inp : List Nat) (w : Nat) :
    Step (Option (List Nat)) :=
  match s with
  | none => handOut (0x78 :: inp) inp w (decide (flush = Z_FINISH))
  | some p => handOut (p ++ inp) inp w (decide (flush = Z_FINISH))

/-- The `inflate` of the store engine: it wants the header byte first. -/
def storeInflate (s : Option (List Nat)) (inp : List Nat) (w : Nat) :
    Step (Option (List Nat)) :=
  match s with
  | none =>
    match inp with
    | [] => { code := Z_BUF_ERROR, consumed := 0, produced := [], next := none }
    | h :: t =>
      if h = 0x78 then handOut t inp w true
      else { code := Z_DATA_ERROR, consumed := 0, produced := [], next := none }
  | some p => handOut (p ++ inp) inp w true

/-- A coder that stores: the stream is `78` and then the payload. -/
def storeEngine : Engine (Option (List Nat)) where
  deflateInit2 := fun _ _ _ _ _ => (Z_OK, none)
  deflateInit := fun _ => (Z_OK, none)
  deflate := storeDeflate
  inflateInit2 := fun _ => (Z_OK, none)
  inflateInit := (Z_OK, none)
  inflate := fun s _ inp w => storeInflate s inp w
  crc32 := fun crc b =>
    match b with
    | none => 0
    | some l => crc32_update crc l
  deflate_consumed := by
    intro s f i w; cases s <;> simp [storeDeflate, handOut]
  deflate_produced := by
    intro s f i w; cases s <;> simp [storeDeflate, handOut]
  inflate_consumed := by
    intro s f i w
    cases s with
    | none =>
      cases i with
      | nil => simp [storeInflate]
      | cons h t => by_cases hh : h = 0x78 <;> simp [storeInflate, handOut, hh]
    | some p => simp [storeInflate, handOut]
  inflate_produced := by
    intro s f i w
    cases s with
    | none =>
      cases i with
      | nil => simp [storeInflate]
      | cons h t => by_cases hh : h = 0x78 <;> simp [storeInflate, handOut, hh]
    | some p => simp [storeInflate, handOut]

/-- One scripted step report. -/
structure Scripted where
  code : Int
  consumed : Nat
  produced : List Nat

/-- Play one scripted report against the input and window of the call. -/
def playStep (s : List Scripted) (inp : List Nat) (w : Nat) : Step (List Scripted) :=
  match s with
  | [] => { code := Z_BUF_ERROR, consumed := 0, produced := [], next := [] }
  | x :: rest =>
    { code := x.code, consumed := min x.consumed inp.length, produced := x.produced.take w,
      next := rest }

/-- An engine whose init calls return `rc` and whose steps follow `script`. -/
def scriptEngine (rc : Int) (script : List Scripted) : Engine (List Scripted) where
  deflateInit2 := fun _ _ _ _ _ => (rc, script)
  deflateInit := fun _ => (rc, script)
  deflate := fun s _ inp w => playStep s inp w
  inflateInit2 := fun _ => (rc, script)
  inflateInit := (rc, script)
  inflate := fun s _ inp w => playStep s inp w
  crc32 := fun _ _ => 0
  deflate_consumed := by intro s _ i w; cases s <;> simp [playStep]
  deflate_produced := by intro s _ i w; cases s <;> simp [playStep]
  inflate_consumed := by intro s _ i w; cases s <;> simp [playStep]
  inflate_produced := by intro s _ i w; cases s <;> simp [playStep]

/-- A 64-bit Unix host (`unsigned long` is 8 bytes). -/
def hostLP64 : Host := ⟨.LP64, 2, 1, by decide⟩

/-- A 64-bit Windows host (`unsigned long` is 4 bytes, `size_t` is 8). -/
def hostLLP64 : Host := ⟨.LLP64, 2, 1, by decide⟩

/-- A 32-bit host. -/
def hostILP32 : Host := ⟨.ILP32, 2, 1, by decide⟩

/-- The ASCII string "the quick brown fox!". -/
def fox : List Nat :=
  [116, 104, 101, 32, 113, 117, 105, 99, 107, 32, 98, 114, 111, 119, 110, 32, 102, 111, 120, 33]

/-! ## Definitions used in the statements -/

/-- The bytes an engine step produced; nothing for the other calls. -/
def Event.output : Event → List Nat
  | .deflate _ _ _ _ _ p _ => p
  | .inflate _ _ _ _ p _ => p
  | _ => []

/-- The bytes the engine emitted over all the steps of a trace, in order. -/
def emitted : List Event → List Nat
  | [] => []
  | e :: t => e.output ++ emitted t

/-- Where a run of the compress loops ends, from locals that satisfy `I`: in
`compress_tail`, out of fuel, in a store outside the block, or in the error
return after an engine step. -/
def CompressEnds {σ : Type} (H : Host) (E : Engine σ) (inp : List Nat) (n : Nat) (sp : Bool)
    (method : Nat) (I : Locals σ → Prop) (R : Run) : Prop :=
  (∃ L, I L ∧ R = compress_tail H E inp n sp method L) ∨
  (∃ L, I L ∧ R = Run.timeout L.trace) ∨
  (∃ L flush, I L ∧ (flush = Z_NO_FLUSH ∨ flush = Z_FINISH) ∧
    store L.out_buff L.zip.next_out (deflate_call E inp flush L).produced = none ∧
    R = Run.crash (L.trace ++ [deflate_event flush L (deflate_call E inp flush L)])) ∨
  (∃ L, I L ∧ R = Run.null (L.trace ++ [Event.deflateEnd, Event.free]))

/-- The layout invariant of the compress loops: `h` is the header size and
`hdr` the header bytes.  The bytes emitted so far lie behind the header and the
window starts behind them; `total_out` is their number modulo the range of
`uLong`. -/
structure CInv {σ : Type} (H : Host) (h : Nat) (hdr : List Nat) (L : Locals σ) : Prop where
  len : L.out_buff.length = L.out_size
  win : L.zip.next_out + L.zip.avail_out = L.out_size
  pos : L.zip.next_out = h + (emitted L.trace).length
  wr : L.writed + NHR_GZ_CHUNK_SIZE = L.out_size
  lo : L.writed ≤ L.zip.next_out
  out : (L.out_buff.drop h).take (emitted L.trace).length = emitted L.trace
  hd : L.out_buff.take h = hdr
  tot : L.zip.total_out = (emitted L.trace).length % H.abi.uLong_range

/-- The ten header bytes for the clock value `now`. -/
def gz_header (now : Nat) : List Nat := [0x1f, 0x8b, 8, 0] ++ le_bytes 4 now ++ [0, 0]

/-- The locals of `nhr_gz_compress` when the first loop is entered, gzip method. -/
def start_gzip {σ : Type} (E : Engine σ) (now n : Nat) : Locals σ :=
  { zip :=
      { next_in := 0, avail_in := n % UINT_RANGE, next_out := NHR_GZ_HEADER_SIZE,
        avail_out := NHR_GZ_CHUNK_SIZE, total_out := 0
        state := (E.deflateInit2 Z_BEST_COMPRESSION Z_DEFLATED NHR_GZ_WINDOWS_BITS 8
          Z_DEFAULT_STRATEGY).2 }
    out_buff := gz_header now ++ List.replicate NHR_GZ_CHUNK_SIZE 0
    out_size := NHR_GZ_CHUNK_SIZE + NHR_GZ_HEADER_SIZE
    writed := NHR_GZ_HEADER_SIZE
    trace :=
      [Event.deflateInit2 Z_BEST_COMPRESSION Z_DEFLATED NHR_GZ_WINDOWS_BITS 8 Z_DEFAULT_STRATEGY
        (E.deflateInit2 Z_BEST_COMPRESSION Z_DEFLATED NHR_GZ_WINDOWS_BITS 8
          Z_DEFAULT_STRATEGY).1,
       Event.malloc (NHR_GZ_CHUNK_SIZE + NHR_GZ_HEADER_SIZE)] }

/-- The locals of `nhr_gz_compress` when the first loop is entered, deflate method. -/
def start_deflate {σ : Type} (E : Engine σ) (n : Nat) : Locals σ :=
  { zip :=
      { next_in := 0, avail_in := n % UINT_RANGE, next_out := 0,
        avail_out := NHR_GZ_CHUNK_SIZE, total_out := 0
        state := (E.deflateInit Z_BEST_COMPRESSION).2 }
    out_buff := nhr_malloc NHR_GZ_CHUNK_SIZE
    out_size := NHR_GZ_CHUNK_SIZE
    writed := 0
    trace :=
      [Event.deflateInit Z_BEST_COMPRESSION (E.deflateInit Z_BEST_COMPRESSION).1,
       Event.malloc NHR_GZ_CHUNK_SIZE] }

/-- The header size of a method: 10 for gzip, 0 otherwise. -/
def header_size (H : Host) (method : Nat) : Nat :=
  if method = H.NHR_GZ_METHOD_GZIP then NHR_GZ_HEADER_SIZE else 0

/-- The footer size of a method: 8 for gzip, 0 otherwise. -/
def footer_size (H : Host) (method : Nat) : Nat :=
  if method = H.NHR_GZ_METHOD_GZIP then NHR_GZ_FOOTER_SIZE else 0

/-- The engine report of the round that starts from the locals `L`. -/
def round_call {σ : Type} (E : Engine σ) (inp : List Nat) (L : Locals σ) : Step σ :=
  inflate_call E inp (point_out L)

/-- The trace entry of the round that starts from `L`. -/
def round_event {σ : Type} (E : Engine σ) (inp : List Nat) (L : Locals σ) : Event :=
  inflate_event (point_out L) (round_call E inp L)

/-- The store the engine makes in the round that starts from `L`. -/
def round_store {σ : Type} (E : Engine σ) (inp : List Nat) (L : Locals σ) :
    Option (List Nat) :=
  store L.out_buff L.writed (round_call E inp L).produced

/-- The locals after the engine step of the round that starts from `L`. -/
def round_after {σ : Type} (H : Host) (E : Engine σ) (inp : List Nat) (L : Locals σ)
    (mem : List Nat) : Locals σ :=
  after_step H (point_out L) (round_call E inp L) mem (round_event E inp L)

/-- The locals at the end of a round that produced output. -/
def round_next {σ : Type} (H : Host) (E : Engine σ) (inp : List Nat) (L : Locals σ)
    (mem : List Nat) : Locals σ :=
  decompress_account (round_after H E inp L mem) (available (round_after H E inp L mem))

/-- Where a run of the decompress loop ends, from locals that satisfy `I`: out
of fuel, in a store outside the block, in the return after a hard error, in the
return after a round without output, or in the successful return. `L` is the
state at the head of the last round. -/
def DecompressEnds {σ : Type} (H : Host) (E : Engine σ) (inp : List Nat) (sp : Bool)
    (I : Locals σ → Prop) (R : Run) : Prop :=
  (∃ L, I L ∧ R = Run.timeout L.trace) ∨
  (∃ L, I L ∧ round_store E inp L = none ∧
    R = Run.crash (L.trace ++ [round_event E inp L])) ∨
  (∃ L mem, I L ∧ round_store E inp L = some mem ∧ hard_error (round_call E inp L).code ∧
    R = Run.null (L.trace ++ [round_event E inp L, Event.free, Event.inflateEnd])) ∨
  (∃ L mem, I L ∧ round_store E inp L = some mem ∧ ¬ hard_error (round_call E inp L).code ∧
    ¬ available (round_after H E inp L mem) > 0 ∧
    R = Run.null (L.trace ++ [round_event E inp L, Event.inflateEnd, Event.free])) ∨
  (∃ L mem, I L ∧ round_store E inp L = some mem ∧ ¬ hard_error (round_call E inp L).code ∧
    available (round_after H E inp L mem) > 0 ∧
    (round_call E inp L).code = Z_STREAM_END ∧ I (round_next H E inp L mem) ∧
    R = Run.ok (round_next H E inp L mem).out_buff
      (if sp then some (round_next H E inp L mem).writed else none)
      ((round_next H E inp L mem).trace ++ [Event.inflateEnd]))

/-- An `inflate` entry whose return code is one of the four hard errors. -/
def hard_event : Event → Prop
  | .inflate _ _ _ _ _ c => hard_error c
  | _ => False

/-- An init call made in the raw-DEFLATE convention: a negative window-bits
argument. -/
def raw_init : Event → Bool
  | .deflateInit2 _ _ windowBits _ _ _ => decide (windowBits < 0)
  | .inflateInit2 windowBits _ => decide (windowBits < 0)
  | _ => false

/-- The locals `L` with the input cursor moved to offset `k`. -/
def rebase {σ : Type} (L : Locals σ) (k : Nat) : Locals σ :=
  { L with zip := { L.zip with next_in := k } }

/-- A gzip-framed block of `m + 2` bytes: the magic bytes, then `m` zero bytes. -/
def zero_block (m : Nat) : List Nat := 0x1f :: 0x8b :: List.replicate m 0

/-- The assumption that the engine's `inflate` inverts its `deflate`, for a
`deflate` stream opened by the init result `d0` and an `inflate` stream opened
by `i0`.  `enc P` is the stream of the payload `P`.  `DS s i rest` says that the
deflate state `s`, with the input `i` still to be fed, has `rest` still to emit;
`IS s i out` says that the inflate state `s`, with the input `i` still unread,
has `out` still to produce.  A `deflate` step emits a part of what is left and
makes progress; `deflate` with `Z_FINISH` reports `Z_STREAM_END` when nothing is
left; an `inflate` step over the whole rest of the stream fills the output
window, and reports `Z_STREAM_END` with the last byte. -/
structure Codec {σ : Type} (E : Engine σ) (d0 i0 : Int × σ) where
  enc : List Nat → List Nat
  DS : σ → List Nat → List Nat → Prop
  IS : σ → List Nat → List Nat → Prop
  d_ok : d0.1 = Z_OK
  i_ok : i0.1 = Z_OK
  enc_pos : ∀ P, P ≠ [] → enc P ≠ []
  d_start : ∀ P, DS d0.2 P (enc P)
  i_start : ∀ P, IS i0.2 (enc P) P
  d_feed : ∀ s i rest w, DS s i rest → i ≠ [] → 0 < w →
    (E.deflate s Z_NO_FLUSH i w).code = Z_OK ∧
    (0 < (E.deflate s Z_NO_FLUSH i w).consumed ∨ (E.deflate s Z_NO_FLUSH i w).produced ≠ []) ∧
    ∃ rest2, rest = (E.deflate s Z_NO_FLUSH i w).produced ++ rest2 ∧
      DS (E.deflate s Z_NO_FLUSH i w).next (i.drop (E.deflate s Z_NO_FLUSH i w).consumed) rest2
  d_finish : ∀ s rest w, DS s [] rest → 0 < w →
    ∃ rest2, rest = (E.deflate s Z_FINISH [] w).produced ++ rest2 ∧
      DS (E.deflate s Z_FINISH [] w).next [] rest2 ∧
      (((E.deflate s Z_FINISH [] w).code = Z_STREAM_END ∧ rest2 = []) ∨
       ((E.deflate s Z_FINISH [] w).code = Z_OK ∧ (E.deflate s Z_FINISH [] w).produced ≠ []))
  i_step : ∀ s i out w, IS s i out → out ≠ [] → 0 < w →
    (E.inflate s Z_NO_FLUSH i w).produced = out.take w ∧
    (E.inflate s Z_NO_FLUSH i w).code = (if out.length ≤ w then Z_STREAM_END else Z_OK) ∧
    IS (E.inflate s Z_NO_FLUSH i w).next (i.drop (E.inflate s Z_NO_FLUSH i w).consumed)
      (out.drop w)

/-- The store engine satisfies the assumption, for every pair of its init
calls: the stream of `P` is `78` followed by `P`. -/
def storeCodec (d0 i0 : Int × Option (List Nat)) (hd : d0 = (Z_OK, none))
    (hi : i0 = (Z_OK, none)) : Codec storeEngine d0 i0 where
  enc := fun P => 0x78 :: P
  DS := fun s i rest =>
    match s with
    | none => rest = 0x78 :: i
    | some p => rest = p ++ i
  IS := fun s i out =>
    match s with
    | none => i = 0x78 :: out
    | some p => out = p ++ i
  d_ok := by rw [hd]
  i_ok := by rw [hi]
  enc_pos := by intro P _; simp
  d_start := by intro P; rw [hd]
  i_start := by intro P; rw [hi]
  d_feed := by
    intro s i rest w h hi hw
    have hil : 0 < i.length := List.length_pos.mpr hi
    cases s with
    | none =>
      simp only at h
      subst h
      refine ⟨?_, Or.inl hil, (0x78 :: i).drop w, ?_, ?_⟩
      · simp [storeEngine, storeDeflate, handOut, Z_NO_FLUSH, Z_FINISH]
      · simp [storeEngine, storeDeflate, handOut]
      · simp [storeEngine, storeDeflate, handOut]
    | some p =>
      simp only at h
      subst h
      refine ⟨?_, Or.inl hil, (p ++ i).drop w, ?_, ?_⟩
      · simp [storeEngine, storeDeflate, handOut, Z_NO_FLUSH, Z_FINISH]
      · simp [storeEngine, storeDeflate, handOut]
      · simp [storeEngine, storeDeflate, handOut]
  d_finish := by
    intro s rest w h hw
    cases s with
    | none =>
      simp only at h
      subst h
      refine ⟨[0x78].drop w, ?_, ?_, ?_⟩
      · simp [storeEngine, storeDeflate, handOut]
      · simp [storeEngine, storeDeflate, handOut]
      · left
        have : 1 ≤ w := hw
        simp [storeEngine, storeDeflate, handOut, this]
    | some p =>
      simp only at h
      subst h
      refine ⟨(p ++ []).drop w, ?_, ?_, ?_⟩
      · simp [storeEngine, storeDeflate, handOut]
      · simp [storeEngine, storeDeflate, handOut]
      · by_cases hl : (p ++ []).length ≤ w
        · left
          simp only [List.append_nil, List.length_append, List.length_nil, Nat.add_zero] at hl
          simp [storeEngine, storeDeflate, handOut, hl]
        · right
          simp only [List.append_nil] at hl
          have hp : p ≠ [] := by
            intro h0; subst h0; simp at hl
          have hw0 : w ≠ 0 := by omega
          simp [storeEngine, storeDeflate, handOut, hl, hp, hw0, Z_OK]
  i_step := by
    intro s i out w h ho hw
    cases s with
    | none =>
      simp only at h
      subst h
      simp [storeEngine, storeInflate, handOut]
    | some p =>
      simp only at h
      subst h
      simp [storeEngine, storeInflate, handOut]

/-- The invariant of the decompress loop under the codec assumption, at the
head of a round: the block holds the first `writed` bytes of `P`, the window is
a whole chunk, and the engine has the rest of `P` still to produce. -/
structure DInv {σ : Type} {E : Engine σ} {d0 i0 : Int × σ} (K : Codec E d0 i0)
    (P inp : List Nat) (L : Locals σ) : Prop where
  len : L.out_buff.length = L.out_size
  wr : L.writed + NHR_GZ_CHUNK_SIZE = L.out_size
  av : L.zip.avail_out = NHR_GZ_CHUNK_SIZE
  got : L.out_buff.take L.writed = P.take L.writed
  more : L.writed < P.length
  eng : K.IS L.zip.state (window inp L.zip) (P.drop L.writed)

/-- A payload of `2^32 - 1` zero bytes. -/
def bigPayload : List Nat := List.replicate (2 ^ 32 - 1) 0

/-- A 10,000-byte repeating pattern. -/
def pattern10k : List Nat := (List.range 10000).map (fun i => i % 251)

/-- The available-input count an engine step was called with; nothing for the
other calls. -/
def Event.avail_in : Event → Option Nat
  | .deflate _ a _ _ _ _ _ => some a
  | .inflate a _ _ _ _ _ => some a
  | _ => none

/-- The available-input count of the first engine step of a trace. -/
def first_avail_in (tr : List Event) : Option Nat := tr.findSome? Event.avail_in

/-- A payload of `2^32 + 1` zero bytes. -/
def overPayload : List Nat := List.replicate (2 ^ 32 + 1) 0

/-- The size asked of an allocation; nothing for the other calls. -/
def Event.alloc : Event → Option Nat
  | .malloc s => some s
  | _ => none

/-- The capacities the output buffer has over a trace, in order: the sizes of
its allocations. -/
def capacities (tr : List Event) : List Nat := tr.filterMap Event.alloc

/-- Each capacity is the one before plus the chunk size. -/
def chunk_steps (cs : List Nat) : Prop :=
  List.Chain' (fun a b => b = a + NHR_GZ_CHUNK_SIZE) cs

/-- The invariant of the loops for the growth of the buffer: the capacities so
far go up in chunks and the last one is the current capacity. -/
def GrowInv {σ : Type} (L : Locals σ) : Prop :=
  chunk_steps (capacities L.trace) ∧ (capacities L.trace).getLast? = some L.out_size

/-- The output window of an engine step: where it starts in the output block,
how many bytes it offers, the size of the block, and how many bytes the step
produced. -/
structure Win where
  next_out : Nat
  avail_out : Nat
  capacity : Nat
  produced : Nat
  deriving DecidableEq, Repr

/-- The output window of a step event; nothing for the other calls. -/
def Event.win : Event → Option Win
  | .deflate _ _ o a c p _ => some ⟨o, a, c, p.length⟩
  | .inflate _ o a c p _ => some ⟨o, a, c, p.length⟩
  | _ => none

/-- The output windows of the engine steps of a trace, in order. -/
def windows (tr : List Event) : List Win := tr.filterMap Event.win

/-- The window is not empty, starts inside the block and ends inside it. -/
def Win.inside (w : Win) : Prop :=
  0 < w.avail_out ∧ w.next_out < w.capacity ∧ w.next_out + w.avail_out ≤ w.capacity

instance (w : Win) : Decidable w.inside := by
  unfold Win.inside; infer_instance

/-- The window the next step is to be given after the step with window `w`:
it starts at the end of the bytes written; when `w` was filled, the block is 512
bytes larger and the window is a whole chunk, else the block is the same and the
window is what was left of `w`. -/
def Win.next (w : Win) : Nat × Nat × Nat :=
  (w.next_out + w.produced,
   if w.produced = w.avail_out then NHR_GZ_CHUNK_SIZE else w.avail_out - w.produced,
   if w.produced = w.avail_out then w.capacity + NHR_GZ_CHUNK_SIZE else w.capacity)

/-- The window `b` is the one that is to follow `a`. -/
def Win.follows (a b : Win) : Prop := (b.next_out, b.avail_out, b.capacity) = a.next

instance (a b : Win) : Decidable (a.follows b) := by
  unfold Win.follows; infer_instance

/-- The window the compress loops give the next step from the locals `L`, after
the growth statement. -/
def pending {σ : Type} (L : Locals σ) : Nat × Nat × Nat :=
  (L.zip.next_out,
   if L.zip.avail_out = 0 then NHR_GZ_CHUNK_SIZE else L.zip.avail_out,
   if L.zip.avail_out = 0 then L.out_size + NHR_GZ_CHUNK_SIZE else L.out_size)

/-- The window invariant of the compress loops: every step so far had its
window inside the block, each window follows the one before, and the window of
the next step follows the last one. -/
structure WInv {σ : Type} (L : Locals σ) : Prop where
  ins : ∀ w ∈ windows L.trace, w.inside
  chain : List.Chain' Win.follows (windows L.trace)
  last : ∀ w, (windows L.trace).getLast? = some w → w.next = pending L

/-- The call is `deflateEnd` or `inflateEnd`. -/
def Event.is_end : Event → Bool
  | .deflateEnd => true
  | .inflateEnd => true
  | _ => false

/-- The call is an allocation. -/
def Event.is_malloc : Event → Bool
  | .malloc _ => true
  | _ => false

/-- The call is `nhr_free`. -/
def Event.is_free : Event → Bool
  | .free => true
  | _ => false

/-- The call is an init call that returned `Z_OK`. -/
def Event.init_ok : Event → Bool
  | .deflateInit2 _ _ _ _ _ rc => decide (rc = Z_OK)
  | .deflateInit _ rc => decide (rc = Z_OK)
  | .inflateInit2 _ rc => decide (rc = Z_OK)
  | .inflateInit rc => decide (rc = Z_OK)
  | _ => false

/-- The teardown of a run that returned: the engine's end call is made once
when an init call succeeded and never otherwise; only `nhr_free` calls follow
it; and every block allocated is freed, but the one returned. -/
def torn_down (R : Run) : Prop :=
  R.trace.countP Event.is_end = (if R.trace.any Event.init_ok then 1 else 0) ∧
  (∀ pre e post, R.trace = pre ++ e :: post → e.is_end = true →
    ∀ x ∈ post, x = Event.free) ∧
  R.trace.countP Event.is_malloc
    = R.trace.countP Event.is_free + (if R.ret.isSome then 1 else 0)

/-- The invariant of the loops for the teardown: no end call so far, the init
call succeeded, and one block is allocated and not freed. -/
def TInv {σ : Type} (L : Locals σ) : Prop :=
  L.trace.countP Event.is_end = 0 ∧ L.trace.any Event.init_ok = true ∧
  L.trace.countP Event.is_malloc = L.trace.countP Event.is_free + 1

/-- The block `m` with its first bytes replaced by `q`. -/
def rehead (q m : List Nat) : List Nat := q ++ m.drop q.length

/-- The locals `L` with the first bytes of the output block replaced by `q`. -/
def Locals.re {σ : Type} (q : List Nat) (L : Locals σ) : Locals σ :=
  { L with out_buff := rehead q L.out_buff }

/-- The run `R` with the first bytes of the returned block replaced by `q`. -/
def Run.re (q : List Nat) (R : Run) : Run :=
  { R with ret := R.ret.map (rehead q) }

/-- An engine whose first step yields the bytes 1, 2, 3 with `Z_OK` and whose
second step yields 4, 5 with `Z_STREAM_END`. -/
def twoPartEngine : Engine (List Scripted) :=
  scriptEngine Z_OK [⟨Z_OK, 1, [1, 2, 3]⟩, ⟨Z_STREAM_END, 0, [4, 5]⟩]

/-- An engine that behaves as `inflate` does on a stream cut short: one step
yields 300 bytes with `Z_OK` and uses up the input, every later step yields
nothing and reports `Z_BUF_ERROR`. -/
def cutShortEngine : Engine (List Scripted) :=
  scriptEngine Z_OK [⟨Z_OK, 1, List.replicate 300 7⟩]

/-- An engine whose first step yields 300 bytes, whose second yields nothing
and whose third fills the window it is given, all with `Z_OK`. -/
def lateFillEngine : Engine (List Scripted) :=
  scriptEngine Z_OK [⟨Z_OK, 1, List.replicate 300 7⟩, ⟨Z_OK, 0, []⟩,
    ⟨Z_OK, 0, List.replicate 512 9⟩]

/-- An engine whose first step yields 1, 2, 3 with `Z_OK` and whose second
yields nothing and reports `Z_STREAM_END`. -/
def silentEndEngine : Engine (List Scripted) :=
  scriptEngine Z_OK [⟨Z_OK, 1, [1, 2, 3]⟩, ⟨Z_STREAM_END, 0, []⟩]

/-- The return code of an engine step; nothing for the other calls. -/
def Event.code : Event → Option Int
  | .deflate _ _ _ _ _ _ c => some c
  | .inflate _ _ _ _ _ c => some c
  | _ => none

/-- The return codes of the engine steps of a trace, in order. -/
def step_codes (tr : List Event) : List Int := tr.filterMap Event.code

/-- Every window but the last was filled by its step. -/
def full_before_last (ws : List Win) : Prop := ∀ w ∈ ws.dropLast, w.produced = w.avail_out

instance (ws : List Win) : Decidable (full_before_last ws) := by
  unfold full_before_last; infer_instance

/-- The state of the decompress loop at the head of a round when every round
so far filled its window: the window is a whole chunk at the end of the block,
and the block holds the bytes produced so far. -/
structure FInv {σ : Type} (L : Locals σ) : Prop where
  av : L.zip.avail_out = NHR_GZ_CHUNK_SIZE
  wr : L.writed + NHR_GZ_CHUNK_SIZE = L.out_size
  len : L.out_buff.length = L.out_size
  got : L.out_buff.take L.writed = emitted L.trace

/-- The invariant of the decompress loop for runs in which every round before
the last fills its window. -/
def FullInv {σ : Type} (L : Locals σ) : Prop :=
  full_before_last (windows L.trace) →
    (∀ w ∈ windows L.trace, w.inside) ∧
    ((∀ w ∈ windows L.trace, w.produced = w.avail_out) → FInv L)


set_option maxRecDepth 100000

/-! ## The format sniffer and the input checks -/

theorem sniffer_spec (b : List Nat) :
    (nhr_gz_is_gzip_file b b.length = some 1 ↔
      18 < b.length ∧ b[0]? = some 0x1f ∧ b[1]? = some 0x8b) ∧
    (nhr_gz_is_gzip_file b b.length = some 0 ∨ nhr_gz_is_gzip_file b b.length = some 1) := by
  refine ⟨?_, ?_⟩
  · unfold nhr_gz_is_gzip_file NHR_GZ_HEADER_SIZE NHR_GZ_FOOTER_SIZE
    match b with
    | [] => simp
    | [x] => simp
    | x :: y :: t =>
      by_cases hn : (x :: y :: t).length ≤ 10 + 8
      · rw [if_pos hn]
        constructor
        · intro h; simp at h
        · intro h; omega
      · rw [if_neg hn]
        have h18 : 18 < (x :: y :: t).length := by omega
        by_cases hx : x = 0x1f
        · by_cases hy : y = 0x8b
          · simp [hx, hy]; simpa using h18
          · simp [hx, hy]
        · simp [hx]
  · unfold nhr_gz_is_gzip_file NHR_GZ_HEADER_SIZE NHR_GZ_FOOTER_SIZE
    match b with
    | [] => simp
    | [x] => simp
    | x :: y :: t =>
      by_cases hn : (x :: y :: t).length ≤ 10 + 8
      · rw [if_pos hn]; simp
      · rw [if_neg hn]
        by_cases hx : x = 0x1f <;> by_cases hy : y = 0x8b <;> simp [hx, hy]

theorem sniffer_small (m : List Nat) (n : Nat) (hn : n ≤ 18) :
    nhr_gz_is_gzip_file m n = some 0 := by
  unfold nhr_gz_is_gzip_file NHR_GZ_HEADER_SIZE NHR_GZ_FOOTER_SIZE
  rw [if_pos (by omega)]

theorem compress_null_size {σ : Type} (H : Host) (E : Engine σ) (now fuel : Nat) (sp : Bool)
    (method : Nat) (b : List Nat) :
    nhr_gz_compress H E now fuel (some b) 0 sp method = Run.null [] := by
  simp [nhr_gz_compress]

theorem decompress_null_size {σ : Type} (H : Host) (E : Engine σ) (fuel : Nat) (sp : Bool)
    (method : Nat) (b : List Nat) :
    nhr_gz_decompress H E fuel (some b) 0 sp method = Run.null [] := by
  simp [nhr_gz_decompress]

theorem compress_unsupported {σ : Type} (H : Host) (E : Engine σ) (now fuel : Nat) (sp : Bool)
    (method : Nat) (hg : method ≠ H.NHR_GZ_METHOD_GZIP) (hd : method ≠ H.NHR_GZ_METHOD_DEFLATE)
    (b : List Nat) (n : Nat) :
    nhr_gz_compress H E now fuel (some b) n sp method = Run.null [] := by
  by_cases hn : n = 0 <;> simp [nhr_gz_compress, hn, hg, hd]

theorem decompress_unsupported {σ : Type} (H : Host) (E : Engine σ) (fuel : Nat) (sp : Bool)
    (method : Nat) (hg : method ≠ H.NHR_GZ_METHOD_GZIP) (hd : method ≠ H.NHR_GZ_METHOD_DEFLATE)
    (b : List Nat) (n : Nat) :
    nhr_gz_decompress H E fuel (some b) n sp method = Run.null [] := by
  by_cases hn : n = 0 <;> simp [nhr_gz_decompress, hn, hg, hd]

/-- C4. `nhr_gz_is_gzip_file(b, n)` on a block `b` of `n` bytes returns 1 exactly
when `n > 18`, `b[0] = 0x1F` and `b[1] = 0x8B`, and 0 otherwise; for `n <= 18` it
returns 0 on every block, the empty one included: it reads no byte. -/
theorem is_gzip_file_iff (b : List Nat) :
    (nhr_gz_is_gzip_file b b.length = some 1 ↔
      18 < b.length ∧ b[0]? = some 0x1f ∧ b[1]? = some 0x8b) ∧
    (nhr_gz_is_gzip_file b b.length = some 0 ∨ nhr_gz_is_gzip_file b b.length = some 1) ∧
    (∀ (m : List Nat) (n : Nat), n ≤ 18 → nhr_gz_is_gzip_file m n = some 0) := by
  refine ⟨(sniffer_spec b).1, (sniffer_spec b).2, ?_⟩
  intro m n hn
  exact sniffer_small m n hn

/-- Witness of C4: on an empty block with size 18 the sniffer returns 0. -/
theorem is_gzip_file_iff_witness : nhr_gz_is_gzip_file [] 18 = some 0 :=
  (is_gzip_file_iff []).2.2 [] 18 (by decide)

/-- C5. With a null payload pointer or a payload length of 0, for every method,
and with a non-empty payload and a method that is neither gzip nor deflate,
`nhr_gz_compress` and `nhr_gz_decompress` return `NULL` with an empty trace: no
engine init, no allocation, and nothing stored through the size pointer. -/
theorem input_errors {σ : Type} (H : Host) (E : Engine σ) (now fuel : Nat) (sp : Bool)
    (method : Nat) :
    (∀ n, nhr_gz_compress H E now fuel none n sp method = Run.null [] ∧
          nhr_gz_decompress H E fuel none n sp method = Run.null []) ∧
    (∀ b, nhr_gz_compress H E now fuel (some b) 0 sp method = Run.null [] ∧
          nhr_gz_decompress H E fuel (some b) 0 sp method = Run.null []) ∧
    (method ≠ H.NHR_GZ_METHOD_GZIP → method ≠ H.NHR_GZ_METHOD_DEFLATE →
      ∀ b n, nhr_gz_compress H E now fuel (some b) n sp method = Run.null [] ∧
             nhr_gz_decompress H E fuel (some b) n sp method = Run.null []) := by
  refine ⟨fun n => ⟨rfl, rfl⟩, fun b => ⟨?_, ?_⟩, fun hg hd b n => ⟨?_, ?_⟩⟩
  · exact compress_null_size H E now fuel sp method b
  · exact decompress_null_size H E fuel sp method b
  · exact compress_unsupported H E now fuel sp method hg hd b n
  · exact decompress_unsupported H E fuel sp method hg hd b n

/-- Witness of C5: method 7 on the host whose methods are 2 and 1. -/
theorem input_errors_witness :
    nhr_gz_compress hostLP64 storeEngine 0 5 (some fox) 20 true 7 = Run.null [] ∧
    nhr_gz_decompress hostLP64 storeEngine 5 (some fox) 20 true 7 = Run.null [] :=
  (input_errors hostLP64 storeEngine 0 5 true 7).2.2 (by decide) (by decide) fox 20

/-- C6. On a non-empty block of `n` bytes with `n <= 18`, or whose first byte is
not `0x1F`, or whose second byte is not `0x8B`, `nhr_gz_decompress` with the gzip
method returns `NULL` with an empty trace: no engine init, no allocation, and
nothing stored through the size pointer. -/
theorem decompress_not_gzip {σ : Type} (H : Host) (E : Engine σ) (fuel : Nat) (sp : Bool)
    (b : List Nat) (hb : b ≠ [])
    (h : b.length ≤ 18 ∨ b[0]? ≠ some 0x1f ∨ b[1]? ≠ some 0x8b) :
    nhr_gz_decompress H E fuel (some b) b.length sp H.NHR_GZ_METHOD_GZIP = Run.null [] := by
  have h0 : nhr_gz_is_gzip_file b b.length = some 0 := by
    rcases (sniffer_spec b).2 with h0 | h1
    · exact h0
    · have := (sniffer_spec b).1.1 h1
      rcases h with h | h | h
      · omega
      · exact absurd this.2.1 h
      · exact absurd this.2.2 h
  have hlen : b.length ≠ 0 := by
    intro hl; exact hb (List.length_eq_zero.mp hl)
  simp [nhr_gz_decompress, hlen, h0]

/-- Witness of C6: a three-byte block. -/
theorem decompress_not_gzip_witness :
    nhr_gz_decompress hostLP64 storeEngine 5 (some [1, 2, 3]) 3 true 2 = Run.null [] :=
  decompress_not_gzip hostLP64 storeEngine 5 true [1, 2, 3] (by decide) (by decide)

/-! ## Blocks -/

theorem store_eq_some {mem bytes : List Nat} {off : Nat} (h : off + bytes.length ≤ mem.length) :
    store mem off bytes = some (mem.take off ++ bytes ++ mem.drop (off + bytes.length)) := by
  unfold store; rw [if_pos h]

theorem store_some_iff {mem bytes m : List Nat} {off : Nat} :
    store mem off bytes = some m ↔
      off + bytes.length ≤ mem.length ∧
        m = mem.take off ++ bytes ++ mem.drop (off + bytes.length) := by
  unfold store
  by_cases h : off + bytes.length ≤ mem.length
  · rw [if_pos h]; constructor
    · intro e; exact ⟨h, (Option.some.inj e).symm⟩
    · intro e; rw [e.2]
  · rw [if_neg h]; constructor
    · intro e; cases e
    · intro e; exact absurd e.1 h

theorem store_none_iff {mem bytes : List Nat} {off : Nat} :
    store mem off bytes = none ↔ mem.length < off + bytes.length := by
  unfold store
  by_cases h : off + bytes.length ≤ mem.length
  · rw [if_pos h]; constructor
    · intro e; cases e
    · intro e; omega
  · rw [if_neg h]; constructor
    · intro _; omega
    · intro _; rfl

theorem store_length {mem bytes m : List Nat} {off : Nat} (h : store mem off bytes = some m) :
    m.length = mem.length := by
  obtain ⟨hle, rfl⟩ := store_some_iff.mp h
  simp only [List.length_append, List.length_take, List.length_drop]
  omega

theorem store_take {mem bytes m : List Nat} {off : Nat} (h : store mem off bytes = some m)
    (k : Nat) (hk : k ≤ off) : m.take k = mem.take k := by
  obtain ⟨hle, rfl⟩ := store_some_iff.mp h
  rw [List.append_assoc, List.take_append_of_le_length (by simp; omega), List.take_take]
  congr 1; omega

theorem store_drop {mem bytes m : List Nat} {off : Nat} (h : store mem off bytes = some m) :
    m.drop off = bytes ++ mem.drop (off + bytes.length) := by
  obtain ⟨hle, rfl⟩ := store_some_iff.mp h
  rw [List.append_assoc]
  have : (List.take off mem).length = off := by simp; omega
  rw [List.drop_append_of_le_length (by omega), List.drop_of_length_le (by omega)]
  simp

theorem extend_fst (buff : List Nat) (k : Nat) :
    (nhr_gz_extend buff buff.length k).1 = buff ++ List.replicate k 0 := by
  simp [nhr_gz_extend, memcpy, nhr_malloc]

theorem extend_snd (buff : List Nat) (n k : Nat) : (nhr_gz_extend buff n k).2 = n + k := rfl

/-! ## What the engine emitted -/

theorem emitted_append (a b : List Event) : emitted (a ++ b) = emitted a ++ emitted b := by
  induction a with
  | nil => rfl
  | cons e t ih => simp [emitted, ih]

/-! ## The runs of the compress loops -/

theorem compress_finish_ends {σ : Type} (H : Host) (E : Engine σ) (inp : List Nat) (n : Nat)
    (sp : Bool) (method : Nat) (I : Locals σ → Prop)
    (hgrow : ∀ L, I L → L.zip.avail_out = 0 → I (compress_grow L))
    (hstep : ∀ L flush mem, I L → (flush = Z_NO_FLUSH ∨ flush = Z_FINISH) →
      store L.out_buff L.zip.next_out (deflate_call E inp flush L).produced = some mem →
      I (after_step H L (deflate_call E inp flush L) mem
          (deflate_event flush L (deflate_call E inp flush L)))) :
    ∀ fuel L, I L → CompressEnds H E inp n sp method I (compress_finish H E inp n sp method fuel L) := by
  intro fuel
  induction fuel with
  | zero => intro L hL; exact Or.inr (Or.inl ⟨L, hL, rfl⟩)
  | succ fuel ih =>
    intro L hL
    have hL1 : I (maybe_grow L) := by
      unfold maybe_grow
      by_cases h0 : L.zip.avail_out = 0
      · rw [if_pos h0]; exact hgrow L hL h0
      · rw [if_neg h0]; exact hL
    unfold compress_finish
    simp only
    cases hst : store (maybe_grow L).out_buff (maybe_grow L).zip.next_out
        (deflate_call E inp Z_FINISH (maybe_grow L)).produced with
    | none =>
      exact Or.inr (Or.inr (Or.inl ⟨maybe_grow L, Z_FINISH, hL1, Or.inr rfl, hst, rfl⟩))
    | some mem =>
      have hL2 := hstep (maybe_grow L) Z_FINISH mem hL1 (Or.inr rfl) hst
      simp only
      by_cases hok : (deflate_call E inp Z_FINISH (maybe_grow L)).code = Z_OK
      · rw [if_pos hok]; exact ih _ hL2
      · rw [if_neg hok]
        by_cases hend : (deflate_call E inp Z_FINISH (maybe_grow L)).code ≠ Z_STREAM_END
        · rw [if_pos hend]; exact Or.inr (Or.inr (Or.inr ⟨_, hL2, rfl⟩))
        · rw [if_neg hend]; exact Or.inl ⟨_, hL2, rfl⟩

theorem compress_feed_ends {σ : Type} (H : Host) (E : Engine σ) (inp : List Nat) (n : Nat)
    (sp : Bool) (method : Nat) (I : Locals σ → Prop)
    (hgrow : ∀ L, I L → L.zip.avail_out = 0 → I (compress_grow L))
    (hstep : ∀ L flush mem, I L → (flush = Z_NO_FLUSH ∨ flush = Z_FINISH) →
      store L.out_buff L.zip.next_out (deflate_call E inp flush L).produced = some mem →
      I (after_step H L (deflate_call E inp flush L) mem
          (deflate_event flush L (deflate_call E inp flush L)))) :
    ∀ fuel L, I L → CompressEnds H E inp n sp method I (compress_feed H E inp n sp method fuel L) := by
  intro fuel
  induction fuel with
  | zero => intro L hL; exact Or.inr (Or.inl ⟨L, hL, rfl⟩)
  | succ fuel ih =>
    intro L hL
    unfold compress_feed
    by_cases hin : L.zip.avail_in = 0
    · rw [if_pos hin]; exact compress_finish_ends H E inp n sp method I hgrow hstep _ L hL
    · rw [if_neg hin]
      simp only
      cases hst : store L.out_buff L.zip.next_out (deflate_call E inp Z_NO_FLUSH L).produced with
      | none => exact Or.inr (Or.inr (Or.inl ⟨L, Z_NO_FLUSH, hL, Or.inl rfl, hst, rfl⟩))
      | some mem =>
        have hL2 := hstep L Z_NO_FLUSH mem hL (Or.inl rfl) hst
        simp only
        by_cases hok : (deflate_call E inp Z_NO_FLUSH L).code ≠ Z_OK
        · rw [if_pos hok]; exact Or.inr (Or.inr (Or.inr ⟨_, hL2, rfl⟩))
        · rw [if_neg hok]
          apply ih
          unfold maybe_grow
          split
          · exact hgrow _ hL2 (by assumption)
          · exact hL2

/-! ## The layout of the compress output block -/

theorem CInv.total_le {σ : Type} {H : Host} {h : Nat} {hdr : List Nat} {L : Locals σ}
    (c : CInv H h hdr L) : L.zip.total_out ≤ (emitted L.trace).length := by
  rw [c.tot]; exact Nat.mod_le _ _

theorem CInv.total_eq {σ : Type} {H : Host} {h : Nat} {hdr : List Nat} {L : Locals σ}
    (c : CInv H h hdr L) (hT : (emitted L.trace).length < H.abi.uLong_range) :
    L.zip.total_out = (emitted L.trace).length := by
  rw [c.tot]; exact Nat.mod_eq_of_lt hT

theorem emitted_step {σ : Type} (flush : Int) (L : Locals σ) (r : Step σ) :
    emitted (L.trace ++ [deflate_event flush L r]) = emitted L.trace ++ r.produced := by
  simp only [emitted_append, emitted, deflate_event, Event.output, List.append_nil]

theorem cinv_step {σ : Type} {H : Host} (E : Engine σ) (inp : List Nat) {h : Nat} {hdr : List Nat}
    (L : Locals σ) (flush : Int) (mem : List Nat) (c : CInv H h hdr L)
    (hst : store L.out_buff L.zip.next_out (deflate_call E inp flush L).produced = some mem) :
    CInv H h hdr (after_step H L (deflate_call E inp flush L) mem
      (deflate_event flush L (deflate_call E inp flush L))) := by
  have hp : (deflate_call E inp flush L).produced.length ≤ L.zip.avail_out :=
    E.deflate_produced _ _ _ _
  have hlen := c.len; have hwin := c.win; have hpos := c.pos
  have hlo := c.lo
  have hem := emitted_step flush L (deflate_call E inp flush L)
  refine ⟨?_, ?_, ?_, c.wr, ?_, ?_, ?_, ?_⟩
  · simp only [after_step]; rw [store_length hst]; exact c.len
  · simp only [after_step, zstep]; omega
  · show L.zip.next_out + (deflate_call E inp flush L).produced.length
      = h + (emitted (L.trace ++ [deflate_event flush L (deflate_call E inp flush L)])).length
    rw [hem, List.length_append]; omega
  · simp only [after_step, zstep]; omega
  · show (mem.drop h).take (emitted (L.trace ++ [_])).length = emitted (L.trace ++ [_])
    rw [hem, List.length_append, List.take_add, List.drop_drop]
    congr 1
    · rw [List.take_drop, store_take hst _ (by omega), ← List.take_drop]
      exact c.out
    · rw [← hpos, store_drop hst]; simp
  · simp only [after_step]; rw [store_take hst _ (by omega)]; exact c.hd
  · show (L.zip.total_out + (deflate_call E inp flush L).produced.length) % H.abi.uLong_range
      = (emitted (L.trace ++ [_])).length % H.abi.uLong_range
    rw [hem, List.length_append, c.tot, Nat.mod_add_mod]

theorem emitted_grow {σ : Type} (L : Locals σ) :
    emitted (compress_grow L).trace = emitted L.trace := by
  simp only [compress_grow, emitted_append, emitted, Event.output, List.append_nil]

theorem cinv_grow {σ : Type} {H : Host} {h : Nat} {hdr : List Nat} (L : Locals σ)
    (c : CInv H h hdr L) (h0 : L.zip.avail_out = 0) : CInv H h hdr (compress_grow L) := by
  have hlen := c.len; have hwin := c.win; have hpos := c.pos; have hwr := c.wr
  have hb : (nhr_gz_extend L.out_buff L.out_size NHR_GZ_CHUNK_SIZE).1
      = L.out_buff ++ List.replicate NHR_GZ_CHUNK_SIZE 0 := by
    rw [← hlen]; exact extend_fst _ _
  have hem := emitted_grow L
  refine ⟨?_, ?_, ?_, ?_, ?_, ?_, ?_, ?_⟩
  · simp only [compress_grow, hb, extend_snd, List.length_append, List.length_replicate]; omega
  · simp only [compress_grow, extend_snd]; omega
  · rw [hem]; simp only [compress_grow]; omega
  · simp only [compress_grow, extend_snd]; omega
  · simp only [compress_grow]; omega
  · rw [hem]
    show ((nhr_gz_extend L.out_buff L.out_size NHR_GZ_CHUNK_SIZE).1.drop h).take _ = _
    rw [hb, List.drop_append_of_le_length (by omega),
      List.take_append_of_le_length (by rw [List.length_drop]; omega)]
    exact c.out
  · simp only [compress_grow, hb]
    rw [List.take_append_of_le_length (by omega)]
    exact c.hd
  · rw [hem]; exact c.tot

theorem cinv_store {σ : Type} {H : Host} (E : Engine σ) (inp : List Nat) {h : Nat} {hdr : List Nat}
    (L : Locals σ) (flush : Int) (c : CInv H h hdr L) :
    store L.out_buff L.zip.next_out (deflate_call E inp flush L).produced ≠ none := by
  have hp : (deflate_call E inp flush L).produced.length ≤ L.zip.avail_out :=
    E.deflate_produced _ _ _ _
  have hlen := c.len; have hwin := c.win
  rw [Ne, store_none_iff]; omega

theorem CInv.avail {σ : Type} {H : Host} {h : Nat} {hdr : List Nat} {L : Locals σ} (c : CInv H h hdr L) :
    L.zip.avail_out ≤ NHR_GZ_CHUNK_SIZE := by
  have := c.win; have := c.wr; have := c.lo
  omega

/-! ## The footer -/

theorem size_range_big (H : Host) : 2 ^ 32 ≤ H.abi.size_range := by
  cases hh : H.abi <;> simp [DataModel.size_range]

theorem uLong_range_big (H : Host) : 2 ^ 32 ≤ H.abi.uLong_range := by
  cases hh : H.abi <;> simp [DataModel.uLong_range, DataModel.sizeof_uLong]

theorem uLong_range_pos (H : Host) : 0 < H.abi.uLong_range :=
  lt_of_lt_of_le (by norm_num) (uLong_range_big H)

/-- The block the footer writer stores into: the block itself, or the block
with 8 more bytes when fewer than 8 are left. -/
theorem footer_cases {σ : Type} (H : Host) (E : Engine σ) (buff : List Nat) (writed : Nat)
    (src : List Nat) (n : Nat) (hw : writed ≤ buff.length)
    (hs : buff.length - writed < H.abi.size_range) :
    ∃ g evs, (g = buff ∨ g = buff ++ List.replicate 8 0) ∧ emitted evs = [] ∧
      (buff.length - writed < 8 → g = buff ++ List.replicate 8 0) ∧
      (8 ≤ buff.length - writed → g = buff) ∧
      nhr_gz_write_footer H E buff buff.length writed src n =
        ((store g writed
            (le_bytes H.abi.sizeof_uLong (E.crc32 (E.crc32 0 none)
              (some (src.take (n % UINT_RANGE)))))).bind
          (fun b => store b (writed + H.abi.sizeof_uLong) (le_bytes H.abi.sizeof_uLong n)),
          evs) := by
  have hleft : (buff.length + H.abi.size_range - writed) % H.abi.size_range
      = buff.length - writed := by
    have : buff.length + H.abi.size_range - writed = (buff.length - writed) + H.abi.size_range := by
      omega
    rw [this, Nat.add_mod_right, Nat.mod_eq_of_lt hs]
  by_cases h8 : buff.length - writed < 8
  · refine ⟨buff ++ List.replicate 8 0, [Event.malloc (buff.length + 8), Event.free],
      Or.inr rfl, rfl, fun _ => rfl, fun h => by omega, ?_⟩
    simp only [nhr_gz_write_footer, hleft, if_pos h8, extend_fst, extend_snd]
  · refine ⟨buff, [], Or.inl rfl, rfl, fun h => absurd h h8, fun _ => rfl, ?_⟩
    simp only [nhr_gz_write_footer, hleft, if_neg h8]

/-- The shape of a call of the footer writer, whatever is left in the block:
two stores into the block itself or into the block with 8 more bytes. -/
theorem footer_shape {σ : Type} (H : Host) (E : Engine σ) (buff : List Nat) (writed : Nat)
    (src : List Nat) (n : Nat) :
    ∃ g evs, (g = buff ∨ g = buff ++ List.replicate 8 0) ∧ emitted evs = [] ∧
      nhr_gz_write_footer H E buff buff.length writed src n =
        ((store g writed
            (le_bytes H.abi.sizeof_uLong (E.crc32 (E.crc32 0 none)
              (some (src.take (n % UINT_RANGE)))))).bind
          (fun b => store b (writed + H.abi.sizeof_uLong) (le_bytes H.abi.sizeof_uLong n)),
          evs) := by
  by_cases h8 : (buff.length + H.abi.size_range - writed) % H.abi.size_range < 8
  · refine ⟨buff ++ List.replicate 8 0, [Event.malloc (buff.length + 8), Event.free],
      Or.inr rfl, rfl, ?_⟩
    simp only [nhr_gz_write_footer, if_pos h8, extend_fst, extend_snd]
  · refine ⟨buff, [], Or.inl rfl, rfl, ?_⟩
    simp only [nhr_gz_write_footer, if_neg h8]

theorem footer_take {σ : Type} (H : Host) (E : Engine σ) (buff : List Nat) (writed : Nat)
    (src : List Nat) (n : Nat) (hw : writed ≤ buff.length)
    (b : List Nat) (h : (nhr_gz_write_footer H E buff buff.length writed src n).1 = some b) :
    b.take writed = buff.take writed ∧
      emitted (nhr_gz_write_footer H E buff buff.length writed src n).2 = [] := by
  obtain ⟨g, evs, hg, hev, heq⟩ := footer_shape H E buff writed src n
  rw [heq] at h ⊢
  simp only at h ⊢
  refine ⟨?_, hev⟩
  obtain ⟨b1, h1, h2⟩ := Option.bind_eq_some.mp h
  rw [store_take h2 _ (by omega), store_take h1 _ (le_refl _)]
  rcases hg with rfl | rfl
  · rfl
  · exact List.take_append_of_le_length hw

/-! ## The start of `nhr_gz_compress` -/

theorem le_bytes_length (w v : Nat) : (le_bytes w v).length = w := by simp [le_bytes]

theorem gz_header_length (now : Nat) : (gz_header now).length = 10 := by
  simp [gz_header, le_bytes_length]

theorem write_header_eq (now : Nat) :
    nhr_gz_write_header now (nhr_malloc (NHR_GZ_CHUNK_SIZE + NHR_GZ_HEADER_SIZE))
      = some (gz_header now ++ List.replicate NHR_GZ_CHUNK_SIZE 0) := by
  have hl := gz_header_length now
  unfold nhr_gz_write_header
  rw [show [0x1f, 0x8b, 8, 0] ++ le_bytes 4 now ++ [0, 0] = gz_header now from rfl]
  rw [store_eq_some (by
    simp only [nhr_malloc, hl, NHR_GZ_CHUNK_SIZE, NHR_GZ_HEADER_SIZE, List.length_replicate]
    omega)]
  simp only [nhr_malloc, hl, NHR_GZ_HEADER_SIZE, List.take_zero, List.nil_append, Nat.zero_add,
    List.drop_replicate, Nat.add_sub_cancel]

theorem compress_gzip_eq {σ : Type} (H : Host) (E : Engine σ) (now fuel : Nat) (b : List Nat)
    (n : Nat) (sp : Bool) (hn : n ≠ 0) :
    nhr_gz_compress H E now fuel (some b) n sp H.NHR_GZ_METHOD_GZIP =
      if (E.deflateInit2 Z_BEST_COMPRESSION Z_DEFLATED NHR_GZ_WINDOWS_BITS 8
          Z_DEFAULT_STRATEGY).1 ≠ Z_OK then
        Run.null [Event.deflateInit2 Z_BEST_COMPRESSION Z_DEFLATED NHR_GZ_WINDOWS_BITS 8
          Z_DEFAULT_STRATEGY (E.deflateInit2 Z_BEST_COMPRESSION Z_DEFLATED NHR_GZ_WINDOWS_BITS 8
          Z_DEFAULT_STRATEGY).1]
      else compress_feed H E b n sp H.NHR_GZ_METHOD_GZIP fuel (start_gzip E now n) := by
  unfold nhr_gz_compress
  simp only [hn, if_false, if_true, write_header_eq]
  rfl

theorem compress_deflate_eq {σ : Type} (H : Host) (E : Engine σ) (now fuel : Nat) (b : List Nat)
    (n : Nat) (sp : Bool) (hn : n ≠ 0) :
    nhr_gz_compress H E now fuel (some b) n sp H.NHR_GZ_METHOD_DEFLATE =
      if (E.deflateInit Z_BEST_COMPRESSION).1 ≠ Z_OK then
        Run.null [Event.deflateInit Z_BEST_COMPRESSION (E.deflateInit Z_BEST_COMPRESSION).1]
      else compress_feed H E b n sp H.NHR_GZ_METHOD_DEFLATE fuel (start_deflate E n) := by
  have hd : H.NHR_GZ_METHOD_DEFLATE ≠ H.NHR_GZ_METHOD_GZIP := fun h => H.methods_distinct h.symm
  unfold nhr_gz_compress
  simp only [hn, hd, if_false, if_true]
  rfl

theorem cinv_start_gzip {σ : Type} {H : Host} (E : Engine σ) (now n : Nat) :
    CInv H 10 (gz_header now) (start_gzip E now n) := by
  have hl := gz_header_length now
  have he : emitted (start_gzip E now n).trace = [] := rfl
  refine ⟨?_, ?_, ?_, ?_, ?_, ?_, ?_, ?_⟩
  · simp only [start_gzip, List.length_append, List.length_replicate, hl, NHR_GZ_HEADER_SIZE]
    omega
  · simp only [start_gzip]; omega
  · rw [he]; rfl
  · simp only [start_gzip]; omega
  · simp only [start_gzip, le_refl]
  · rw [he]; exact List.take_zero _
  · simp only [start_gzip]
    exact List.take_left' hl
  · rw [he]; exact (Nat.zero_mod _).symm

theorem cinv_start_deflate {σ : Type} {H : Host} (E : Engine σ) (n : Nat) :
    CInv H 0 [] (start_deflate E n) := by
  have he : emitted (start_deflate E n).trace = [] := rfl
  refine ⟨?_, ?_, ?_, ?_, ?_, ?_, ?_, ?_⟩
  · simp only [start_deflate, nhr_malloc, List.length_replicate]
  · simp only [start_deflate]; omega
  · rw [he]; rfl
  · simp only [start_deflate]; omega
  · simp only [start_deflate, le_refl]
  · rw [he]; exact List.take_zero _
  · simp only [start_deflate, List.take_zero]
  · rw [he]; exact (Nat.zero_mod _).symm

/-! ## The layout of what `nhr_gz_compress` returns -/

/-- What `compress_tail` returns from locals that satisfy the layout invariant:
the length it reports is made from `total_out`; the header is kept; the bytes
emitted are kept when `total_out` is their number, and for every method but
gzip. -/
theorem tail_layout {σ : Type} (H : Host) (E : Engine σ) (inp : List Nat) (n : Nat) (sp : Bool)
    (method : Nat) (hdr : List Nat) (L : Locals σ)
    (c : CInv H (header_size H method) hdr L) (buf : List Nat)
    (hret : (compress_tail H E inp n sp method L).ret = some buf) :
    emitted (compress_tail H E inp n sp method L).trace = emitted L.trace ∧
    (compress_tail H E inp n sp method L).size_out =
      (if sp then some (header_size H method + L.zip.total_out + footer_size H method)
        else none) ∧
    buf.take (header_size H method) = hdr ∧
    (((emitted L.trace).length < H.abi.uLong_range ∨ method ≠ H.NHR_GZ_METHOD_GZIP) →
      (buf.drop (header_size H method)).take (emitted L.trace).length = emitted L.trace) := by
  have hlen := c.len; have hwin := c.win; have hpos := c.pos; have hle := c.total_le
  have hhd := c.hd; have hout := c.out
  unfold compress_tail at hret ⊢
  by_cases hg : method = H.NHR_GZ_METHOD_GZIP
  · simp only [header_size, footer_size, hg, if_true] at hret hpos hhd hout ⊢
    rw [← hlen] at hret ⊢
    have hw : L.zip.total_out + NHR_GZ_HEADER_SIZE ≤ L.out_buff.length := by omega
    cases hf : (nhr_gz_write_footer H E L.out_buff L.out_buff.length
        (L.zip.total_out + NHR_GZ_HEADER_SIZE) inp n).1 with
    | none => rw [hf] at hret; simp [Run.crash] at hret
    | some b =>
      rw [hf] at hret
      simp only [Run.ok, Option.some.injEq] at hret
      obtain ⟨ht, he⟩ := footer_take H E L.out_buff _ inp n hw b hf
      subst hret
      refine ⟨?_, ?_, ?_, ?_⟩
      · simp only [Run.ok, emitted_append, he, emitted, Event.output, List.append_nil]
      · simp only [Run.ok]
        rw [Nat.add_comm NHR_GZ_HEADER_SIZE]
      · have := congrArg (List.take NHR_GZ_HEADER_SIZE) ht
        rw [List.take_take, List.take_take, Nat.min_eq_left (Nat.le_add_left _ _)] at this
        rw [this]; exact hhd
      · intro hT
        have htot : L.zip.total_out = (emitted L.trace).length := by
          rcases hT with hT | hT
          · exact c.total_eq hT
          · exact absurd rfl hT
        rw [htot] at ht
        rw [List.take_drop, Nat.add_comm, ht, Nat.add_comm, ← List.take_drop]
        exact hout
  · simp only [header_size, footer_size, hg, if_false] at hret hhd hout ⊢
    simp only [Run.ok, Option.some.injEq] at hret
    subst hret
    refine ⟨?_, ?_, hhd, fun _ => hout⟩
    · simp only [Run.ok, emitted_append, emitted, Event.output, List.append_nil]
    · simp only [Run.ok, Nat.zero_add, Nat.add_zero]

/-- The loops of `nhr_gz_compress` keep the layout invariant and end in
`compress_tail`, out of fuel, or in the error return. -/
theorem compress_feed_cinv {σ : Type} (H : Host) (E : Engine σ) (inp : List Nat) (n : Nat)
    (sp : Bool) (method : Nat) (h : Nat) (hdr : List Nat) (fuel : Nat) (L : Locals σ)
    (c : CInv H h hdr L) :
    CompressEnds H E inp n sp method (CInv H h hdr) (compress_feed H E inp n sp method fuel L) :=
  compress_feed_ends H E inp n sp method (CInv H h hdr)
    (fun L c h0 => cinv_grow L c h0)
    (fun L flush mem c _ hst => cinv_step E inp L flush mem c hst) fuel L c

/-- What a run of the compress loops returns, `T` being the number of bytes the
engine emitted: the reported length is the header size, `T` modulo the range of
`uLong` and the footer size; the header is in place; the bytes emitted follow
it when `T` is below the range of `uLong`, and for every method but gzip. -/
theorem feed_layout {σ : Type} (H : Host) (E : Engine σ) (inp : List Nat) (n : Nat) (sp : Bool)
    (method : Nat) (hdr : List Nat) (fuel : Nat) (L : Locals σ)
    (c : CInv H (header_size H method) hdr L) (buf : List Nat)
    (hret : (compress_feed H E inp n sp method fuel L).ret = some buf) :
    (compress_feed H E inp n sp method fuel L).size_out =
      (if sp then
        some (header_size H method
          + (emitted (compress_feed H E inp n sp method fuel L).trace).length
              % H.abi.uLong_range
          + footer_size H method)
       else none) ∧
    buf.take (header_size H method) = hdr ∧
    (((emitted (compress_feed H E inp n sp method fuel L).trace).length < H.abi.uLong_range ∨
        method ≠ H.NHR_GZ_METHOD_GZIP) →
      (buf.drop (header_size H method)).take
          (emitted (compress_feed H E inp n sp method fuel L).trace).length
        = emitted (compress_feed H E inp n sp method fuel L).trace) := by
  rcases compress_feed_cinv H E inp n sp method _ hdr fuel L c with
    ⟨L1, c1, hR⟩ | ⟨L1, -, hR⟩ | ⟨L1, fl, -, -, -, hR⟩ | ⟨L1, -, hR⟩
  · rw [hR] at hret ⊢
    obtain ⟨he, hs, hh, hl⟩ := tail_layout H E inp n sp method hdr L1 c1 buf hret
    rw [he, hs, c1.tot]
    exact ⟨rfl, hh, hl⟩
  · rw [hR] at hret; simp [Run.timeout] at hret
  · rw [hR] at hret; simp [Run.crash] at hret
  · rw [hR] at hret; simp [Run.null] at hret

/-- What `nhr_gz_compress` returns, for every method: see `feed_layout`. -/
theorem compress_shape {σ : Type} (H : Host) (E : Engine σ) (now fuel : Nat) (b : List Nat)
    (n : Nat) (sp : Bool) (method : Nat) (buf : List Nat)
    (hret : (nhr_gz_compress H E now fuel (some b) n sp method).ret = some buf) :
    (nhr_gz_compress H E now fuel (some b) n sp method).size_out =
      (if sp then
        some (header_size H method
          + (emitted (nhr_gz_compress H E now fuel (some b) n sp method).trace).length
              % H.abi.uLong_range
          + footer_size H method)
       else none) ∧
    buf.take (header_size H method)
      = (if method = H.NHR_GZ_METHOD_GZIP then gz_header now else []) ∧
    (((emitted (nhr_gz_compress H E now fuel (some b) n sp method).trace).length
          < H.abi.uLong_range ∨ method ≠ H.NHR_GZ_METHOD_GZIP) →
      (buf.drop (header_size H method)).take
          (emitted (nhr_gz_compress H E now fuel (some b) n sp method).trace).length
        = emitted (nhr_gz_compress H E now fuel (some b) n sp method).trace) := by
  by_cases hn : n = 0
  · subst hn
    rw [compress_null_size H E now fuel sp method b] at hret
    simp [Run.null] at hret
  by_cases hg : method = H.NHR_GZ_METHOD_GZIP
  · subst hg
    rw [compress_gzip_eq H E now fuel b n sp hn] at hret ⊢
    split at hret
    · simp [Run.null] at hret
    · rename_i hrc
      rw [if_neg hrc, if_pos rfl]
      have c : CInv H (header_size H H.NHR_GZ_METHOD_GZIP) (gz_header now) (start_gzip E now n) := by
        simp only [header_size, if_true, NHR_GZ_HEADER_SIZE]; exact cinv_start_gzip E now n
      exact feed_layout H E b n sp _ _ fuel _ c buf hret
  by_cases hd : method = H.NHR_GZ_METHOD_DEFLATE
  · subst hd
    rw [compress_deflate_eq H E now fuel b n sp hn] at hret ⊢
    split at hret
    · simp [Run.null] at hret
    · rename_i hrc
      rw [if_neg hrc, if_neg hg]
      have c : CInv H (header_size H H.NHR_GZ_METHOD_DEFLATE) [] (start_deflate E n) := by
        simp only [header_size, hg, if_false]; exact cinv_start_deflate E n
      exact feed_layout H E b n sp _ _ fuel _ c buf hret
  · rw [compress_unsupported H E now fuel sp method hg hd b n] at hret
    simp [Run.null] at hret

theorem gz_header_take4 (now : Nat) : (gz_header now).take 4 = [0x1f, 0x8b, 8, 0] := rfl

theorem gz_header_get8 (now : Nat) : (gz_header now)[8]? = some 0 := by
  simp [gz_header, le_bytes, List.range_succ]

theorem gz_header_get9 (now : Nat) : (gz_header now)[9]? = some 0 := by
  simp [gz_header, le_bytes, List.range_succ]

theorem take_get {l : List Nat} {k : Nat} {hdr : List Nat} (h : l.take k = hdr) (i : Nat)
    (hi : i < k) : l[i]? = hdr[i]? := by
  rw [← h, List.getElem?_take, if_pos hi]

/-! ## The footer bytes -/

theorem footer_bytes {σ : Type} (H : Host) (E : Engine σ) (buff : List Nat) (writed : Nat)
    (src : List Nat) (n : Nat)
    (b : List Nat) (h : (nhr_gz_write_footer H E buff buff.length writed src n).1 = some b) :
    (b.drop writed).take (H.abi.sizeof_uLong + H.abi.sizeof_uLong)
      = le_bytes H.abi.sizeof_uLong (E.crc32 (E.crc32 0 none) (some (src.take (n % UINT_RANGE))))
        ++ le_bytes H.abi.sizeof_uLong n ∧
    writed + (H.abi.sizeof_uLong + H.abi.sizeof_uLong) ≤ b.length := by
  obtain ⟨g, evs, -, -, heq⟩ := footer_shape H E buff writed src n
  rw [heq] at h
  simp only at h
  obtain ⟨b1, h1, h2⟩ := Option.bind_eq_some.mp h
  have hl1 := le_bytes_length H.abi.sizeof_uLong
    (E.crc32 (E.crc32 0 none) (some (src.take (n % UINT_RANGE))))
  have hl2 := le_bytes_length H.abi.sizeof_uLong n
  constructor
  · rw [List.take_add, List.drop_drop]
    congr 1
    · rw [List.take_drop, store_take h2 _ (le_refl _), ← List.take_drop, store_drop h1]
      rw [List.take_append_of_le_length (by omega), List.take_of_length_le (by omega)]
    · rw [store_drop h2]
      rw [List.take_append_of_le_length (by omega), List.take_of_length_le (by omega)]
  · have := (store_some_iff.mp h2).1
    rw [hl2] at this
    have hb := store_length h2
    omega

/-- On a host whose `unsigned long` is 4 bytes: when `nhr_gz_compress` with the
gzip method returns a block and stores the length `len`, the 8 bytes of the
block before offset `len` are the CRC-32 the engine computes over the first
`n mod 2^32` payload bytes, then `n mod 2^32`, each in 4 bytes, least
significant byte first. -/
theorem footer_ulong32 {σ : Type} (H : Host) (E : Engine σ) (now fuel : Nat) (b : List Nat)
    (n : Nat) (buf : List Nat) (len : Nat) (h4 : H.abi.sizeof_uLong = 4)
    (hret : (nhr_gz_compress H E now fuel (some b) n true H.NHR_GZ_METHOD_GZIP).ret = some buf)
    (hlen : (nhr_gz_compress H E now fuel (some b) n true H.NHR_GZ_METHOD_GZIP).size_out
      = some len) :
    8 ≤ len ∧ len ≤ buf.length ∧
    (buf.drop (len - 8)).take 8
      = le_bytes 4 (E.crc32 (E.crc32 0 none) (some (b.take (n % UINT_RANGE)))) ++ le_bytes 4 n := by
  have hn : n ≠ 0 := by
    intro h0; subst h0
    rw [compress_null_size H E now fuel true _ b] at hret
    simp [Run.null] at hret
  rw [compress_gzip_eq H E now fuel b n true hn] at hret hlen
  split at hret
  · simp [Run.null] at hret
  rename_i hrc
  rw [if_neg hrc] at hlen
  have c : CInv H 10 (gz_header now) (start_gzip E now n) := cinv_start_gzip E now n
  rcases compress_feed_cinv H E b n true _ _ (gz_header now) fuel _ c with
    ⟨L1, c1, hR⟩ | ⟨L1, -, hR⟩ | ⟨L1, fl, -, -, -, hR⟩ | ⟨L1, -, hR⟩
  · rw [hR] at hret hlen
    have hl := c1.len
    unfold compress_tail at hret hlen
    simp only [if_true] at hret hlen
    rw [← hl] at hret hlen
    cases hf : (nhr_gz_write_footer H E L1.out_buff L1.out_buff.length
        (L1.zip.total_out + NHR_GZ_HEADER_SIZE) b n).1 with
    | none => rw [hf] at hret; simp [Run.crash] at hret
    | some bf =>
      rw [hf] at hret hlen
      simp only [Run.ok, Option.some.injEq, if_true] at hret hlen
      subst hret
      obtain ⟨hb, hle⟩ := footer_bytes H E L1.out_buff _ b n bf hf
      rw [h4] at hb hle
      simp only [NHR_GZ_FOOTER_SIZE] at hlen
      subst hlen
      refine ⟨by omega, by omega, ?_⟩
      rw [Nat.add_sub_cancel]
      exact hb
  · rw [hR] at hret; simp [Run.timeout] at hret
  · rw [hR] at hret; simp [Run.crash] at hret
  · rw [hR] at hret; simp [Run.null] at hret

/-- Witness of `footer_ulong32`: a one-byte payload on a 32-bit host. -/
theorem footer_ulong32_witness :
    ((nhr_gz_compress hostILP32 storeEngine 0 9 (some [0x61]) 1 true 2).ret.map
      (fun buf => (buf.drop (20 - 8)).take 8))
      = some [0x43, 0xBE, 0xB7, 0xE8, 1, 0, 0, 0] := by
  have h := footer_ulong32 hostILP32 storeEngine 0 9 [0x61] 1
      (((nhr_gz_compress hostILP32 storeEngine 0 9 (some [0x61]) 1 true 2).ret).getD []) 20 rfl
      (by decide) (by decide)
  have hr : (nhr_gz_compress hostILP32 storeEngine 0 9 (some [0x61]) 1 true 2).ret
      = some (((nhr_gz_compress hostILP32 storeEngine 0 9 (some [0x61]) 1 true 2).ret).getD []) := by
    decide
  rw [hr, Option.map_some', h.2.2]
  decide

/-- C3, the code at a failing input. On a host whose `unsigned long` is 8 bytes
(LP64), `nhr_gz_compress` with the gzip method on the one-byte payload `61`
stores the length 20, and the last 8 bytes of that output are the CRC-32
`E8B7BE43` in 4 bytes followed by four zero bytes: the length field `01 00 00 00`
that the gzip footer has after the CRC is written past offset 20. -/
theorem footer_on_lp64 :
    (nhr_gz_compress hostLP64 storeEngine 0 9 (some [0x61]) 1 true 2).size_out = some 20 ∧
    ((nhr_gz_compress hostLP64 storeEngine 0 9 (some [0x61]) 1 true 2).ret.map
      (fun buf => (buf.drop (20 - 8)).take 8))
      = some [0x43, 0xBE, 0xB7, 0xE8, 0, 0, 0, 0] ∧
    le_bytes 4 (storeEngine.crc32 (storeEngine.crc32 0 none) (some [0x61])) ++ le_bytes 4 1
      = [0x43, 0xBE, 0xB7, 0xE8, 1, 0, 0, 0] := by
  decide

theorem decompress_loop_succ {σ : Type} (H : Host) (E : Engine σ) (inp : List Nat) (sp : Bool)
    (fuel : Nat) (L : Locals σ) :
    decompress_loop H E inp sp (fuel + 1) L =
      match round_store E inp L with
      | none => Run.crash (L.trace ++ [round_event E inp L])
      | some mem =>
        if hard_error (round_call E inp L).code then
          Run.null (L.trace ++ [round_event E inp L, Event.free, Event.inflateEnd])
        else if available (round_after H E inp L mem) > 0 then
          if (round_call E inp L).code ≠ Z_STREAM_END then
            decompress_loop H E inp sp fuel (round_next H E inp L mem)
          else
            Run.ok (round_next H E inp L mem).out_buff
              (if sp then some (round_next H E inp L mem).writed else none)
              ((round_next H E inp L mem).trace ++ [Event.inflateEnd])
        else Run.null (L.trace ++ [round_event E inp L, Event.inflateEnd, Event.free]) := by
  rw [decompress_loop]
  simp only [round_store, round_call, round_event, round_after, round_next, point_out,
    after_step, List.append_assoc, List.singleton_append]

theorem decompress_loop_ends {σ : Type} (H : Host) (E : Engine σ) (inp : List Nat) (sp : Bool)
    (I : Locals σ → Prop)
    (hstep : ∀ L mem, I L → round_store E inp L = some mem →
      ¬ hard_error (round_call E inp L).code → available (round_after H E inp L mem) > 0 →
      I (round_next H E inp L mem)) :
    ∀ fuel L, I L → DecompressEnds H E inp sp I (decompress_loop H E inp sp fuel L) := by
  intro fuel
  induction fuel with
  | zero => intro L hL; exact Or.inl ⟨L, hL, rfl⟩
  | succ fuel ih =>
    intro L hL
    rw [decompress_loop_succ]
    cases hst : round_store E inp L with
    | none => exact Or.inr (Or.inl ⟨L, hL, hst, rfl⟩)
    | some mem =>
      simp only
      by_cases hh : hard_error (round_call E inp L).code
      · rw [if_pos hh]
        exact Or.inr (Or.inr (Or.inl ⟨L, mem, hL, hst, hh, rfl⟩))
      · rw [if_neg hh]
        by_cases hav : available (round_after H E inp L mem) > 0
        · rw [if_pos hav]
          have hI := hstep L mem hL hst hh hav
          by_cases hend : (round_call E inp L).code ≠ Z_STREAM_END
          · rw [if_pos hend]; exact ih _ hI
          · rw [if_neg hend]
            exact Or.inr (Or.inr (Or.inr (Or.inr
              ⟨L, mem, hL, hst, hh, hav, not_not.mp hend, hI, rfl⟩)))
        · rw [if_neg hav]
          exact Or.inr (Or.inr (Or.inr (Or.inl ⟨L, mem, hL, hst, hh, hav, rfl⟩)))

theorem split_unique (P : Event → Prop) {a ev : Event} (hev : P ev) :
    ∀ {l pre post rest : List Event}, (∀ e ∈ l, ¬ P e) → (∀ e ∈ rest, ¬ P e) →
      l ++ a :: rest = pre ++ ev :: post → pre = l ∧ a = ev ∧ post = rest := by
  intro l
  induction l with
  | nil =>
    intro pre post rest _ hrest h
    cases pre with
    | nil =>
      simp only [List.nil_append, List.cons.injEq] at h
      exact ⟨rfl, h.1, h.2.symm⟩
    | cons x pre =>
      simp only [List.nil_append, List.cons_append, List.cons.injEq] at h
      exact absurd hev (hrest ev (by rw [h.2]; simp))
  | cons y l ih =>
    intro pre post rest hl hrest h
    cases pre with
    | nil =>
      simp only [List.nil_append, List.cons_append, List.cons.injEq] at h
      exact absurd hev (by rw [← h.1]; exact hl y (by simp))
    | cons x pre =>
      simp only [List.cons_append, List.cons.injEq] at h
      obtain ⟨hp, ha, hpost⟩ := ih (fun e he => hl e (by simp [he])) hrest h.2
      exact ⟨by rw [hp, h.1], ha, hpost⟩

theorem no_split (P : Event → Prop) {ev : Event} (hev : P ev) {l pre post : List Event}
    (hl : ∀ e ∈ l, ¬ P e) (h : l = pre ++ ev :: post) : False :=
  hl ev (by rw [h]; simp) hev

theorem round_event_eq {σ : Type} (E : Engine σ) (inp : List Nat) (L : Locals σ) :
    round_event E inp L = Event.inflate L.zip.avail_in L.writed L.zip.avail_out
      L.out_buff.length (round_call E inp L).produced (round_call E inp L).code := rfl

theorem round_next_trace {σ : Type} (H : Host) (E : Engine σ) (inp : List Nat) (L : Locals σ)
    (mem : List Nat) :
    (round_next H E inp L mem).trace = L.trace ++ [round_event E inp L] ∨
    (round_next H E inp L mem).trace = L.trace ++ [round_event E inp L] ++
      [Event.malloc ((round_after H E inp L mem).out_size + NHR_GZ_CHUNK_SIZE), Event.free] := by
  unfold round_next decompress_account
  simp only
  split
  · left; rfl
  · right; rfl

/-- C7. If a round of `nhr_gz_decompress` gets one of the hard errors
(need-dictionary, data error, memory error, stream error) from `inflate`, that
step is the last engine step of the call: the call returns `NULL` after freeing
the block and ending the engine, and nothing is stored through the size
pointer.  (The other case listed is a step that itself wrote past the end of the
output block, which is undefined behaviour; no step follows it either.) -/
theorem hard_error_aborts {σ : Type} (H : Host) (E : Engine σ) (fuel : Nat)
    (b : Option (List Nat)) (n : Nat) (sp : Bool) (method : Nat)
    (pre post : List Event) (av no ao cap : Nat) (p : List Nat) (code : Int)
    (htr : (nhr_gz_decompress H E fuel b n sp method).trace
      = pre ++ Event.inflate av no ao cap p code :: post)
    (hc : hard_error code) :
    (nhr_gz_decompress H E fuel b n sp method).ret = none ∧
    (nhr_gz_decompress H E fuel b n sp method).size_out = none ∧
    (((nhr_gz_decompress H E fuel b n sp method).status = Status.returned ∧
        post = [Event.free, Event.inflateEnd]) ∨
     ((nhr_gz_decompress H E fuel b n sp method).status = Status.fault ∧ post = [] ∧
        cap < no + p.length)) := by
  have hev : hard_event (Event.inflate av no ao cap p code) := hc
  -- the loop, from locals whose trace has no hard error yet
  have key : ∀ (inp : List Nat) (L : Locals σ), (∀ e ∈ L.trace, ¬ hard_event e) →
      (decompress_loop H E inp sp fuel L).trace = pre ++ Event.inflate av no ao cap p code :: post →
      (decompress_loop H E inp sp fuel L).ret = none ∧
      (decompress_loop H E inp sp fuel L).size_out = none ∧
      (((decompress_loop H E inp sp fuel L).status = Status.returned ∧
          post = [Event.free, Event.inflateEnd]) ∨
       ((decompress_loop H E inp sp fuel L).status = Status.fault ∧ post = [] ∧
          cap < no + p.length)) := by
    intro inp L hL h
    have hends := decompress_loop_ends H E inp sp (fun L => ∀ e ∈ L.trace, ¬ hard_event e)
      (by
        intro L mem hL _ hh _ e he
        rcases round_next_trace H E inp L mem with ht | ht
        · rw [ht] at he
          rcases List.mem_append.mp he with he | he
          · exact hL e he
          · rw [List.mem_singleton.mp he, round_event_eq]; exact hh
        · rw [ht] at he
          rcases List.mem_append.mp he with he | he
          · rcases List.mem_append.mp he with he | he
            · exact hL e he
            · rw [List.mem_singleton.mp he, round_event_eq]; exact hh
          · simp only [List.mem_cons, List.mem_singleton, List.not_mem_nil, or_false] at he
            rcases he with rfl | rfl <;> exact fun hf => hf)
      fuel L hL
    rcases hends with ⟨L1, h1, hR⟩ | ⟨L1, h1, hst, hR⟩ | ⟨L1, mem, h1, hst, hh, hR⟩ |
      ⟨L1, mem, h1, hst, hh, -, hR⟩ | ⟨L1, mem, h1, hst, hh, -, -, h2, hR⟩
    · rw [hR] at h; exact (no_split hard_event hev h1 h).elim
    · rw [hR] at h ⊢
      simp only [Run.crash] at h
      obtain ⟨-, he, hpost⟩ := split_unique hard_event hev h1 (by simp) h
      refine ⟨rfl, rfl, Or.inr ⟨rfl, hpost, ?_⟩⟩
      rw [round_event_eq] at he
      simp only [Event.inflate.injEq] at he
      obtain ⟨-, hno, -, hcap, hp, -⟩ := he
      have := store_none_iff.mp hst
      rw [← hno, ← hcap, ← hp]; exact this
    · rw [hR] at h ⊢
      simp only [Run.null] at h
      obtain ⟨-, -, hpost⟩ := split_unique hard_event hev h1
        (by intro e he; simp only [List.mem_cons, List.mem_singleton, List.not_mem_nil,
              or_false] at he
            rcases he with rfl | rfl <;> exact fun hf => hf) h
      exact ⟨rfl, rfl, Or.inl ⟨rfl, hpost⟩⟩
    · rw [hR] at h
      simp only [Run.null] at h
      refine (no_split hard_event hev ?_ h).elim
      intro e he
      rcases List.mem_append.mp he with he | he
      · exact h1 e he
      · simp only [List.mem_cons, List.mem_singleton, List.not_mem_nil, or_false] at he
        rcases he with rfl | rfl | rfl
        · rw [round_event_eq]; exact hh
        · exact fun hf => hf
        · exact fun hf => hf
    · rw [hR] at h
      simp only [Run.ok] at h
      refine (no_split hard_event hev ?_ h).elim
      intro e he
      rcases List.mem_append.mp he with he | he
      · exact h2 e he
      · rw [List.mem_singleton.mp he]; exact fun hf => hf
  -- the run of `decompress_run`
  have krun : ∀ (inp : List Nat) (ni ai : Nat) (res : Int × σ) (ev : Event), ¬ hard_event ev →
      (decompress_run H E inp sp fuel ni ai res ev).trace
        = pre ++ Event.inflate av no ao cap p code :: post →
      (decompress_run H E inp sp fuel ni ai res ev).ret = none ∧
      (decompress_run H E inp sp fuel ni ai res ev).size_out = none ∧
      (((decompress_run H E inp sp fuel ni ai res ev).status = Status.returned ∧
          post = [Event.free, Event.inflateEnd]) ∨
       ((decompress_run H E inp sp fuel ni ai res ev).status = Status.fault ∧ post = [] ∧
          cap < no + p.length)) := by
    intro inp ni ai res ev hne h
    unfold decompress_run at h ⊢
    split at h
    · refine (no_split hard_event hev ?_ h).elim
      intro e he
      simp only [Run.null, List.mem_singleton] at he
      rw [he]; exact hne
    · rename_i hrc
      rw [if_neg hrc]
      refine key inp _ ?_ h
      intro e he
      simp only [start_inflate, List.mem_cons, List.mem_singleton, List.not_mem_nil,
        or_false] at he
      rcases he with rfl | rfl
      · exact hne
      · exact fun hf => hf
  have hnil : ∀ R : Run, R.trace = [] → R.trace = pre ++ Event.inflate av no ao cap p code :: post
      → False := by
    intro R h0 h; rw [h0] at h; simp at h
  unfold nhr_gz_decompress at htr ⊢
  cases b with
  | none => exact (hnil _ rfl htr).elim
  | some inp =>
    simp only at htr ⊢
    split at htr
    · exact (hnil _ rfl htr).elim
    · rename_i hn
      rw [if_neg hn]
      split at htr
      · rename_i hg
        rw [if_pos hg]
        split at htr
        · exact (hnil _ rfl htr).elim
        · rename_i g hgz
          split at htr
          · rename_i hg0
            rw [if_pos hg0]
            exact krun _ _ _ _ _ (fun hf => hf) htr
          · exact (hnil _ rfl htr).elim
      · rename_i hg
        rw [if_neg hg]
        split at htr
        · rename_i hd
          rw [if_pos hd]
          exact krun _ _ _ _ _ (fun hf => hf) htr
        · exact (hnil _ rfl htr).elim

/-- Witness of C7: an engine whose first `inflate` reports a data error. -/
theorem hard_error_aborts_witness :
    (nhr_gz_decompress hostLP64 (scriptEngine Z_OK [⟨Z_DATA_ERROR, 0, []⟩]) 5 (some [1, 2, 3]) 3
        true 1).trace
      = [Event.inflateInit 0, Event.malloc 512] ++
          Event.inflate 3 0 512 512 [] Z_DATA_ERROR :: [Event.free, Event.inflateEnd] ∧
    (nhr_gz_decompress hostLP64 (scriptEngine Z_OK [⟨Z_DATA_ERROR, 0, []⟩]) 5 (some [1, 2, 3]) 3
        true 1).ret = none :=
  ⟨by decide,
   (hard_error_aborts hostLP64 (scriptEngine Z_OK [⟨Z_DATA_ERROR, 0, []⟩]) 5 (some [1, 2, 3]) 3
      true 1 [Event.inflateInit 0, Event.malloc 512] [Event.free, Event.inflateEnd]
      3 0 512 512 [] Z_DATA_ERROR (by decide) (by decide)).1⟩

/-! ## The first call of a run -/

theorem compress_tail_trace {σ : Type} (H : Host) (E : Engine σ) (inp : List Nat) (n : Nat)
    (sp : Bool) (method : Nat) (L : Locals σ) :
    ∃ rest, (compress_tail H E inp n sp method L).trace = L.trace ++ rest := by
  unfold compress_tail
  by_cases hg : method = H.NHR_GZ_METHOD_GZIP
  · simp only [hg, if_true]
    cases (nhr_gz_write_footer H E L.out_buff L.out_size
        (L.zip.total_out + NHR_GZ_HEADER_SIZE) inp n).1 with
    | none => exact ⟨_, rfl⟩
    | some bf => exact ⟨_, List.append_assoc _ _ _⟩
  · simp only [hg, if_false]
    exact ⟨_, rfl⟩

theorem trace_extends {a b c : List Event} (h : b = a ++ c) (d : List Event) :
    ∃ rest, b ++ d = a ++ rest :=
  ⟨c ++ d, by rw [h, List.append_assoc]⟩

theorem compress_feed_trace {σ : Type} (H : Host) (E : Engine σ) (inp : List Nat) (n : Nat)
    (sp : Bool) (method : Nat) (fuel : Nat) (L : Locals σ) :
    ∃ rest, (compress_feed H E inp n sp method fuel L).trace = L.trace ++ rest := by
  have hends := compress_feed_ends H E inp n sp method (fun L1 => ∃ rest, L1.trace = L.trace ++ rest)
    (by
      intro L1 ⟨rest, h⟩ _
      exact trace_extends h _)
    (by
      intro L1 flush mem ⟨rest, h⟩ _ _
      exact trace_extends h _)
    fuel L ⟨[], (List.append_nil _).symm⟩
  rcases hends with ⟨L1, ⟨rest, h⟩, hR⟩ | ⟨L1, ⟨rest, h⟩, hR⟩ | ⟨L1, fl, ⟨rest, h⟩, -, -, hR⟩ |
    ⟨L1, ⟨rest, h⟩, hR⟩
  · rw [hR]
    obtain ⟨r2, h2⟩ := compress_tail_trace H E inp n sp method L1
    rw [h2]; exact trace_extends h _
  · exact ⟨rest, by rw [hR]; exact h⟩
  · rw [hR]; exact trace_extends h _
  · rw [hR]; exact trace_extends h _

theorem decompress_loop_trace {σ : Type} (H : Host) (E : Engine σ) (inp : List Nat) (sp : Bool)
    (fuel : Nat) (L : Locals σ) :
    ∃ rest, (decompress_loop H E inp sp fuel L).trace = L.trace ++ rest := by
  have hends := decompress_loop_ends H E inp sp (fun L1 => ∃ rest, L1.trace = L.trace ++ rest)
    (by
      intro L1 mem ⟨rest, h⟩ _ _ _
      rcases round_next_trace H E inp L1 mem with ht | ht
      · rw [ht]; exact trace_extends h _
      · rw [ht, List.append_assoc]; exact trace_extends h _)
    fuel L ⟨[], (List.append_nil _).symm⟩
  rcases hends with ⟨L1, ⟨rest, h⟩, hR⟩ | ⟨L1, ⟨rest, h⟩, -, hR⟩ | ⟨L1, mem, ⟨rest, h⟩, -, -, hR⟩ |
    ⟨L1, mem, ⟨rest, h⟩, -, -, -, hR⟩ | ⟨L1, mem, -, -, -, -, -, ⟨rest, h⟩, hR⟩
  · exact ⟨rest, by rw [hR]; exact h⟩
  · rw [hR]; exact trace_extends h _
  · rw [hR]; exact trace_extends h _
  · rw [hR]; exact trace_extends h _
  · rw [hR]; exact trace_extends h _

theorem decompress_run_head {σ : Type} (H : Host) (E : Engine σ) (inp : List Nat) (sp : Bool)
    (fuel ni ai : Nat) (res : Int × σ) (ev : Event) :
    (decompress_run H E inp sp fuel ni ai res ev).trace.head? = some ev := by
  unfold decompress_run
  split
  · rfl
  · obtain ⟨rest, h⟩ := decompress_loop_trace H E inp sp fuel (start_inflate ni ai res ev)
    rw [h]; rfl

theorem decompress_gzip_eq {σ : Type} (H : Host) (E : Engine σ) (fuel : Nat) (b : List Nat)
    (n : Nat) (sp : Bool) (hg : nhr_gz_is_gzip_file b n = some 1) :
    nhr_gz_decompress H E fuel (some b) n sp H.NHR_GZ_METHOD_GZIP =
      decompress_run H E b sp fuel NHR_GZ_HEADER_SIZE
        ((n % UINT_RANGE + UINT_RANGE - NHR_GZ_HEADER_SIZE - NHR_GZ_FOOTER_SIZE) % UINT_RANGE)
        (E.inflateInit2 NHR_GZ_WINDOWS_BITS)
        (Event.inflateInit2 NHR_GZ_WINDOWS_BITS (E.inflateInit2 NHR_GZ_WINDOWS_BITS).1) := by
  have hn : n ≠ 0 := by
    intro h0; subst h0
    simp [nhr_gz_is_gzip_file] at hg
  unfold nhr_gz_decompress
  simp only [hn, hg, if_false, if_true]
  simp

theorem decompress_deflate_eq {σ : Type} (H : Host) (E : Engine σ) (fuel : Nat) (b : List Nat)
    (n : Nat) (sp : Bool) (hn : n ≠ 0) :
    nhr_gz_decompress H E fuel (some b) n sp H.NHR_GZ_METHOD_DEFLATE =
      decompress_run H E b sp fuel 0 (n % UINT_RANGE) E.inflateInit
        (Event.inflateInit E.inflateInit.1) := by
  have hd : H.NHR_GZ_METHOD_DEFLATE ≠ H.NHR_GZ_METHOD_GZIP := fun h => H.methods_distinct h.symm
  unfold nhr_gz_decompress
  simp only [hn, hd, if_false, if_true]

/-- C9, as amended. For a non-empty input: with the gzip method the first call of
`nhr_gz_compress` is `deflateInit2` with window bits -15, and the first call of
`nhr_gz_decompress` on an input the sniffer accepts is `inflateInit2` with
window bits -15; with the deflate method the first calls are
`deflateInit(Z_BEST_COMPRESSION)` and `inflateInit`, which take no window bits.
With the deflate method the driver adds no header and no footer: the block
returned begins with the bytes the engine emitted and the length stored is
their number as the engine's `total_out` holds it, that is modulo the range of
`uLong`. -/
theorem init_calls {σ : Type} (H : Host) (E : Engine σ) (now fuel : Nat) (b : List Nat)
    (n : Nat) (sp : Bool) (hn : n ≠ 0) :
    (nhr_gz_compress H E now fuel (some b) n sp H.NHR_GZ_METHOD_GZIP).trace.head?
      = some (Event.deflateInit2 Z_BEST_COMPRESSION Z_DEFLATED (-15) 8 Z_DEFAULT_STRATEGY
          (E.deflateInit2 Z_BEST_COMPRESSION Z_DEFLATED (-15) 8 Z_DEFAULT_STRATEGY).1) ∧
    (nhr_gz_is_gzip_file b n = some 1 →
      (nhr_gz_decompress H E fuel (some b) n sp H.NHR_GZ_METHOD_GZIP).trace.head?
        = some (Event.inflateInit2 (-15) (E.inflateInit2 (-15)).1)) ∧
    (nhr_gz_compress H E now fuel (some b) n sp H.NHR_GZ_METHOD_DEFLATE).trace.head?
      = some (Event.deflateInit Z_BEST_COMPRESSION (E.deflateInit Z_BEST_COMPRESSION).1) ∧
    (nhr_gz_decompress H E fuel (some b) n sp H.NHR_GZ_METHOD_DEFLATE).trace.head?
      = some (Event.inflateInit E.inflateInit.1) ∧
    (∀ buf, (nhr_gz_compress H E now fuel (some b) n sp H.NHR_GZ_METHOD_DEFLATE).ret = some buf →
      buf.take (emitted (nhr_gz_compress H E now fuel (some b) n sp
          H.NHR_GZ_METHOD_DEFLATE).trace).length
        = emitted (nhr_gz_compress H E now fuel (some b) n sp H.NHR_GZ_METHOD_DEFLATE).trace ∧
      (nhr_gz_compress H E now fuel (some b) n sp H.NHR_GZ_METHOD_DEFLATE).size_out
        = if sp then
            some ((emitted (nhr_gz_compress H E now fuel (some b) n sp
              H.NHR_GZ_METHOD_DEFLATE).trace).length % H.abi.uLong_range)
          else none) := by
  have hd : H.NHR_GZ_METHOD_DEFLATE ≠ H.NHR_GZ_METHOD_GZIP := fun h => H.methods_distinct h.symm
  refine ⟨?_, ?_, ?_, ?_, ?_⟩
  · rw [compress_gzip_eq H E now fuel b n sp hn]
    split
    · rfl
    · obtain ⟨rest, h⟩ := compress_feed_trace H E b n sp H.NHR_GZ_METHOD_GZIP fuel
        (start_gzip E now n)
      rw [h]; rfl
  · intro hg
    rw [decompress_gzip_eq H E fuel b n sp hg]
    exact decompress_run_head _ _ _ _ _ _ _ _ _
  · rw [compress_deflate_eq H E now fuel b n sp hn]
    split
    · rfl
    · obtain ⟨rest, h⟩ := compress_feed_trace H E b n sp H.NHR_GZ_METHOD_DEFLATE fuel
        (start_deflate E n)
      rw [h]; rfl
  · rw [decompress_deflate_eq H E fuel b n sp hn]
    exact decompress_run_head _ _ _ _ _ _ _ _ _
  · intro buf hret
    rw [compress_deflate_eq H E now fuel b n sp hn] at hret ⊢
    split at hret
    · simp [Run.null] at hret
    rename_i hrc
    rw [if_neg hrc]
    have c : CInv H (header_size H H.NHR_GZ_METHOD_DEFLATE) [] (start_deflate E n) := by
      simp only [header_size, hd, if_false]; exact cinv_start_deflate E n
    have h := feed_layout H E b n sp _ _ fuel _ c buf hret
    simp only [header_size, footer_size, hd, if_false, List.drop_zero, Nat.zero_add,
      Nat.add_zero] at h
    exact ⟨h.2.2 (Or.inr hd), h.1⟩

/-- Witness of C9 as amended: the store engine on "the quick brown fox!". -/
theorem init_calls_witness :
    (nhr_gz_compress hostLP64 storeEngine 0 9 (some fox) 20 true 1).trace.head?
      = some (Event.deflateInit 9 0) ∧
    (nhr_gz_decompress hostLP64 storeEngine 9 (some fox) 20 true 1).trace.head?
      = some (Event.inflateInit 0) :=
  ⟨(init_calls hostLP64 storeEngine 0 9 fox 20 true (by decide)).2.2.1,
   (init_calls hostLP64 storeEngine 0 9 fox 20 true (by decide)).2.2.2.1⟩

/-- C9 as stated fails: with the deflate method neither driver makes an init
call with negative window bits; the calls made are `deflateInit(9)` and
`inflateInit()`. -/
theorem deflate_method_not_raw :
    (nhr_gz_compress hostLP64 storeEngine 0 9 (some fox) 20 true 1).trace.any raw_init = false ∧
    (nhr_gz_compress hostLP64 storeEngine 0 9 (some fox) 20 true 1).trace.head?
      = some (Event.deflateInit 9 0) ∧
    (nhr_gz_decompress hostLP64 storeEngine 9 (some fox) 20 true 1).trace.any raw_init = false ∧
    (nhr_gz_decompress hostLP64 storeEngine 9 (some fox) 20 true 1).trace.head?
      = some (Event.inflateInit 0) := by
  decide

/-! ## A run of the decompress loop reads only its input window -/

theorem window_zstep {σ : Type} (H : Host) (inp : List Nat) (z : z_stream σ) (r : Step σ) :
    window inp (zstep H z r) = (window inp z).drop r.consumed := by
  simp only [window, zstep, List.drop_take, List.drop_drop]

theorem round_call_rebase {σ : Type} (E : Engine σ) (inp inp2 : List Nat) (L : Locals σ)
    (k : Nat) (hw : window inp L.zip = window inp2 (rebase L k).zip) :
    round_call E inp2 (rebase L k) = round_call E inp L := by
  have h2 : window inp2 (point_out (rebase L k)).zip = window inp (point_out L).zip := by
    simpa only [window, point_out, rebase] using hw.symm
  simp only [round_call, inflate_call, h2]
  rfl

theorem account_rebase {σ : Type} (L : Locals σ) (a : Int) (k : Nat) :
    decompress_account (rebase L k) a = rebase (decompress_account L a) k := by
  unfold decompress_account
  by_cases h : L.writed + a.toNat < L.out_size
  · have h2 : (rebase L k).writed + a.toNat < (rebase L k).out_size := h
    simp only [if_pos h, if_pos h2]; rfl
  · have h2 : ¬ (rebase L k).writed + a.toNat < (rebase L k).out_size := h
    simp only [if_neg h, if_neg h2]; rfl

theorem account_window {σ : Type} (inp : List Nat) (L : Locals σ) (a : Int) :
    window inp (decompress_account L a).zip = window inp L.zip := by
  unfold decompress_account
  by_cases h : L.writed + a.toNat < L.out_size
  · simp only [if_pos h]; rfl
  · simp only [if_neg h]; rfl

theorem decompress_loop_window {σ : Type} (H : Host) (E : Engine σ) (sp : Bool) :
    ∀ (fuel : Nat) (inp inp2 : List Nat) (L : Locals σ) (k : Nat),
      window inp L.zip = window inp2 (rebase L k).zip →
      decompress_loop H E inp sp fuel L = decompress_loop H E inp2 sp fuel (rebase L k) := by
  intro fuel
  induction fuel with
  | zero => intro inp inp2 L k _; rfl
  | succ fuel ih =>
    intro inp inp2 L k hw
    have hc := round_call_rebase E inp inp2 L k hw
    have hev : round_event E inp2 (rebase L k) = round_event E inp L := by
      simp only [round_event, inflate_event, hc]; rfl
    have hst : round_store E inp2 (rebase L k) = round_store E inp L := by
      simp only [round_store, hc]; rfl
    have haf : ∀ mem, round_after H E inp2 (rebase L k) mem
        = rebase (round_after H E inp L mem) (k + (round_call E inp L).consumed) := by
      intro mem
      simp only [round_after, hev, hc]; rfl
    have hav : ∀ mem, available (round_after H E inp2 (rebase L k) mem)
        = available (round_after H E inp L mem) := by
      intro mem; rw [haf]; rfl
    have hnx : ∀ mem, round_next H E inp2 (rebase L k) mem
        = rebase (round_next H E inp L mem) (k + (round_call E inp L).consumed) := by
      intro mem
      simp only [round_next, hav, haf, account_rebase]
      rfl
    have hwn : ∀ mem, window inp (round_next H E inp L mem).zip
        = window inp2 (rebase (round_next H E inp L mem) (k + (round_call E inp L).consumed)).zip := by
      intro mem
      have h1 : window inp (round_next H E inp L mem).zip
          = (window inp L.zip).drop (round_call E inp L).consumed := by
        rw [round_next, account_window, ← window_zstep H]; rfl
      have h2 : window inp2 (rebase (round_next H E inp L mem)
            (k + (round_call E inp L).consumed)).zip
          = (window inp2 (rebase L k).zip).drop (round_call E inp L).consumed := by
        rw [← hnx, round_next, account_window, ← hc, ← window_zstep H]; rfl
      rw [h1, h2, hw]
    rw [decompress_loop_succ, decompress_loop_succ, hst, hc, hev]
    cases round_store E inp L with
    | none => rfl
    | some mem =>
      simp only [hav, hnx]
      rw [← ih inp inp2 (round_next H E inp L mem) _ (hwn mem)]
      rfl

theorem decompress_run_window {σ : Type} (H : Host) (E : Engine σ) (sp : Bool) (fuel : Nat)
    (inp inp2 : List Nat) (ni k ai : Nat) (res : Int × σ) (ev : Event)
    (hw : (inp.drop ni).take ai = (inp2.drop k).take ai) :
    decompress_run H E inp sp fuel ni ai res ev = decompress_run H E inp2 sp fuel k ai res ev := by
  unfold decompress_run
  split
  · rfl
  · exact decompress_loop_window H E sp fuel inp inp2 (start_inflate ni ai res ev) k hw

theorem gzip_avail_le (n : Nat) (h : 18 < n) :
    (n % UINT_RANGE + UINT_RANGE - NHR_GZ_HEADER_SIZE - NHR_GZ_FOOTER_SIZE) % UINT_RANGE
      ≤ n - 18 := by
  simp only [UINT_RANGE, NHR_GZ_HEADER_SIZE, NHR_GZ_FOOTER_SIZE]
  omega

theorem gzip_avail_small (n : Nat) (h : 18 < n) (hs : n < 2 ^ 32) :
    (n % UINT_RANGE + UINT_RANGE - NHR_GZ_HEADER_SIZE - NHR_GZ_FOOTER_SIZE) % UINT_RANGE
      = n - 18 := by
  simp only [UINT_RANGE, NHR_GZ_HEADER_SIZE, NHR_GZ_FOOTER_SIZE]
  omega

theorem sniffer_accepts (b : List Nat) (h18 : 18 < b.length) (h0 : b[0]? = some 0x1f)
    (h1 : b[1]? = some 0x8b) : nhr_gz_is_gzip_file b b.length = some 1 :=
  (sniffer_spec b).1.2 ⟨h18, h0, h1⟩

/-- C8, as amended. For an input `b` of `n > 18` bytes that starts with `1F 8B`:
when `n < 2^32`, `nhr_gz_decompress` with the gzip method is the run of the raw
inflate driver over exactly the bytes at offsets `10 .. n-9` (`n - 18` bytes);
and for every `n`, an input of the same length that starts with `1F 8B` and
agrees with `b` at offsets `10 .. n-9` gives the same run (same outcome, block,
length and calls), whatever the bytes at offsets `2 .. 9` and the last 8 bytes
are. -/
theorem gzip_strips_unchecked {σ : Type} (H : Host) (E : Engine σ) (fuel : Nat) (sp : Bool)
    (b b2 : List Nat) (h18 : 18 < b.length) (h0 : b[0]? = some 0x1f) (h1 : b[1]? = some 0x8b)
    (hlen : b2.length = b.length) (k0 : b2[0]? = some 0x1f) (k1 : b2[1]? = some 0x8b)
    (hbody : (b2.drop 10).take (b.length - 18) = (b.drop 10).take (b.length - 18)) :
    (b.length < 2 ^ 32 →
      nhr_gz_decompress H E fuel (some b) b.length sp H.NHR_GZ_METHOD_GZIP =
        decompress_run H E ((b.drop 10).take (b.length - 18)) sp fuel 0 (b.length - 18)
          (E.inflateInit2 NHR_GZ_WINDOWS_BITS)
          (Event.inflateInit2 NHR_GZ_WINDOWS_BITS (E.inflateInit2 NHR_GZ_WINDOWS_BITS).1)) ∧
    nhr_gz_decompress H E fuel (some b2) b2.length sp H.NHR_GZ_METHOD_GZIP =
      nhr_gz_decompress H E fuel (some b) b.length sp H.NHR_GZ_METHOD_GZIP := by
  have hg := sniffer_accepts b h18 h0 h1
  have hg2 := sniffer_accepts b2 (by omega) k0 k1
  constructor
  · intro hs
    rw [decompress_gzip_eq H E fuel b b.length sp hg, gzip_avail_small _ h18 hs]
    apply decompress_run_window
    rw [List.drop_zero, List.take_take, Nat.min_self]
    rfl
  · rw [decompress_gzip_eq H E fuel b b.length sp hg,
      decompress_gzip_eq H E fuel b2 b2.length sp hg2, hlen]
    apply decompress_run_window
    have hA := gzip_avail_le b.length h18
    have e1 := congrArg (List.take ((b.length % UINT_RANGE + UINT_RANGE - NHR_GZ_HEADER_SIZE
      - NHR_GZ_FOOTER_SIZE) % UINT_RANGE)) hbody
    rw [List.take_take, List.take_take, Nat.min_eq_left hA] at e1
    exact e1

/-- Witness of C8 as amended: two 20-byte inputs that differ in the bytes at
offsets 2 .. 9 and in the last 8 bytes. -/
theorem gzip_strips_unchecked_witness :
    nhr_gz_decompress hostLP64 storeEngine 5
        (some [0x1f, 0x8b, 9, 9, 9, 9, 9, 9, 9, 9, 0x78, 0x61, 7, 7, 7, 7, 7, 7, 7, 7]) 20 true 2 =
      nhr_gz_decompress hostLP64 storeEngine 5
        (some [0x1f, 0x8b, 8, 0, 0, 0, 0, 0, 0, 0, 0x78, 0x61, 1, 2, 3, 4, 5, 6, 7, 8]) 20 true 2 :=
  (gzip_strips_unchecked hostLP64 storeEngine 5 true
    [0x1f, 0x8b, 8, 0, 0, 0, 0, 0, 0, 0, 0x78, 0x61, 1, 2, 3, 4, 5, 6, 7, 8]
    [0x1f, 0x8b, 9, 9, 9, 9, 9, 9, 9, 9, 0x78, 0x61, 7, 7, 7, 7, 7, 7, 7, 7]
    (by decide) (by decide) (by decide) (by decide) (by decide) (by decide) (by decide)).2

theorem zero_block_length (m : Nat) : (zero_block m).length = m + 2 := by
  simp only [zero_block, List.length_cons, List.length_replicate]

theorem zero_block_run (m : Nat) (hm : 17 ≤ m) (hmod : (m + 2) % 2 ^ 32 = 19) :
    (nhr_gz_decompress hostLP64 storeEngine 2 (some (zero_block m)) (zero_block m).length true 2).trace
      = [Event.inflateInit2 (-15) 0, Event.malloc 512, Event.inflate 1 0 512 512 [] (-3),
          Event.free, Event.inflateEnd] := by
  have hl := zero_block_length m
  have hg : nhr_gz_is_gzip_file (zero_block m) (zero_block m).length = some 1 :=
    sniffer_accepts (zero_block m) (by omega) (by simp [zero_block]) (by simp [zero_block])
  have hgz := decompress_gzip_eq hostLP64 storeEngine 2 (zero_block m) (zero_block m).length true hg
  have hA : ((zero_block m).length % UINT_RANGE + UINT_RANGE - NHR_GZ_HEADER_SIZE
      - NHR_GZ_FOOTER_SIZE) % UINT_RANGE = 1 := by
    rw [hl]; simp only [UINT_RANGE, NHR_GZ_HEADER_SIZE, NHR_GZ_FOOTER_SIZE]; omega
  have hw : ((zero_block m).drop NHR_GZ_HEADER_SIZE).take 1
      = (([0] : List Nat).drop 0).take 1 := by
    obtain ⟨j, rfl⟩ : ∃ j, m = j + 9 := ⟨m - 9, by omega⟩
    simp only [NHR_GZ_HEADER_SIZE, zero_block, List.replicate_succ, List.drop_succ_cons, List.drop_zero,
      List.take_succ_cons, List.take_zero]
  have hrun := decompress_run_window hostLP64 storeEngine true 2 (zero_block m) [0] NHR_GZ_HEADER_SIZE 0 1
    (storeEngine.inflateInit2 NHR_GZ_WINDOWS_BITS)
    (Event.inflateInit2 NHR_GZ_WINDOWS_BITS (storeEngine.inflateInit2 NHR_GZ_WINDOWS_BITS).1) hw
  have hh : hostLP64.NHR_GZ_METHOD_GZIP = 2 := rfl
  rw [hh] at hgz
  rw [hgz, hA, hrun]
  decide

/-- C8 as stated fails: on the block of `2^32 + 19` bytes that starts with `1F 8B`
and is zero elsewhere, the one `inflate` call of `nhr_gz_decompress` (gzip method,
64-bit host) has `avail_in = 1` (the first field of the `inflate` entry), while
the bytes at offsets `10 .. n-9` are `n - 18 = 2^32 + 1` bytes. -/
theorem gzip_strip_wraps :
    (nhr_gz_decompress hostLP64 storeEngine 2 (some (zero_block (2 ^ 32 + 17)))
        (zero_block (2 ^ 32 + 17)).length true 2).trace
      = [Event.inflateInit2 (-15) 0, Event.malloc 512, Event.inflate 1 0 512 512 [] (-3),
          Event.free, Event.inflateEnd] ∧
    (zero_block (2 ^ 32 + 17)).length - 18 = 2 ^ 32 + 1 :=
  ⟨zero_block_run (2 ^ 32 + 17) (by norm_num) (by norm_num),
   by rw [zero_block_length]; norm_num⟩



/-! ## The compress loops under the codec assumption -/

theorem maybe_grow_cinv {σ : Type} {H : Host} {h : Nat} {hdr : List Nat} (L : Locals σ)
    (c : CInv H h hdr L) :
    CInv H h hdr (maybe_grow L) ∧ 0 < (maybe_grow L).zip.avail_out ∧
    (maybe_grow L).zip.state = L.zip.state ∧
    (maybe_grow L).zip.next_in = L.zip.next_in ∧
    (maybe_grow L).zip.avail_in = L.zip.avail_in ∧
    emitted (maybe_grow L).trace = emitted L.trace := by
  unfold maybe_grow
  by_cases h0 : L.zip.avail_out = 0
  · rw [if_pos h0]
    refine ⟨cinv_grow L c h0, ?_, rfl, rfl, rfl, emitted_grow L⟩
    simp only [compress_grow, NHR_GZ_CHUNK_SIZE]; omega
  · rw [if_neg h0]
    exact ⟨c, Nat.pos_of_ne_zero h0, rfl, rfl, rfl, rfl⟩

theorem window_eq {σ : Type} (inp : List Nat) (z z2 : z_stream σ) (h1 : z2.next_in = z.next_in)
    (h2 : z2.avail_in = z.avail_in) : window inp z2 = window inp z := by
  simp only [window, h1, h2]

theorem finish_codec {σ : Type} (H : Host) (E : Engine σ) {d0 i0 : Int × σ}
    (K : Codec E d0 i0) (P : List Nat) (n : Nat) (sp : Bool) (method : Nat) (h : Nat)
    (hdr : List Nat) :
    ∀ (fuel : Nat) (L : Locals σ) (rest : List Nat), CInv H h hdr L → window P L.zip = [] →
      K.DS L.zip.state [] rest → emitted L.trace ++ rest = K.enc P → rest.length < fuel →
      ∃ L2, CInv H h hdr L2 ∧ emitted L2.trace = K.enc P ∧
        compress_finish H E P n sp method fuel L = compress_tail H E P n sp method L2 := by
  intro fuel
  induction fuel with
  | zero => intro L rest _ _ _ _ hf; omega
  | succ fuel ih =>
    intro L rest c hw hds hem hf
    obtain ⟨c1, hav, hs1, hni, hai, he1⟩ := maybe_grow_cinv L c
    have hw1 : window P (maybe_grow L).zip = [] := by
      rw [window_eq P L.zip _ hni hai]; exact hw
    have hcall : deflate_call E P Z_FINISH (maybe_grow L)
        = E.deflate L.zip.state Z_FINISH [] (maybe_grow L).zip.avail_out := by
      simp only [deflate_call, hw1, hs1]
    obtain ⟨rest2, hr, hds2, hcode⟩ := K.d_finish L.zip.state rest _ hds hav
    rw [← hcall] at hr hds2 hcode
    unfold compress_finish
    simp only
    cases hst : store (maybe_grow L).out_buff (maybe_grow L).zip.next_out
        (deflate_call E P Z_FINISH (maybe_grow L)).produced with
    | none => exact absurd hst (cinv_store E P _ Z_FINISH c1)
    | some mem =>
      simp only
      have c2 := cinv_step E P _ Z_FINISH mem c1 hst
      have he2 : emitted (after_step H (maybe_grow L) (deflate_call E P Z_FINISH (maybe_grow L)) mem
          (deflate_event Z_FINISH (maybe_grow L) (deflate_call E P Z_FINISH (maybe_grow L)))).trace
          = emitted L.trace ++ (deflate_call E P Z_FINISH (maybe_grow L)).produced := by
        simp only [after_step, emitted_append, he1, emitted, deflate_event, Event.output,
          List.append_nil]
      rcases hcode with ⟨hend, hnil⟩ | ⟨hok, hne⟩
      · have hnok : (deflate_call E P Z_FINISH (maybe_grow L)).code ≠ Z_OK := by
          rw [hend]; decide
        rw [if_neg hnok, if_neg (not_not.mpr hend)]
        refine ⟨_, c2, ?_, rfl⟩
        rw [he2, ← hem, hr, hnil, List.append_nil]
      · rw [if_pos hok]
        refine ih _ rest2 c2 ?_ hds2 ?_ ?_
        · simp only [after_step]
          rw [window_zstep H, hw1, List.drop_nil]
        · rw [he2, ← hem, hr, List.append_assoc]
        · have hpos := List.length_pos.mpr hne
          have hl := congrArg List.length hr
          rw [List.length_append] at hl
          omega

theorem feed_codec {σ : Type} (H : Host) (E : Engine σ) {d0 i0 : Int × σ}
    (K : Codec E d0 i0) (P : List Nat) (n : Nat) (sp : Bool) (method : Nat) (h : Nat)
    (hdr : List Nat) :
    ∀ (fuel : Nat) (L : Locals σ) (rest : List Nat), CInv H h hdr L → 0 < L.zip.avail_out →
      (window P L.zip).length = L.zip.avail_in →
      K.DS L.zip.state (window P L.zip) rest → emitted L.trace ++ rest = K.enc P →
      L.zip.avail_in + rest.length < fuel →
      ∃ L2, CInv H h hdr L2 ∧ emitted L2.trace = K.enc P ∧
        compress_feed H E P n sp method fuel L = compress_tail H E P n sp method L2 := by
  intro fuel
  induction fuel with
  | zero => intro L rest _ _ _ _ _ hf; omega
  | succ fuel ih =>
    intro L rest c hav hwl hds hem hf
    unfold compress_feed
    by_cases hin : L.zip.avail_in = 0
    · rw [if_pos hin]
      have hw : window P L.zip = [] := List.length_eq_zero.mp (by rw [hwl, hin])
      rw [hw] at hds
      exact finish_codec H E K P n sp method h hdr (fuel + 1) L rest c hw hds hem (by omega)
    · rw [if_neg hin]
      simp only
      have hne : window P L.zip ≠ [] := by
        intro h0; rw [h0] at hwl; exact hin hwl.symm
      obtain ⟨hok, hprog, rest2, hr, hds2⟩ := K.d_feed L.zip.state _ rest _ hds hne hav
      have hcall : deflate_call E P Z_NO_FLUSH L
          = E.deflate L.zip.state Z_NO_FLUSH (window P L.zip) L.zip.avail_out := rfl
      rw [← hcall] at hok hprog hr hds2
      have hcons : (deflate_call E P Z_NO_FLUSH L).consumed ≤ L.zip.avail_in := by
        rw [← hwl]; exact E.deflate_consumed _ _ _ _
      cases hst : store L.out_buff L.zip.next_out (deflate_call E P Z_NO_FLUSH L).produced with
      | none => exact absurd hst (cinv_store E P _ Z_NO_FLUSH c)
      | some mem =>
        simp only
        have c2 := cinv_step E P _ Z_NO_FLUSH mem c hst
        rw [if_neg (not_not.mpr hok)]
        obtain ⟨c3, hav3, hs3, hni3, hai3, he3⟩ := maybe_grow_cinv _ c2
        have hw3 : window P (maybe_grow (after_step H L (deflate_call E P Z_NO_FLUSH L) mem
            (deflate_event Z_NO_FLUSH L (deflate_call E P Z_NO_FLUSH L)))).zip
            = (window P L.zip).drop (deflate_call E P Z_NO_FLUSH L).consumed := by
          rw [window_eq P _ _ hni3 hai3]
          simp only [after_step]
          rw [window_zstep H]
        refine ih _ rest2 c3 hav3 ?_ ?_ ?_ ?_
        · rw [hw3, hai3, List.length_drop, hwl]; rfl
        · rw [hw3, hs3]; exact hds2
        · rw [he3]
          simp only [after_step, emitted_append, emitted, deflate_event, Event.output,
            List.append_nil]
          rw [← hem, hr, List.append_assoc]
        · rw [hai3]
          have hl := congrArg List.length hr
          rw [List.length_append] at hl
          have hzi : (after_step H L (deflate_call E P Z_NO_FLUSH L) mem
              (deflate_event Z_NO_FLUSH L (deflate_call E P Z_NO_FLUSH L))).zip.avail_in
              = L.zip.avail_in - (deflate_call E P Z_NO_FLUSH L).consumed := rfl
          rw [hzi]
          rcases hprog with hp | hp
          · omega
          · have := List.length_pos.mpr hp
            omega

/-! ## The decompress loop under the codec assumption -/

theorem not_hard_of_ok_or_end (c : Int) (h : c = Z_STREAM_END ∨ c = Z_OK) : ¬ hard_error c := by
  rcases h with h | h <;> subst h <;> decide

theorem loop_codec {σ : Type} (H : Host) (E : Engine σ) {d0 i0 : Int × σ} (K : Codec E d0 i0)
    (P inp : List Nat) (sp : Bool) :
    ∀ (fuel : Nat) (L : Locals σ), DInv K P inp L → P.length - L.writed < fuel →
      ∃ out tr, decompress_loop H E inp sp fuel L
          = Run.ok out (if sp then some P.length else none) tr ∧
        out.take P.length = P := by
  intro fuel
  induction fuel with
  | zero => intro L _ hf; omega
  | succ fuel ih =>
    intro L d hf
    have hlen := d.len; have hwr := d.wr; have hav := d.av; have hmore := d.more
    have hne : P.drop L.writed ≠ [] := by
      intro h0
      have := congrArg List.length h0
      rw [List.length_drop, List.length_nil] at this
      omega
    have hw512 : 0 < L.zip.avail_out := by rw [hav]; decide
    obtain ⟨hprod, hcode, his⟩ := K.i_step L.zip.state _ _ _ d.eng hne hw512
    have hcall : round_call E inp L
        = E.inflate L.zip.state Z_NO_FLUSH (window inp L.zip) L.zip.avail_out := rfl
    rw [← hcall] at hprod hcode his
    rw [hav] at hprod hcode his
    -- the bytes of this round
    have hol : (round_call E inp L).produced.length
        = min NHR_GZ_CHUNK_SIZE (P.length - L.writed) := by
      rw [hprod, List.length_take, List.length_drop]
    have hopos : 0 < (round_call E inp L).produced.length := by
      rw [hol]; simp only [NHR_GZ_CHUNK_SIZE]; omega
    have hole : (round_call E inp L).produced.length ≤ NHR_GZ_CHUNK_SIZE := by
      rw [hol]; exact Nat.min_le_left _ _
    have hfit : L.writed + (round_call E inp L).produced.length ≤ L.out_buff.length := by
      omega
    obtain ⟨mem, hst⟩ : ∃ mem, round_store E inp L = some mem := ⟨_, store_eq_some hfit⟩
    have hst2 : store L.out_buff L.writed (round_call E inp L).produced = some mem := hst
    have hnh : ¬ hard_error (round_call E inp L).code := by
      apply not_hard_of_ok_or_end
      rw [hcode]; split
      · left; rfl
      · right; rfl
    -- after the step
    have havl : available (round_after H E inp L mem)
        = ((round_call E inp L).produced.length : Int) := by
      simp only [available, round_after, after_step, point_out, zstep, hav]
      omega
    have hmemtake : mem.take (L.writed + (round_call E inp L).produced.length)
        = P.take (L.writed + (round_call E inp L).produced.length) := by
      rw [List.take_add, List.take_add, store_take hst2 _ (le_refl _), store_drop hst2, d.got]
      congr 1
      rw [List.take_append_of_le_length (le_refl _), List.take_length, hol, hprod]
      exact List.take_eq_take.mpr (by rw [List.length_drop]; omega)
    have hmemlen : mem.length = L.out_size := by rw [store_length hst2]; exact hlen
    -- the locals after the round
    have hnext : round_next H E inp L mem =
        if L.writed + (round_call E inp L).produced.length < L.out_size then
          { zip := { zstep H (point_out L).zip (round_call E inp L) with
              avail_out := ((NHR_GZ_CHUNK_SIZE : Int)
                - ((round_call E inp L).produced.length : Int)).toNat }
            out_buff := mem
            out_size := L.out_size
            writed := L.writed + (round_call E inp L).produced.length
            trace := L.trace ++ [round_event E inp L] }
        else
          { zip := { zstep H (point_out L).zip (round_call E inp L) with
              avail_out := NHR_GZ_CHUNK_SIZE }
            out_buff := mem ++ List.replicate NHR_GZ_CHUNK_SIZE 0
            out_size := L.out_size + NHR_GZ_CHUNK_SIZE
            writed := L.writed + (round_call E inp L).produced.length
            trace := (L.trace ++ [round_event E inp L]) ++
              [Event.malloc (L.out_size + NHR_GZ_CHUNK_SIZE), Event.free] } := by
      simp only [round_next, havl]
      unfold decompress_account
      simp only [Int.toNat_ofNat, round_after, after_step, point_out, extend_snd]
      rw [← hmemlen, extend_fst]
    rw [decompress_loop_succ, hst]
    simp only
    rw [if_neg hnh, if_pos (by rw [havl]; exact_mod_cast hopos)]
    by_cases hend : (P.drop L.writed).length ≤ NHR_GZ_CHUNK_SIZE
    · -- the last round
      rw [if_pos hend] at hcode
      rw [if_neg (not_not.mpr hcode)]
      rw [List.length_drop] at hend
      have hsum : L.writed + (round_call E inp L).produced.length = P.length := by
        rw [hol, Nat.min_eq_right hend]; omega
      rw [hsum] at hmemtake hnext
      refine ⟨(round_next H E inp L mem).out_buff, (round_next H E inp L mem).trace
        ++ [Event.inflateEnd], ?_, ?_⟩
      · have hwn : (round_next H E inp L mem).writed = P.length := by
          rw [hnext]; split <;> rfl
        rw [hwn]
      · rw [hnext]
        split
        · simp only
          rw [hmemtake, List.take_length]
        · simp only
          rw [List.take_append_of_le_length (by omega), hmemtake, List.take_length]
    · -- a full chunk, and more to come
      rw [if_neg hend] at hcode
      have hnend : (round_call E inp L).code ≠ Z_STREAM_END := by rw [hcode]; decide
      rw [if_pos hnend]
      rw [List.length_drop] at hend
      have h512 : (round_call E inp L).produced.length = NHR_GZ_CHUNK_SIZE := by
        rw [hol]; exact Nat.min_eq_left (by omega)
      rw [h512] at hmemtake hnext
      rw [if_neg (by omega)] at hnext
      apply ih
      · -- the invariant after the round
        rw [hnext]
        refine ⟨?_, ?_, rfl, ?_, ?_, ?_⟩
        · simp only [List.length_append, List.length_replicate, hmemlen]
        · simp only; omega
        · simp only
          rw [List.take_append_of_le_length (by omega), hmemtake]
        · simp only [NHR_GZ_CHUNK_SIZE] at hend ⊢; omega
        · simp only
          have : window inp { zstep H (point_out L).zip (round_call E inp L) with
              avail_out := NHR_GZ_CHUNK_SIZE }
              = (window inp L.zip).drop (round_call E inp L).consumed := by
            rw [← window_zstep H]; rfl
          rw [this, ← List.drop_drop]
          exact his
      · rw [hnext]
        simp only [NHR_GZ_CHUNK_SIZE] at hend ⊢
        omega

/-! ## Compress, then decompress -/

theorem start_window {σ : Type} (P : List Nat) (z : z_stream σ) (h0 : z.next_in = 0)
    (ha : z.avail_in = P.length % UINT_RANGE) (hl : P.length < 2 ^ 32) :
    window P z = P ∧ (window P z).length = z.avail_in := by
  have : P.length % UINT_RANGE = P.length := Nat.mod_eq_of_lt hl
  simp only [window, h0, ha, this, List.drop_zero, List.take_length, and_self]

theorem compress_gzip_codec {σ : Type} (H : Host) (E : Engine σ) {i0 : Int × σ}
    (K : Codec E (E.deflateInit2 Z_BEST_COMPRESSION Z_DEFLATED NHR_GZ_WINDOWS_BITS 8
      Z_DEFAULT_STRATEGY) i0)
    (now : Nat) (P : List Nat) (sp : Bool) (hP : P ≠ []) (hl : P.length < 2 ^ 32) (fuel : Nat)
    (hf : P.length + (K.enc P).length < fuel) :
    ∃ L2, CInv H 10 (gz_header now) L2 ∧ emitted L2.trace = K.enc P ∧
      nhr_gz_compress H E now fuel (some P) P.length sp H.NHR_GZ_METHOD_GZIP
        = compress_tail H E P P.length sp H.NHR_GZ_METHOD_GZIP L2 := by
  have hn : P.length ≠ 0 := fun h => hP (List.length_eq_zero.mp h)
  rw [compress_gzip_eq H E now fuel P P.length sp hn, if_neg (not_not.mpr K.d_ok)]
  obtain ⟨hw, hwl⟩ := start_window P (start_gzip E now P.length).zip rfl rfl hl
  refine feed_codec H E K P P.length sp _ 10 (gz_header now) fuel (start_gzip E now P.length)
    (K.enc P) (cinv_start_gzip E now P.length) (by simp only [start_gzip, NHR_GZ_CHUNK_SIZE]; omega)
    hwl ?_ rfl ?_
  · rw [hw]; exact K.d_start P
  · have : (start_gzip E now P.length).zip.avail_in = P.length % UINT_RANGE := rfl
    rw [this, show P.length % UINT_RANGE = P.length from Nat.mod_eq_of_lt hl]; exact hf

theorem compress_deflate_codec {σ : Type} (H : Host) (E : Engine σ) {i0 : Int × σ}
    (K : Codec E (E.deflateInit Z_BEST_COMPRESSION) i0)
    (now : Nat) (P : List Nat) (sp : Bool) (hP : P ≠ []) (hl : P.length < 2 ^ 32) (fuel : Nat)
    (hf : P.length + (K.enc P).length < fuel) :
    ∃ L2, CInv H 0 [] L2 ∧ emitted L2.trace = K.enc P ∧
      nhr_gz_compress H E now fuel (some P) P.length sp H.NHR_GZ_METHOD_DEFLATE
        = compress_tail H E P P.length sp H.NHR_GZ_METHOD_DEFLATE L2 := by
  have hn : P.length ≠ 0 := fun h => hP (List.length_eq_zero.mp h)
  rw [compress_deflate_eq H E now fuel P P.length sp hn, if_neg (not_not.mpr K.d_ok)]
  obtain ⟨hw, hwl⟩ := start_window P (start_deflate E P.length).zip rfl rfl hl
  refine feed_codec H E K P P.length sp _ 0 [] fuel (start_deflate E P.length)
    (K.enc P) (cinv_start_deflate E P.length)
    (by simp only [start_deflate, NHR_GZ_CHUNK_SIZE]; omega) hwl ?_ rfl ?_
  · rw [hw]; exact K.d_start P
  · have : (start_deflate E P.length).zip.avail_in = P.length % UINT_RANGE := rfl
    rw [this, show P.length % UINT_RANGE = P.length from Nat.mod_eq_of_lt hl]; exact hf

theorem decompress_codec {σ : Type} (H : Host) (E : Engine σ) {d0 i0 : Int × σ} (K : Codec E d0 i0)
    (P C : List Nat) (sp : Bool) (ni T : Nat) (ev : Event) (hP : P ≠ [])
    (hw : (C.drop ni).take T = K.enc P) (fuel : Nat) (hf : P.length < fuel) :
    ∃ out tr, decompress_run H E C sp fuel ni T i0 ev
        = Run.ok out (if sp then some P.length else none) tr ∧
      out.take P.length = P := by
  unfold decompress_run
  rw [if_neg (not_not.mpr K.i_ok)]
  apply loop_codec H E K P C sp fuel
  · refine ⟨?_, ?_, rfl, ?_, ?_, ?_⟩
    · simp only [start_inflate, nhr_malloc, List.length_replicate]
    · simp only [start_inflate]; omega
    · simp only [start_inflate, List.take_zero]
    · simp only [start_inflate]; exact List.length_pos.mpr hP
    · have : window C (start_inflate ni T i0 ev).zip = K.enc P := hw
      rw [this]
      exact K.i_start P
  · simp only [start_inflate]; omega

theorem footer_succeeds {σ : Type} (H : Host) (E : Engine σ) (buff : List Nat) (writed : Nat)
    (src : List Nat) (n : Nat) (hw : writed ≤ buff.length) (h4 : H.abi.sizeof_uLong = 4) :
    (nhr_gz_write_footer H E buff buff.length writed src n).1 ≠ none := by
  have hR : 0 < H.abi.size_range := lt_of_lt_of_le (by norm_num) (size_range_big H)
  have hleft : (buff.length + H.abi.size_range - writed) % H.abi.size_range
      ≤ buff.length - writed := by
    have : buff.length + H.abi.size_range - writed = (buff.length - writed) + H.abi.size_range := by
      omega
    rw [this, Nat.add_mod_right]
    exact Nat.mod_le _ _
  have key : ∀ g : List Nat, writed + 8 ≤ g.length →
      (store g writed (le_bytes H.abi.sizeof_uLong (E.crc32 (E.crc32 0 none)
          (some (src.take (n % UINT_RANGE)))))).bind
        (fun b => store b (writed + H.abi.sizeof_uLong) (le_bytes H.abi.sizeof_uLong n))
        ≠ none := by
    intro g hg
    rw [h4]
    rw [store_eq_some (by rw [le_bytes_length]; omega)]
    simp only [Option.some_bind]
    rw [Ne, store_none_iff]
    simp only [List.length_append, List.length_take, List.length_drop, le_bytes_length]
    omega
  by_cases h8 : (buff.length + H.abi.size_range - writed) % H.abi.size_range < 8
  · simp only [nhr_gz_write_footer, if_pos h8, extend_fst, extend_snd]
    exact key _ (by rw [List.length_append, List.length_replicate]; omega)
  · simp only [nhr_gz_write_footer, if_neg h8]
    exact key _ (by omega)

theorem sniffer_accepts_sized (b : List Nat) (n : Nat) (h18 : 18 < n) (h0 : b[0]? = some 0x1f)
    (h1 : b[1]? = some 0x8b) : nhr_gz_is_gzip_file b n = some 1 := by
  unfold nhr_gz_is_gzip_file
  rw [if_neg (by simp only [NHR_GZ_HEADER_SIZE, NHR_GZ_FOOTER_SIZE]; omega)]
  simp only [h0, h1, if_true]

theorem gzip_avail_stream (T : Nat) (hT : T < 2 ^ 32) :
    ((T + NHR_GZ_HEADER_SIZE + NHR_GZ_FOOTER_SIZE) % UINT_RANGE + UINT_RANGE - NHR_GZ_HEADER_SIZE
      - NHR_GZ_FOOTER_SIZE) % UINT_RANGE = T := by
  simp only [UINT_RANGE, NHR_GZ_HEADER_SIZE, NHR_GZ_FOOTER_SIZE]
  omega

theorem tail_gzip {σ : Type} (H : Host) (E : Engine σ) (inp : List Nat) (n : Nat) (sp : Bool)
    (hdr : List Nat) (L : Locals σ) (c : CInv H 10 hdr L) :
    ((compress_tail H E inp n sp H.NHR_GZ_METHOD_GZIP L).status = Status.fault ∧
      (compress_tail H E inp n sp H.NHR_GZ_METHOD_GZIP L).ret = none ∧
      H.abi.sizeof_uLong ≠ 4) ∨
    (∃ b tr, compress_tail H E inp n sp H.NHR_GZ_METHOD_GZIP L
        = Run.ok b
            (if sp then some (10 + (emitted L.trace).length % H.abi.uLong_range + 8) else none)
            tr ∧
      emitted tr = emitted L.trace ∧
      b.take 10 = hdr ∧
      ((emitted L.trace).length < H.abi.uLong_range →
        (b.drop 10).take (emitted L.trace).length = emitted L.trace)) := by
  have hh : header_size H H.NHR_GZ_METHOD_GZIP = 10 := by
    simp only [header_size, if_true, NHR_GZ_HEADER_SIZE]
  have hfs : footer_size H H.NHR_GZ_METHOD_GZIP = 8 := by
    simp only [footer_size, if_true, NHR_GZ_FOOTER_SIZE]
  have c2 : CInv H (header_size H H.NHR_GZ_METHOD_GZIP) hdr L := by rw [hh]; exact c
  have hlen := c.len; have hwin := c.win; have hpos := c.pos
  have hle := c.total_le
  cases hret : (compress_tail H E inp n sp H.NHR_GZ_METHOD_GZIP L).ret with
  | none =>
    left
    unfold compress_tail at hret ⊢
    simp only [if_true] at hret ⊢
    cases hf : (nhr_gz_write_footer H E L.out_buff L.out_size
        (L.zip.total_out + NHR_GZ_HEADER_SIZE) inp n).1 with
    | none =>
      refine ⟨by trivial, by trivial, ?_⟩
      intro h4
      rw [← hlen] at hf
      exact footer_succeeds H E L.out_buff _ inp n
        (by simp only [NHR_GZ_HEADER_SIZE]; omega) h4 hf
    | some b => rw [hf] at hret; simp [Run.ok] at hret
  | some b =>
    right
    obtain ⟨hem, hs, hhd, hl⟩ := tail_layout H E inp n sp _ hdr L c2 b hret
    rw [hh] at hhd hl
    rw [hh, hfs, c.tot] at hs
    refine ⟨b, (compress_tail H E inp n sp H.NHR_GZ_METHOD_GZIP L).trace, ?_, hem, hhd,
      fun hT => hl (Or.inl hT)⟩
    have hst : (compress_tail H E inp n sp H.NHR_GZ_METHOD_GZIP L).status = Status.returned := by
      unfold compress_tail at hret ⊢
      simp only [if_true] at hret ⊢
      cases hf : (nhr_gz_write_footer H E L.out_buff L.out_size
          (L.zip.total_out + NHR_GZ_HEADER_SIZE) inp n).1 with
      | none => rw [hf] at hret; simp [Run.crash] at hret
      | some b2 => rfl
    cases hR : compress_tail H E inp n sp H.NHR_GZ_METHOD_GZIP L with
    | mk st rt so tr =>
      rw [hR] at hret hs hst
      simp only at hret hs hst
      rw [hret, hs, hst]; rfl

theorem tail_deflate {σ : Type} (H : Host) (E : Engine σ) (inp : List Nat) (n : Nat) (sp : Bool)
    (L : Locals σ) (c : CInv H 0 [] L) :
    compress_tail H E inp n sp H.NHR_GZ_METHOD_DEFLATE L
      = Run.ok L.out_buff
          (if sp then some ((emitted L.trace).length % H.abi.uLong_range) else none)
          (L.trace ++ [Event.deflateEnd]) ∧
    L.out_buff.take (emitted L.trace).length = emitted L.trace := by
  have hd : H.NHR_GZ_METHOD_DEFLATE ≠ H.NHR_GZ_METHOD_GZIP := fun h => H.methods_distinct h.symm
  have htot := c.tot
  constructor
  · unfold compress_tail
    simp only [hd, if_false, htot]
  · have := c.out
    rw [List.drop_zero] at this
    exact this

/-- C1, as amended. Let the engine's `inflate` invert its `deflate` (`Codec`, for
the raw pair of init calls and for the default pair), and let `P` be a non-empty
payload shorter than `2^32` whose stream is shorter than `2^32` too.  With
enough fuel: with the deflate method `nhr_gz_compress` returns a block `C` and
a length `n`; with the gzip method it does not run out of fuel, it returns a
block when `unsigned long` is 4 bytes, and whenever it returns a block `C` it
stores a length `n`.  In both cases `nhr_gz_decompress` on `C`, `n` returns a
block that starts with the bytes of `P` and stores the length of `P`. -/
theorem roundtrip {σ : Type} (H : Host) (E : Engine σ)
    (Kg : Codec E
      (E.deflateInit2 Z_BEST_COMPRESSION Z_DEFLATED NHR_GZ_WINDOWS_BITS 8 Z_DEFAULT_STRATEGY)
      (E.inflateInit2 NHR_GZ_WINDOWS_BITS))
    (Kd : Codec E (E.deflateInit Z_BEST_COMPRESSION) E.inflateInit)
    (now : Nat) (P : List Nat) (hP : P ≠ []) (hl : P.length < 2 ^ 32)
    (hg : (Kg.enc P).length < 2 ^ 32) (hd : (Kd.enc P).length < 2 ^ 32) :
    (∀ fuel, P.length + (Kg.enc P).length < fuel →
      (nhr_gz_compress H E now fuel (some P) P.length true H.NHR_GZ_METHOD_GZIP).status
        ≠ Status.out_of_fuel ∧
      (H.abi.sizeof_uLong = 4 →
        (nhr_gz_compress H E now fuel (some P) P.length true H.NHR_GZ_METHOD_GZIP).ret ≠ none) ∧
      ∀ C, (nhr_gz_compress H E now fuel (some P) P.length true H.NHR_GZ_METHOD_GZIP).ret
          = some C →
        ∃ n, (nhr_gz_compress H E now fuel (some P) P.length true H.NHR_GZ_METHOD_GZIP).size_out
            = some n ∧
          ∀ fuel2, P.length < fuel2 →
            ∃ out tr, nhr_gz_decompress H E fuel2 (some C) n true H.NHR_GZ_METHOD_GZIP
                = Run.ok out (some P.length) tr ∧
              out.take P.length = P) ∧
    (∀ fuel, P.length + (Kd.enc P).length < fuel →
      ∃ C n tr0, nhr_gz_compress H E now fuel (some P) P.length true H.NHR_GZ_METHOD_DEFLATE
          = Run.ok C (some n) tr0 ∧
        ∀ fuel2, P.length < fuel2 →
          ∃ out tr, nhr_gz_decompress H E fuel2 (some C) n true H.NHR_GZ_METHOD_DEFLATE
              = Run.ok out (some P.length) tr ∧
            out.take P.length = P) := by
  constructor
  · intro fuel hf
    obtain ⟨L2, c, hem, hrun⟩ := compress_gzip_codec H E Kg now P true hP hl fuel hf
    rw [hrun]
    have hTpos : 0 < (Kg.enc P).length := List.length_pos.mpr (Kg.enc_pos P hP)
    have hgU : (Kg.enc P).length < H.abi.uLong_range := lt_of_lt_of_le hg (uLong_range_big H)
    rcases tail_gzip H E P P.length true (gz_header now) L2 c with
      ⟨hst, hnone, h4⟩ | ⟨b, tr, hR, -, hhd, hbody⟩
    · refine ⟨by rw [hst]; decide, fun h => absurd h h4, ?_⟩
      intro C hC; rw [hnone] at hC; cases hC
    · rw [hR]
      refine ⟨by simp [Run.ok], fun _ => by simp [Run.ok], ?_⟩
      intro C hC
      simp only [Run.ok, Option.some.injEq] at hC
      subst hC
      rw [hem] at hbody
      replace hbody := hbody hgU
      refine ⟨10 + (Kg.enc P).length + 8,
        by simp only [Run.ok, if_true, hem, Nat.mod_eq_of_lt hgU], ?_⟩
      intro fuel2 hf2
      have h4 : b.take 4 = [0x1f, 0x8b, 8, 0] := by
        have := congrArg (List.take 4) hhd
        rw [List.take_take] at this
        exact this.trans (gz_header_take4 now)
      have h0 : b[0]? = some 0x1f := by rw [take_get h4 0 (by omega)]; rfl
      have h1 : b[1]? = some 0x8b := by rw [take_get h4 1 (by omega)]; rfl
      rw [decompress_gzip_eq H E fuel2 b _ true
        (sniffer_accepts_sized b _ (by omega) h0 h1)]
      have hA := gzip_avail_stream (Kg.enc P).length hg
      simp only [NHR_GZ_HEADER_SIZE, NHR_GZ_FOOTER_SIZE] at hA ⊢
      rw [show 10 + (Kg.enc P).length + 8 = (Kg.enc P).length + 10 + 8 by omega, hA]
      exact decompress_codec H E Kg P b true 10 _ _ hP hbody fuel2 hf2
  · intro fuel hf
    obtain ⟨L2, c, hem, hrun⟩ := compress_deflate_codec H E Kd now P true hP hl fuel hf
    obtain ⟨hR, hbody⟩ := tail_deflate H E P P.length true L2 c
    rw [hem, Nat.mod_eq_of_lt (lt_of_lt_of_le hd (uLong_range_big H))] at hR
    rw [hrun, hR, hem] at *
    have hTpos : 0 < (Kd.enc P).length := List.length_pos.mpr (Kd.enc_pos P hP)
    refine ⟨L2.out_buff, (Kd.enc P).length, _, rfl, ?_⟩
    intro fuel2 hf2
    rw [decompress_deflate_eq H E fuel2 L2.out_buff _ true (by omega),
      show (Kd.enc P).length % UINT_RANGE = (Kd.enc P).length from Nat.mod_eq_of_lt hd]
    exact decompress_codec H E Kd P L2.out_buff true 0 _ _ hP
      (by rw [List.drop_zero]; exact hbody) fuel2 hf2

theorem bigPayload_length : bigPayload.length = 2 ^ 32 - 1 := by
  simp only [bigPayload, List.length_replicate]

theorem empty_window_run (H : Host) (fuel : Nat) (ev : Event) :
    (decompress_run H storeEngine [] true fuel 0 0 storeEngine.inflateInit ev).ret = none := by
  cases fuel with
  | zero => rfl
  | succ k => rfl

/-- C1 as stated fails: the payload of `2^32 - 1` zero bytes is non-empty and
shorter than `2^32`, and the store engine's `inflate` inverts its `deflate`
(`storeCodec`).  On a 64-bit host `nhr_gz_compress` with the deflate method
returns a block and the length `2^32`; `nhr_gz_decompress` on that block and
length gives the engine `avail_in = (uInt)2^32 = 0` and returns no block. -/
theorem roundtrip_breaks_past_4GiB :
    bigPayload ≠ [] ∧ bigPayload.length < 2 ^ 32 ∧
    ∃ C tr, nhr_gz_compress hostLP64 storeEngine 0 (2 ^ 33 + 1) (some bigPayload)
        bigPayload.length true 1 = Run.ok C (some (2 ^ 32)) tr ∧
      ∀ fuel2, (nhr_gz_decompress hostLP64 storeEngine fuel2 (some C) (2 ^ 32) true 1).ret
        = none := by
  have hlen := bigPayload_length
  have hP : bigPayload ≠ [] := by
    intro h0
    rw [h0] at hlen
    exact absurd hlen (by norm_num)
  have hl : bigPayload.length < 2 ^ 32 := by rw [hlen]; norm_num
  refine ⟨hP, hl, ?_⟩
  have henc : ((storeCodec (storeEngine.deflateInit Z_BEST_COMPRESSION) storeEngine.inflateInit
      rfl rfl).enc bigPayload).length = 2 ^ 32 := by
    show (0x78 :: bigPayload).length = 2 ^ 32
    rw [List.length_cons, hlen]; norm_num
  obtain ⟨L2, c, hem, hrun⟩ := compress_deflate_codec hostLP64 storeEngine
    (storeCodec (storeEngine.deflateInit Z_BEST_COMPRESSION) storeEngine.inflateInit rfl rfl)
    0 bigPayload true hP hl (2 ^ 33 + 1) (by rw [henc, hlen]; norm_num)
  obtain ⟨hR, -⟩ := tail_deflate hostLP64 storeEngine bigPayload bigPayload.length true L2 c
  rw [hem, henc, show (2 ^ 32 % hostLP64.abi.uLong_range) = 2 ^ 32 from by decide] at hR
  have hh : hostLP64.NHR_GZ_METHOD_DEFLATE = 1 := rfl
  rw [hh] at hrun hR
  refine ⟨L2.out_buff, L2.trace ++ [Event.deflateEnd], ?_, ?_⟩
  · rw [hrun, hR]; rfl
  · intro fuel2
    have hd := decompress_deflate_eq hostLP64 storeEngine fuel2 L2.out_buff (2 ^ 32) true
      (by norm_num)
    rw [hh] at hd
    rw [hd, show (2 ^ 32 % UINT_RANGE) = 0 from by simp only [UINT_RANGE]; norm_num]
    rw [decompress_run_window hostLP64 storeEngine true fuel2 L2.out_buff [] 0 0 0 _ _ rfl]
    exact empty_window_run hostLP64 fuel2 _

theorem pattern10k_length : pattern10k.length = 10000 := by
  simp only [pattern10k, List.length_map, List.length_range]

/-- Witness of C1 as amended: the store engine on "the quick brown fox!" and on
a 10,000-byte repeating pattern, on a 32-bit host. -/
theorem roundtrip_witness :
    (∃ C n tr0, nhr_gz_compress hostILP32 storeEngine 0 50 (some fox) 20 true 1
        = Run.ok C (some n) tr0 ∧
      ∃ out tr, nhr_gz_decompress hostILP32 storeEngine 50 (some C) n true 1
          = Run.ok out (some 20) tr ∧ out.take 20 = fox) ∧
    (nhr_gz_compress hostILP32 storeEngine 0 50 (some fox) 20 true 2).ret ≠ none ∧
    (∃ C n tr0, nhr_gz_compress hostILP32 storeEngine 0 30000 (some pattern10k)
        pattern10k.length true 1 = Run.ok C (some n) tr0 ∧
      ∃ out tr, nhr_gz_decompress hostILP32 storeEngine 30000 (some C) n true 1
          = Run.ok out (some pattern10k.length) tr ∧ out.take pattern10k.length = pattern10k) := by
  have h := roundtrip hostILP32 storeEngine (storeCodec _ _ rfl rfl) (storeCodec _ _ rfl rfl) 0
    fox (by decide) (by decide) (by decide) (by decide)
  have hl := pattern10k_length
  have hne : pattern10k ≠ [] := by
    intro h0; rw [h0] at hl; exact absurd hl (by decide)
  have henc : ∀ d i hd hi, ((storeCodec d i hd hi).enc pattern10k).length = 10001 := by
    intro d i hd hi
    show (0x78 :: pattern10k).length = 10001
    rw [List.length_cons, hl]
  have h2 := roundtrip hostILP32 storeEngine (storeCodec _ _ rfl rfl) (storeCodec _ _ rfl rfl) 0
    pattern10k hne (by rw [hl]; norm_num) (by rw [henc]; norm_num) (by rw [henc]; norm_num)
  refine ⟨?_, ?_, ?_⟩
  · obtain ⟨C, n, tr0, hc, hdec⟩ := h.2 50 (by decide)
    exact ⟨C, n, tr0, hc, hdec 50 (by decide)⟩
  · exact (h.1 50 (by decide)).2.1 rfl
  · obtain ⟨C, n, tr0, hc, hdec⟩ := h2.2 30000 (by rw [henc, hl]; norm_num)
    exact ⟨C, n, tr0, hc, hdec 30000 (by rw [hl]; norm_num)⟩

/-! ## The output of `nhr_gz_compress`: framing and layout -/

theorem bigPayload_ne : bigPayload ≠ [] := by
  intro h0
  have hlen := bigPayload_length
  rw [h0] at hlen
  exact absurd hlen (by norm_num)

theorem store_enc_big (d0 i0 : Int × Option (List Nat)) (hd : d0 = (Z_OK, none))
    (hi : i0 = (Z_OK, none)) : ((storeCodec d0 i0 hd hi).enc bigPayload).length = 2 ^ 32 := by
  show (0x78 :: bigPayload).length = 2 ^ 32
  rw [List.length_cons, bigPayload_length]; norm_num

/-- C2, as amended. Whenever `nhr_gz_compress` with the gzip method returns a
block, the block begins with `1F 8B 08 00` and has 0 at offsets 8 and 9, and a
length of at least 18 is stored through the size pointer; when the number of
bytes the engine emitted is not a multiple of the range of `uLong`, that length
is at least 19 and `nhr_gz_is_gzip_file` on the block with that length returns
1.  It is so for every non-empty payload `P` shorter than `2^32` when the
engine's `deflate` encodes it (`Codec`) in a stream whose length is not a
multiple of the range of `uLong`, as every stream shorter than `2^32` is: the
stream of a non-empty payload is not empty. -/
theorem gzip_framing {σ : Type} (H : Host) (E : Engine σ) (now fuel : Nat) (b : List Nat)
    (n : Nat) (buf : List Nat)
    (hret : (nhr_gz_compress H E now fuel (some b) n true H.NHR_GZ_METHOD_GZIP).ret = some buf) :
    buf.take 4 = [0x1f, 0x8b, 8, 0] ∧ buf[8]? = some 0 ∧ buf[9]? = some 0 ∧
    (∃ len, (nhr_gz_compress H E now fuel (some b) n true H.NHR_GZ_METHOD_GZIP).size_out
        = some len ∧ 18 ≤ len ∧
      ((emitted (nhr_gz_compress H E now fuel (some b) n true H.NHR_GZ_METHOD_GZIP).trace).length
          % H.abi.uLong_range ≠ 0 →
        19 ≤ len ∧ nhr_gz_is_gzip_file buf len = some 1)) ∧
    (∀ (i0 : Int × σ)
        (K : Codec E (E.deflateInit2 Z_BEST_COMPRESSION Z_DEFLATED NHR_GZ_WINDOWS_BITS 8
          Z_DEFAULT_STRATEGY) i0),
      b ≠ [] → n = b.length → b.length < 2 ^ 32 →
      ((K.enc b).length < 2 ^ 32 ∨ (K.enc b).length % H.abi.uLong_range ≠ 0) →
      b.length + (K.enc b).length < fuel →
      ∃ len, (nhr_gz_compress H E now fuel (some b) n true H.NHR_GZ_METHOD_GZIP).size_out
          = some len ∧ 19 ≤ len ∧ nhr_gz_is_gzip_file buf len = some 1) := by
  obtain ⟨hsz, hhd, -⟩ := compress_shape H E now fuel b n true _ buf hret
  simp only [header_size, footer_size, if_true, NHR_GZ_HEADER_SIZE, NHR_GZ_FOOTER_SIZE] at hsz hhd
  have h4 : buf.take 4 = [0x1f, 0x8b, 8, 0] := by
    have := congrArg (List.take 4) hhd
    rw [List.take_take] at this
    exact this.trans (gz_header_take4 now)
  have h0 : buf[0]? = some 0x1f := by rw [take_get h4 0 (by omega)]; rfl
  have h1 : buf[1]? = some 0x8b := by rw [take_get h4 1 (by omega)]; rfl
  have key : (emitted (nhr_gz_compress H E now fuel (some b) n true
        H.NHR_GZ_METHOD_GZIP).trace).length % H.abi.uLong_range ≠ 0 →
      19 ≤ 10 + (emitted (nhr_gz_compress H E now fuel (some b) n true
        H.NHR_GZ_METHOD_GZIP).trace).length % H.abi.uLong_range + 8 ∧
      nhr_gz_is_gzip_file buf (10 + (emitted (nhr_gz_compress H E now fuel (some b) n true
        H.NHR_GZ_METHOD_GZIP).trace).length % H.abi.uLong_range + 8) = some 1 := by
    intro hT
    exact ⟨by omega, sniffer_accepts_sized buf _ (by omega) h0 h1⟩
  refine ⟨h4, ?_, ?_, ⟨_, hsz, by omega, key⟩, ?_⟩
  · rw [take_get hhd 8 (by omega)]; exact gz_header_get8 now
  · rw [take_get hhd 9 (by omega)]; exact gz_header_get9 now
  · intro i0 K hP hn hl hT hf
    subst hn
    refine ⟨_, hsz, key ?_⟩
    obtain ⟨L2, c, hem, hrun⟩ := compress_gzip_codec H E K now b true hP hl fuel hf
    have c2 : CInv H (header_size H H.NHR_GZ_METHOD_GZIP) (gz_header now) L2 := by
      simp only [header_size, if_true, NHR_GZ_HEADER_SIZE]; exact c
    rw [hrun] at hret ⊢
    rw [(tail_layout H E b b.length true _ _ L2 c2 buf hret).1, hem]
    have hpos : 0 < (K.enc b).length := List.length_pos.mpr (K.enc_pos b hP)
    rcases hT with hT | hT
    · rw [Nat.mod_eq_of_lt (lt_of_lt_of_le hT (uLong_range_big H))]; omega
    · exact hT

/-- Witness of C2 as amended: the store engine on "the quick brown fox!". -/
theorem gzip_framing_witness :
    ∃ buf, (nhr_gz_compress hostILP32 storeEngine 0 50 (some fox) 20 true 2).ret = some buf ∧
      buf.take 4 = [0x1f, 0x8b, 8, 0] ∧ buf[8]? = some 0 ∧ buf[9]? = some 0 ∧
      ∃ len, (nhr_gz_compress hostILP32 storeEngine 0 50 (some fox) 20 true 2).size_out
          = some len ∧ 19 ≤ len ∧ nhr_gz_is_gzip_file buf len = some 1 :=
  ⟨((nhr_gz_compress hostILP32 storeEngine 0 50 (some fox) 20 true 2).ret).getD [], by decide,
    (gzip_framing hostILP32 storeEngine 0 50 fox 20 _ (by decide)).1,
    (gzip_framing hostILP32 storeEngine 0 50 fox 20 _ (by decide)).2.1,
    (gzip_framing hostILP32 storeEngine 0 50 fox 20 _ (by decide)).2.2.1,
    (gzip_framing hostILP32 storeEngine 0 50 fox 20 _ (by decide)).2.2.2.2 _
      (storeCodec _ _ rfl rfl) (by decide) rfl (by decide) (Or.inl (by decide)) (by decide)⟩

/-- C2 as stated fails: the payload of `2^32 - 1` zero bytes is non-empty, and
the store engine emits a stream of `2^32` bytes for it.  On a host whose
`uLong` is 4 bytes and whose `size_t` is 8 (LLP64), `total_out` is back at 0
after the last step: `nhr_gz_compress` with the gzip method returns a block and
stores the length 18, and `nhr_gz_is_gzip_file` on that block with that length
returns 0. -/
theorem gzip_framing_wraps :
    bigPayload ≠ [] ∧
    ∃ C tr, nhr_gz_compress hostLLP64 storeEngine 0 (2 ^ 33 + 1) (some bigPayload)
        bigPayload.length true 2 = Run.ok C (some 18) tr ∧
      (emitted tr).length = 2 ^ 32 ∧
      nhr_gz_is_gzip_file C 18 = some 0 := by
  have hlen := bigPayload_length
  have hP := bigPayload_ne
  have hl : bigPayload.length < 2 ^ 32 := by rw [hlen]; norm_num
  refine ⟨hP, ?_⟩
  have henc := store_enc_big (storeEngine.deflateInit2 Z_BEST_COMPRESSION Z_DEFLATED
    NHR_GZ_WINDOWS_BITS 8 Z_DEFAULT_STRATEGY) (storeEngine.inflateInit2 NHR_GZ_WINDOWS_BITS)
    rfl rfl
  obtain ⟨L2, c, hem, hrun⟩ := compress_gzip_codec hostLLP64 storeEngine
    (storeCodec (storeEngine.deflateInit2 Z_BEST_COMPRESSION Z_DEFLATED NHR_GZ_WINDOWS_BITS 8
      Z_DEFAULT_STRATEGY) (storeEngine.inflateInit2 NHR_GZ_WINDOWS_BITS) rfl rfl)
    0 bigPayload true hP hl (2 ^ 33 + 1) (by rw [henc, hlen]; norm_num)
  have hh : hostLLP64.NHR_GZ_METHOD_GZIP = 2 := rfl
  rw [hh] at hrun
  rcases tail_gzip hostLLP64 storeEngine bigPayload bigPayload.length true (gz_header 0) L2 c with
    ⟨-, -, h4⟩ | ⟨C, tr, hR, htr, -, -⟩
  · exact absurd rfl h4
  · rw [hh, hem, henc, show (2 ^ 32 % hostLLP64.abi.uLong_range) = 0 from by decide] at hR
    refine ⟨C, tr, by rw [hrun, hR]; rfl, by rw [htr, hem, henc], sniffer_small C 18 (le_refl _)⟩

/-- C10, as amended. Whenever `nhr_gz_compress` returns a block, with `h` the
size of the header (10 with the gzip method, 0 with the deflate method), `f`
the size of the footer (8 and 0) and `T` the number of bytes the engine emitted
over all its steps: the length stored through the size pointer is
`h + (T mod R) + f`, `R` being the range of `uLong`, of which `total_out` is
one; when `T < R` the stored length is `h + T + f` and the bytes of the block at
offsets `h .. h+T-1` are the bytes the engine emitted, in order; with the
deflate method they are so for every `T`. -/
theorem compress_layout {σ : Type} (H : Host) (E : Engine σ) (now fuel : Nat) (b : List Nat)
    (n : Nat) (sp : Bool) (method : Nat) (buf : List Nat)
    (hret : (nhr_gz_compress H E now fuel (some b) n sp method).ret = some buf) :
    (nhr_gz_compress H E now fuel (some b) n sp method).size_out =
      (if sp then
        some (header_size H method
          + (emitted (nhr_gz_compress H E now fuel (some b) n sp method).trace).length
              % H.abi.uLong_range
          + footer_size H method)
       else none) ∧
    ((emitted (nhr_gz_compress H E now fuel (some b) n sp method).trace).length
        < H.abi.uLong_range →
      (buf.drop (header_size H method)).take
          (emitted (nhr_gz_compress H E now fuel (some b) n sp method).trace).length
        = emitted (nhr_gz_compress H E now fuel (some b) n sp method).trace ∧
      (nhr_gz_compress H E now fuel (some b) n sp method).size_out =
        (if sp then
          some (header_size H method
            + (emitted (nhr_gz_compress H E now fuel (some b) n sp method).trace).length
            + footer_size H method)
         else none)) ∧
    (method ≠ H.NHR_GZ_METHOD_GZIP →
      (buf.drop (header_size H method)).take
          (emitted (nhr_gz_compress H E now fuel (some b) n sp method).trace).length
        = emitted (nhr_gz_compress H E now fuel (some b) n sp method).trace) := by
  obtain ⟨hsz, -, hl⟩ := compress_shape H E now fuel b n sp method buf hret
  refine ⟨hsz, fun hT => ⟨hl (Or.inl hT), ?_⟩, fun hm => hl (Or.inr hm)⟩
  rw [hsz, Nat.mod_eq_of_lt hT]

/-- Witness of C10 as amended: the store engine on "the quick brown fox!", gzip
method. -/
theorem compress_layout_witness :
    ∃ buf,
      (nhr_gz_compress hostILP32 storeEngine 0 9 (some fox) 20 true 2).ret = some buf ∧
      (buf.drop 10).take 21 = 0x78 :: fox ∧
      (nhr_gz_compress hostILP32 storeEngine 0 9 (some fox) 20 true 2).size_out = some 39 :=
  ⟨((nhr_gz_compress hostILP32 storeEngine 0 9 (some fox) 20 true 2).ret).getD [],
    by decide,
    by
      have h := (compress_layout hostILP32 storeEngine 0 9 fox 20 true 2 _
        (by decide :
          (nhr_gz_compress hostILP32 storeEngine 0 9 (some fox) 20 true 2).ret
            = some (((nhr_gz_compress hostILP32 storeEngine 0 9 (some fox) 20 true 2).ret).getD
              []))).2.1
      have he : emitted (nhr_gz_compress hostILP32 storeEngine 0 9 (some fox) 20 true 2).trace
          = 0x78 :: fox := by decide
      rw [he] at h
      exact (h (by decide)).1,
    by decide⟩

/-- C10 as stated fails: for the payload of `2^32 - 1` zero bytes the store
engine emits `2^32` bytes.  On a host whose `uLong` is 4 bytes and whose
`size_t` is 8 (LLP64), `nhr_gz_compress` with the deflate method returns a
block that starts with those `2^32` bytes and stores the length 0, the value
`total_out` has after the last step. -/
theorem layout_wraps_past_4GiB :
    ∃ C tr, nhr_gz_compress hostLLP64 storeEngine 0 (2 ^ 33 + 1) (some bigPayload)
        bigPayload.length true 1 = Run.ok C (some 0) tr ∧
      (emitted tr).length = 2 ^ 32 ∧
      C.take (2 ^ 32) = emitted tr := by
  have hlen := bigPayload_length
  have hP := bigPayload_ne
  have hl : bigPayload.length < 2 ^ 32 := by rw [hlen]; norm_num
  have henc := store_enc_big (storeEngine.deflateInit Z_BEST_COMPRESSION) storeEngine.inflateInit
    rfl rfl
  obtain ⟨L2, c, hem, hrun⟩ := compress_deflate_codec hostLLP64 storeEngine
    (storeCodec (storeEngine.deflateInit Z_BEST_COMPRESSION) storeEngine.inflateInit rfl rfl)
    0 bigPayload true hP hl (2 ^ 33 + 1) (by rw [henc, hlen]; norm_num)
  obtain ⟨hR, hbody⟩ := tail_deflate hostLLP64 storeEngine bigPayload bigPayload.length true L2 c
  have hh : hostLLP64.NHR_GZ_METHOD_DEFLATE = 1 := rfl
  rw [hh] at hrun hR
  rw [hem, henc, show (2 ^ 32 % hostLLP64.abi.uLong_range) = 0 from by decide] at hR
  have he : emitted (L2.trace ++ [Event.deflateEnd]) = emitted L2.trace := by
    simp only [emitted_append, emitted, Event.output, List.append_nil]
  refine ⟨L2.out_buff, L2.trace ++ [Event.deflateEnd], by rw [hrun, hR]; rfl, ?_, ?_⟩
  · rw [he, hem, henc]
  · rw [he]
    rw [hem, henc] at hbody
    rw [hem]; exact hbody
/-- C17, as amended. For every block of `s` bytes and every increment `k`
whose sum `s + k` is a `size_t` value (it does not pass `SIZE_MAX`),
`nhr_gz_extend` returns a block of `s + k` bytes whose first `s` bytes are the
bytes of the input block, and the new value of the size variable is `s + k`;
this holds of the function with the `size_t` sum of the host
(`nhr_gz_extend_sized`) and of the function with the exact sum
(`nhr_gz_extend`), which agree. -/
theorem extend_spec (H : Host) (buff : List Nat) (k : Nat)
    (hk : buff.length + k < H.abi.size_range) :
    nhr_gz_extend_sized H buff buff.length k
      = (some (nhr_gz_extend buff buff.length k).1, (nhr_gz_extend buff buff.length k).2) ∧
    (nhr_gz_extend buff buff.length k).1.length = buff.length + k ∧
    (nhr_gz_extend buff buff.length k).1.take buff.length = buff ∧
    (nhr_gz_extend buff buff.length k).2 = buff.length + k := by
  rw [extend_fst, extend_snd]
  refine ⟨?_, ?_, ?_, rfl⟩
  · unfold nhr_gz_extend_sized
    simp only [Nat.mod_eq_of_lt hk, nhr_malloc, List.take_length]
    rw [store_eq_some (by rw [List.length_replicate]; omega)]
    simp only [List.take_zero, List.nil_append, Nat.zero_add, List.drop_replicate,
      Nat.add_sub_cancel_left]
  · rw [List.length_append, List.length_replicate]
  · exact List.take_left' rfl

/-- Witness of C17 as amended: a 3-byte block grown by 2 on a 32-bit host. -/
theorem extend_spec_witness :
    [1, 2, 3].length + 2 < hostILP32.abi.size_range ∧
    nhr_gz_extend_sized hostILP32 [1, 2, 3] 3 2 = (some [1, 2, 3, 0, 0], 5) ∧
    (nhr_gz_extend [1, 2, 3] [1, 2, 3].length 2).1.take [1, 2, 3].length = [1, 2, 3] :=
  ⟨by decide, by decide, (extend_spec hostILP32 [1, 2, 3] 2 (by decide)).2.2.1⟩

/-- C17 as stated fails: on a host whose `size_t` is 4 bytes, for a block of 3
bytes and the increment `2^32 - 2` (`SIZE_MAX - 1`) the sum of l.40 wraps to 1:
the new block has 1 byte, the `memcpy` of 3 bytes leaves it, and the size
variable becomes 1. -/
theorem extend_wraps :
    0 < 2 ^ 32 - 2 ∧ 2 ^ 32 - 2 < hostILP32.abi.size_range ∧
    nhr_gz_extend_sized hostILP32 [1, 2, 3] 3 (2 ^ 32 - 2) = (none, 1) := by
  decide

/-- On a host whose `unsigned long` is 4 bytes: for a block of `c` bytes (a
representable size) and `w <= c`, `nhr_gz_write_footer` returns a block; the
block is the input block when `c - w >= 8` and has 8 more bytes otherwise; its
bytes before offset `w` are unchanged, and the 8 bytes at offsets `w .. w+7`
are the CRC and the length, 4 bytes each, inside the block; every other byte is
as in the block stored into. -/
theorem footer_bounds_ulong32 {σ : Type} (H : Host) (E : Engine σ) (buff : List Nat) (w : Nat)
    (src : List Nat) (n : Nat) (hw : w ≤ buff.length) (hs : buff.length < 2 ^ 32)
    (h4 : H.abi.sizeof_uLong = 4) :
    ∃ b, (nhr_gz_write_footer H E buff buff.length w src n).1 = some b ∧
      b.length = (if buff.length - w < 8 then buff.length + 8 else buff.length) ∧
      w + 8 ≤ b.length ∧
      b.take w = buff.take w ∧
      (b.drop w).take 8
        = le_bytes 4 (E.crc32 (E.crc32 0 none) (some (src.take (n % UINT_RANGE))))
          ++ le_bytes 4 n ∧
      b.drop (w + 8) = (if buff.length - w < 8 then buff ++ List.replicate 8 0 else buff).drop
        (w + 8) := by
  have hs2 : buff.length - w < 2 ^ 32 := by omega
  have hne := footer_succeeds H E buff w src n hw h4
  obtain ⟨b, hb⟩ := Option.ne_none_iff_exists'.mp hne
  obtain ⟨hbytes, hle⟩ := footer_bytes H E buff w src n b hb
  obtain ⟨htake, -⟩ := footer_take H E buff w src n hw b hb
  rw [h4] at hbytes hle
  obtain ⟨g, evs, -, -, hsmall, hbig, heq⟩ := footer_cases H E buff w src n hw
    (lt_of_lt_of_le hs2 (size_range_big H))
  rw [heq] at hb
  simp only at hb
  obtain ⟨b1, h1, h2⟩ := Option.bind_eq_some.mp hb
  have hg : g = (if buff.length - w < 8 then buff ++ List.replicate 8 0 else buff) := by
    by_cases h8 : buff.length - w < 8
    · rw [if_pos h8]; exact hsmall h8
    · rw [if_neg h8]; exact hbig (by omega)
  have hl1 := le_bytes_length H.abi.sizeof_uLong
    (E.crc32 (E.crc32 0 none) (some (src.take (n % UINT_RANGE))))
  have hl2 := le_bytes_length H.abi.sizeof_uLong n
  rw [h4] at hl1 hl2 h1 h2
  refine ⟨b, by rw [heq]; exact hb, ?_, by omega, htake, hbytes, ?_⟩
  · rw [store_length h2, store_length h1, hg]
    split
    · rw [List.length_append, List.length_replicate]
    · rfl
  · have e2 := congrArg (List.drop 4) (store_drop h2)
    have e1 := congrArg (List.drop 4) (store_drop h1)
    rw [List.drop_drop, List.drop_left' hl2, hl2] at e2
    rw [List.drop_drop, List.drop_left' hl1, hl1] at e1
    rw [show w + 8 = w + 4 + 4 by omega, e2, ← List.drop_drop, e1, List.drop_drop, hg]

/-- Witness of `footer_bounds_ulong32`: a 12-byte block with 4 bytes written. -/
theorem footer_bounds_ulong32_witness :
    (nhr_gz_write_footer hostILP32 storeEngine (List.replicate 12 7) 12 4 [0x61] 1).1
      = some [7, 7, 7, 7, 0x43, 0xBE, 0xB7, 0xE8, 1, 0, 0, 0] := by
  obtain ⟨b, hb, -⟩ := footer_bounds_ulong32 hostILP32 storeEngine (List.replicate 12 7) 4
    [0x61] 1 (by decide) (by decide) rfl
  decide

/-- C16, the code at a failing input. On a host whose `unsigned long` is 8 bytes
(LP64), `nhr_gz_write_footer` on a block of 12 bytes with 4 written does not
grow the block (8 bytes are left) and stores two 8-byte words at offsets
`4 .. 19`: the second store falls outside the 12-byte block.  With 20 bytes it
writes 16 bytes, at offsets `4 .. 19`, the length at offset 12 and not at
offset 8. -/
theorem footer_overruns_on_lp64 :
    (nhr_gz_write_footer hostLP64 storeEngine (List.replicate 12 7) 12 4 [0x61] 1)
      = (none, []) ∧
    (nhr_gz_write_footer hostLP64 storeEngine (List.replicate 20 7) 20 4 [0x61] 1)
      = (some [7, 7, 7, 7, 0x43, 0xBE, 0xB7, 0xE8, 0, 0, 0, 0, 1, 0, 0, 0, 0, 0, 0, 0], []) := by
  decide

/-! ## The input count of the first engine step -/

theorem first_avail_in_append (a b : List Event) :
    first_avail_in (a ++ b) = (first_avail_in a).or (first_avail_in b) := by
  unfold first_avail_in
  exact List.findSome?_append

theorem first_avail_in_some {a : List Event} {v : Nat} (h : first_avail_in a = some v)
    {b : List Event} (hb : ∃ rest, b = a ++ rest) : first_avail_in b = some v := by
  obtain ⟨rest, rfl⟩ := hb
  rw [first_avail_in_append, h]
  rfl

theorem first_avail_in_step {a : List Event} (h : first_avail_in a = none) (ev : Event) :
    first_avail_in (a ++ [ev]) = ev.avail_in := by
  rw [first_avail_in_append, h]
  cases hv : ev.avail_in <;> simp [first_avail_in, List.findSome?, hv]

theorem compress_finish_trace {σ : Type} (H : Host) (E : Engine σ) (inp : List Nat) (n : Nat)
    (sp : Bool) (method : Nat) (fuel : Nat) (L : Locals σ) :
    ∃ rest, (compress_finish H E inp n sp method fuel L).trace = L.trace ++ rest := by
  have hends := compress_finish_ends H E inp n sp method
    (fun L1 => ∃ rest, L1.trace = L.trace ++ rest)
    (by
      intro L1 ⟨rest, h⟩ _
      exact trace_extends h _)
    (by
      intro L1 flush mem ⟨rest, h⟩ _ _
      exact trace_extends h _)
    fuel L ⟨[], (List.append_nil _).symm⟩
  rcases hends with ⟨L1, ⟨rest, h⟩, hR⟩ | ⟨L1, ⟨rest, h⟩, hR⟩ | ⟨L1, fl, ⟨rest, h⟩, -, -, hR⟩ |
    ⟨L1, ⟨rest, h⟩, hR⟩
  · rw [hR]
    obtain ⟨r2, h2⟩ := compress_tail_trace H E inp n sp method L1
    rw [h2, h]
    exact ⟨_, List.append_assoc _ _ _⟩
  · rw [hR]; exact ⟨rest, h⟩
  · rw [hR]; exact trace_extends h _
  · rw [hR]; exact trace_extends h _

theorem maybe_grow_trace {σ : Type} (L : Locals σ) :
    ∃ rest, (maybe_grow L).trace = L.trace ++ rest := by
  unfold maybe_grow
  split
  · exact ⟨_, rfl⟩
  · exact ⟨[], (List.append_nil _).symm⟩

theorem maybe_grow_first {σ : Type} (L : Locals σ) (h : first_avail_in L.trace = none) :
    first_avail_in (maybe_grow L).trace = none ∧
      (maybe_grow L).zip.avail_in = L.zip.avail_in := by
  unfold maybe_grow
  split
  · refine ⟨?_, rfl⟩
    show first_avail_in (L.trace ++ _) = none
    rw [first_avail_in_append, h]
    rfl
  · exact ⟨h, rfl⟩

theorem compress_finish_first {σ : Type} (H : Host) (E : Engine σ) (inp : List Nat) (n : Nat)
    (sp : Bool) (method : Nat) (fuel : Nat) (L : Locals σ)
    (h : first_avail_in L.trace = none) :
    first_avail_in (compress_finish H E inp n sp method (fuel + 1) L).trace
      = some L.zip.avail_in := by
  obtain ⟨hg, ha⟩ := maybe_grow_first L h
  have hev : first_avail_in ((maybe_grow L).trace ++
      [deflate_event Z_FINISH (maybe_grow L) (deflate_call E inp Z_FINISH (maybe_grow L))])
      = some L.zip.avail_in := by
    rw [first_avail_in_step hg, ← ha]
    rfl
  rw [compress_finish]
  simp only []
  cases hst : store (maybe_grow L).out_buff (maybe_grow L).zip.next_out
      (deflate_call E inp Z_FINISH (maybe_grow L)).produced with
  | none => exact hev
  | some mem =>
    simp only []
    split
    · exact first_avail_in_some hev (compress_finish_trace H E inp n sp method fuel _)
    · split
      · exact first_avail_in_some hev ⟨_, rfl⟩
      · exact first_avail_in_some hev (compress_tail_trace H E inp n sp method _)

theorem compress_feed_first {σ : Type} (H : Host) (E : Engine σ) (inp : List Nat) (n : Nat)
    (sp : Bool) (method : Nat) (fuel : Nat) (L : Locals σ)
    (h : first_avail_in L.trace = none) :
    first_avail_in (compress_feed H E inp n sp method (fuel + 1) L).trace
      = some L.zip.avail_in := by
  have hev : first_avail_in (L.trace ++
      [deflate_event Z_NO_FLUSH L (deflate_call E inp Z_NO_FLUSH L)])
      = some L.zip.avail_in := by
    rw [first_avail_in_step h]
    rfl
  rw [compress_feed]
  split
  · exact compress_finish_first H E inp n sp method fuel L h
  · simp only []
    cases hst : store L.out_buff L.zip.next_out (deflate_call E inp Z_NO_FLUSH L).produced with
    | none => exact hev
    | some mem =>
      simp only []
      split
      · exact first_avail_in_some hev ⟨_, rfl⟩
      · obtain ⟨r1, h1⟩ := maybe_grow_trace (after_step H L (deflate_call E inp Z_NO_FLUSH L) mem
          (deflate_event Z_NO_FLUSH L (deflate_call E inp Z_NO_FLUSH L)))
        obtain ⟨r2, h2⟩ := compress_feed_trace H E inp n sp method fuel
          (maybe_grow (after_step H L (deflate_call E inp Z_NO_FLUSH L) mem
            (deflate_event Z_NO_FLUSH L (deflate_call E inp Z_NO_FLUSH L))))
        exact first_avail_in_some hev ⟨r1 ++ r2, by
          rw [h2, h1, List.append_assoc]
          rfl⟩

theorem decompress_loop_first {σ : Type} (H : Host) (E : Engine σ) (inp : List Nat) (sp : Bool)
    (fuel : Nat) (L : Locals σ) (h : first_avail_in L.trace = none) :
    first_avail_in (decompress_loop H E inp sp (fuel + 1) L).trace = some L.zip.avail_in := by
  have hev : first_avail_in (L.trace ++ [round_event E inp L]) = some L.zip.avail_in := by
    rw [first_avail_in_step h]
    rfl
  rw [decompress_loop_succ]
  cases hst : round_store E inp L with
  | none => exact hev
  | some mem =>
    simp only []
    have hnext : ∃ rest, (round_next H E inp L mem).trace
        = (L.trace ++ [round_event E inp L]) ++ rest := by
      rcases round_next_trace H E inp L mem with h1 | h1
      · exact ⟨[], by rw [h1, List.append_nil]⟩
      · exact ⟨_, h1⟩
    split
    · exact first_avail_in_some hev ⟨[Event.free, Event.inflateEnd], by simp [Run.null]⟩
    · split
      · split
        · obtain ⟨r1, h1⟩ := hnext
          obtain ⟨r2, h2⟩ := decompress_loop_trace H E inp sp fuel (round_next H E inp L mem)
          exact first_avail_in_some hev ⟨r1 ++ r2, by rw [h2, h1, List.append_assoc]⟩
        · obtain ⟨r1, h1⟩ := hnext
          exact first_avail_in_some hev ⟨r1 ++ [Event.inflateEnd], by
            show (round_next H E inp L mem).trace ++ _ = _
            rw [h1, List.append_assoc]⟩
      · exact first_avail_in_some hev ⟨[Event.inflateEnd, Event.free], by simp [Run.null]⟩

theorem start_gzip_first {σ : Type} (E : Engine σ) (now n : Nat) :
    first_avail_in (start_gzip E now n).trace = none := rfl

theorem start_deflate_first {σ : Type} (E : Engine σ) (n : Nat) :
    first_avail_in (start_deflate E n).trace = none := rfl

theorem decompress_run_first {σ : Type} (H : Host) (E : Engine σ) (inp : List Nat) (sp : Bool)
    (fuel ni ai : Nat) (res : Int × σ) (ev : Event) (hev : ev.avail_in = none)
    (hok : res.1 = Z_OK) :
    first_avail_in (decompress_run H E inp sp (fuel + 1) ni ai res ev).trace = some ai := by
  unfold decompress_run
  rw [if_neg (by rw [hok]; exact fun h => h rfl)]
  exact decompress_loop_first H E inp sp fuel (start_inflate ni ai res ev)
    (by
      have h1 : first_avail_in ([] ++ [ev]) = none := by
        rw [first_avail_in_step (show first_avail_in [] = none from rfl) ev, hev]
      show first_avail_in (([] ++ [ev]) ++ [Event.malloc NHR_GZ_CHUNK_SIZE]) = none
      rw [first_avail_in_append, h1]
      rfl)

theorem compress_deflate_first {σ : Type} (H : Host) (E : Engine σ) (now fuel : Nat)
    (P : List Nat) (n : Nat) (sp : Bool) (hn : n ≠ 0)
    (hok : (E.deflateInit Z_BEST_COMPRESSION).1 = Z_OK) :
    first_avail_in (nhr_gz_compress H E now (fuel + 1) (some P) n sp
      H.NHR_GZ_METHOD_DEFLATE).trace = some (n % UINT_RANGE) := by
  rw [compress_deflate_eq H E now (fuel + 1) P n sp hn,
    if_neg (by rw [hok]; exact fun h => h rfl)]
  exact compress_feed_first H E P n sp _ fuel _ (start_deflate_first E n)

/-- C19 (amended). For a non-empty input of length `n`, a supported method, an
init call that succeeds and at least one unit of fuel, the first engine step of
`nhr_gz_compress` is called with `avail_in = n mod 2^32`; the first step of
`nhr_gz_decompress` with `n mod 2^32` for the deflate method and with
`(n mod 2^32 - 18) mod 2^32` for the gzip method on a block the sniffer accepts.
For `n < 2^32` these are `n` and, when `18 < n`, `n - 18`. -/
theorem first_step_input {σ : Type} (H : Host) (E : Engine σ) (now fuel : Nat) (P : List Nat)
    (n : Nat) (sp : Bool) (hn : n ≠ 0) :
    ((E.deflateInit2 Z_BEST_COMPRESSION Z_DEFLATED NHR_GZ_WINDOWS_BITS 8
        Z_DEFAULT_STRATEGY).1 = Z_OK →
      first_avail_in (nhr_gz_compress H E now (fuel + 1) (some P) n sp
        H.NHR_GZ_METHOD_GZIP).trace = some (n % UINT_RANGE)) ∧
    ((E.deflateInit Z_BEST_COMPRESSION).1 = Z_OK →
      first_avail_in (nhr_gz_compress H E now (fuel + 1) (some P) n sp
        H.NHR_GZ_METHOD_DEFLATE).trace = some (n % UINT_RANGE)) ∧
    (E.inflateInit.1 = Z_OK →
      first_avail_in (nhr_gz_decompress H E (fuel + 1) (some P) n sp
        H.NHR_GZ_METHOD_DEFLATE).trace = some (n % UINT_RANGE)) ∧
    ((E.inflateInit2 NHR_GZ_WINDOWS_BITS).1 = Z_OK → nhr_gz_is_gzip_file P n = some 1 →
      first_avail_in (nhr_gz_decompress H E (fuel + 1) (some P) n sp
        H.NHR_GZ_METHOD_GZIP).trace
        = some ((n % UINT_RANGE + UINT_RANGE - NHR_GZ_HEADER_SIZE - NHR_GZ_FOOTER_SIZE)
            % UINT_RANGE)) ∧
    (n < UINT_RANGE → n % UINT_RANGE = n ∧
      (18 < n → (n % UINT_RANGE + UINT_RANGE - NHR_GZ_HEADER_SIZE - NHR_GZ_FOOTER_SIZE)
            % UINT_RANGE = n - 18)) := by
  refine ⟨?_, ?_, ?_, ?_, ?_⟩
  · intro hok
    rw [compress_gzip_eq H E now (fuel + 1) P n sp hn, if_neg (by rw [hok]; exact fun h => h rfl)]
    exact compress_feed_first H E P n sp _ fuel _ (start_gzip_first E now n)
  · exact compress_deflate_first H E now fuel P n sp hn
  · intro hok
    rw [decompress_deflate_eq H E (fuel + 1) P n sp hn]
    exact decompress_run_first H E P sp fuel 0 _ _ _ rfl hok
  · intro hok hg
    rw [decompress_gzip_eq H E (fuel + 1) P n sp hg]
    exact decompress_run_first H E P sp fuel _ _ _ _ rfl hok
  · intro hlt
    refine ⟨Nat.mod_eq_of_lt hlt, fun h18 => ?_⟩
    rw [Nat.mod_eq_of_lt hlt]
    simp only [UINT_RANGE, NHR_GZ_HEADER_SIZE, NHR_GZ_FOOTER_SIZE] at hlt ⊢
    omega

/-- Witness of `first_step_input`: the store engine on a 20-byte payload. -/
theorem first_step_input_witness :
    first_avail_in (nhr_gz_compress hostLP64 storeEngine 0 1 (some fox) 20 true 2).trace
      = some 20 :=
  (first_step_input hostLP64 storeEngine 0 0 fox 20 true (by decide)).1 rfl

theorem overPayload_length : overPayload.length = 2 ^ 32 + 1 := by
  simp only [overPayload, List.length_replicate]

/-- C19 as stated fails: for the payload of `n = 2^32 + 1` zero bytes on a 64-bit
host, the first `deflate` step of `nhr_gz_compress` is called with
`avail_in = 1`, not `n`. -/
theorem first_step_input_wraps :
    overPayload.length = 2 ^ 32 + 1 ∧
    first_avail_in (nhr_gz_compress hostLP64 storeEngine 0 1 (some overPayload)
      (2 ^ 32 + 1) true 1).trace = some 1 := by
  refine ⟨overPayload_length, ?_⟩
  have h := compress_deflate_first hostLP64 storeEngine 0 0 overPayload (2 ^ 32 + 1) true
    (by norm_num) rfl
  have hm : (2 ^ 32 + 1) % UINT_RANGE = 1 := by simp only [UINT_RANGE]; norm_num
  rw [hm] at h
  exact h

/-! ## The growth of the output buffer -/

theorem capacities_append (a b : List Event) :
    capacities (a ++ b) = capacities a ++ capacities b := by
  unfold capacities
  exact List.filterMap_append _ _ _

theorem chunk_steps_concat {cs : List Nat} {c : Nat} (h : chunk_steps cs)
    (hl : cs.getLast? = some c) : chunk_steps (cs ++ [c + NHR_GZ_CHUNK_SIZE]) := by
  unfold chunk_steps at h ⊢
  rw [List.chain'_append]
  refine ⟨h, List.chain'_singleton _, ?_⟩
  intro x hx y hy
  rw [hl] at hx
  simp only [Option.mem_def, Option.some.injEq, List.head?_cons] at hx hy
  rw [← hx, ← hy]

theorem growinv_grow {σ : Type} (L : Locals σ) (g : GrowInv L) : GrowInv (compress_grow L) := by
  obtain ⟨hc, hl⟩ := g
  have ht : capacities (compress_grow L).trace
      = capacities L.trace ++ [L.out_size + NHR_GZ_CHUNK_SIZE] := by
    show capacities (L.trace ++ _) = _
    rw [capacities_append]
    rfl
  refine ⟨?_, ?_⟩
  · rw [ht]; exact chunk_steps_concat hc hl
  · rw [ht, List.getLast?_append]
    rfl

theorem growinv_step {σ : Type} {H : Host} (L : Locals σ) (r : Step σ) (mem : List Nat) (ev : Event)
    (hev : ev.alloc = none) (g : GrowInv L) : GrowInv (after_step H L r mem ev) := by
  have ht : capacities (after_step H L r mem ev).trace = capacities L.trace := by
    show capacities (L.trace ++ [ev]) = _
    rw [capacities_append]
    simp [capacities, hev]
  exact ⟨by rw [ht]; exact g.1, by rw [ht]; exact g.2⟩

theorem footer_events {σ : Type} (H : Host) (E : Engine σ) (buff : List Nat)
    (buff_size writed : Nat) (src : List Nat) (n : Nat) :
    capacities (nhr_gz_write_footer H E buff buff_size writed src n).2 = [] ∨
    capacities (nhr_gz_write_footer H E buff buff_size writed src n).2
      = [buff_size + NHR_GZ_FOOTER_SIZE] := by
  unfold nhr_gz_write_footer
  simp only []
  split
  · right; rfl
  · left; rfl

/-- The ways a call of `nhr_gz_compress` goes: it returns at once without an
init call, it returns after an init call that failed, or it enters the first
loop from the start state of its method. -/
theorem compress_entry {σ : Type} (H : Host) (E : Engine σ) (now fuel : Nat)
    (buff : Option (List Nat)) (n : Nat) (sp : Bool) (method : Nat) :
    nhr_gz_compress H E now fuel buff n sp method = Run.null [] ∨
    (∃ ev, ev.alloc = none ∧ ev.avail_in = none ∧ ev.output = [] ∧
      ((∃ l m w k s rc, ev = Event.deflateInit2 l m w k s rc ∧ rc ≠ Z_OK) ∨
        (∃ l rc, ev = Event.deflateInit l rc ∧ rc ≠ Z_OK)) ∧
      nhr_gz_compress H E now fuel buff n sp method = Run.null [ev]) ∨
    (∃ P, buff = some P ∧ n ≠ 0 ∧ method = H.NHR_GZ_METHOD_GZIP ∧
      (E.deflateInit2 Z_BEST_COMPRESSION Z_DEFLATED NHR_GZ_WINDOWS_BITS 8
        Z_DEFAULT_STRATEGY).1 = Z_OK ∧
      nhr_gz_compress H E now fuel buff n sp method
        = compress_feed H E P n sp method fuel (start_gzip E now n)) ∨
    (∃ P, buff = some P ∧ n ≠ 0 ∧ method ≠ H.NHR_GZ_METHOD_GZIP ∧
      method = H.NHR_GZ_METHOD_DEFLATE ∧ (E.deflateInit Z_BEST_COMPRESSION).1 = Z_OK ∧
      nhr_gz_compress H E now fuel buff n sp method
        = compress_feed H E P n sp method fuel (start_deflate E n)) := by
  cases buff with
  | none => left; rfl
  | some P =>
    by_cases hn : n = 0
    · left; rw [hn]; exact compress_null_size H E now fuel sp method P
    · by_cases hg : method = H.NHR_GZ_METHOD_GZIP
      · subst hg
        rw [compress_gzip_eq H E now fuel P n sp hn]
        by_cases hok : (E.deflateInit2 Z_BEST_COMPRESSION Z_DEFLATED NHR_GZ_WINDOWS_BITS 8
            Z_DEFAULT_STRATEGY).1 = Z_OK
        · right; right; left
          exact ⟨P, rfl, hn, rfl, hok, by rw [if_neg (fun h => h hok)]⟩
        · right; left
          exact ⟨Event.deflateInit2 Z_BEST_COMPRESSION Z_DEFLATED NHR_GZ_WINDOWS_BITS 8
            Z_DEFAULT_STRATEGY (E.deflateInit2 Z_BEST_COMPRESSION Z_DEFLATED NHR_GZ_WINDOWS_BITS 8
            Z_DEFAULT_STRATEGY).1, rfl, rfl, rfl, Or.inl ⟨_, _, _, _, _, _, rfl, hok⟩,
            by rw [if_pos hok]⟩
      · by_cases hd : method = H.NHR_GZ_METHOD_DEFLATE
        · subst hd
          rw [compress_deflate_eq H E now fuel P n sp hn]
          by_cases hok : (E.deflateInit Z_BEST_COMPRESSION).1 = Z_OK
          · right; right; right
            exact ⟨P, rfl, hn, hg, rfl, hok, by rw [if_neg (fun h => h hok)]⟩
          · right; left
            exact ⟨Event.deflateInit Z_BEST_COMPRESSION (E.deflateInit Z_BEST_COMPRESSION).1,
              rfl, rfl, rfl, Or.inr ⟨_, _, rfl, hok⟩, by rw [if_pos hok]⟩
        · left; exact compress_unsupported H E now fuel sp method hg hd P n

/-- The ways a call of `nhr_gz_decompress` goes: it returns at once without an
init call, the sniffer reads outside the block, it returns after an init call
that failed, or it enters the loop from the start state. -/
theorem decompress_entry {σ : Type} (H : Host) (E : Engine σ) (fuel : Nat)
    (buff : Option (List Nat)) (n : Nat) (sp : Bool) (method : Nat) :
    nhr_gz_decompress H E fuel buff n sp method = Run.null [] ∨
    nhr_gz_decompress H E fuel buff n sp method = Run.crash [] ∨
    (∃ ev, ev.alloc = none ∧ ev.avail_in = none ∧ ev.output = [] ∧
      ((∃ w rc, ev = Event.inflateInit2 w rc ∧ rc ≠ Z_OK) ∨
        (∃ rc, ev = Event.inflateInit rc ∧ rc ≠ Z_OK)) ∧
      nhr_gz_decompress H E fuel buff n sp method = Run.null [ev]) ∨
    (∃ P ni ai res ev, buff = some P ∧ n ≠ 0 ∧ res.1 = Z_OK ∧
      (ev = Event.inflateInit2 NHR_GZ_WINDOWS_BITS res.1 ∨ ev = Event.inflateInit res.1) ∧
      nhr_gz_decompress H E fuel buff n sp method
        = decompress_loop H E P sp fuel (start_inflate ni ai res ev)) := by
  have hrun : ∀ (P : List Nat) (ni ai : Nat) (res : Int × σ) (ev : Event), n ≠ 0 →
      buff = some P →
      ((∃ w, ev = Event.inflateInit2 w res.1 ∧ w = NHR_GZ_WINDOWS_BITS) ∨
        ev = Event.inflateInit res.1) →
      nhr_gz_decompress H E fuel buff n sp method = decompress_run H E P sp fuel ni ai res ev →
      (∃ ev, ev.alloc = none ∧ ev.avail_in = none ∧ ev.output = [] ∧
        ((∃ w rc, ev = Event.inflateInit2 w rc ∧ rc ≠ Z_OK) ∨
          (∃ rc, ev = Event.inflateInit rc ∧ rc ≠ Z_OK)) ∧
        nhr_gz_decompress H E fuel buff n sp method = Run.null [ev]) ∨
      (∃ P ni ai res ev, buff = some P ∧ n ≠ 0 ∧ res.1 = Z_OK ∧
        (ev = Event.inflateInit2 NHR_GZ_WINDOWS_BITS res.1 ∨ ev = Event.inflateInit res.1) ∧
        nhr_gz_decompress H E fuel buff n sp method
          = decompress_loop H E P sp fuel (start_inflate ni ai res ev)) := by
    intro P ni ai res ev hn hb hev heq
    by_cases hok : res.1 = Z_OK
    · right
      refine ⟨P, ni, ai, res, ev, hb, hn, hok, ?_, ?_⟩
      · rcases hev with ⟨w, h1, h2⟩ | h1
        · left; rw [h1, h2]
        · right; exact h1
      · rw [heq]; unfold decompress_run; rw [if_neg (fun h => h hok)]
    · left
      refine ⟨ev, ?_, ?_, ?_, ?_, ?_⟩
      · rcases hev with ⟨w, h1, -⟩ | h1 <;> rw [h1] <;> rfl
      · rcases hev with ⟨w, h1, -⟩ | h1 <;> rw [h1] <;> rfl
      · rcases hev with ⟨w, h1, -⟩ | h1 <;> rw [h1] <;> rfl
      · rcases hev with ⟨w, h1, -⟩ | h1
        · left; exact ⟨w, _, h1, hok⟩
        · right; exact ⟨_, h1, hok⟩
      · rw [heq]; unfold decompress_run; rw [if_pos hok]
  cases buff with
  | none => left; rfl
  | some P =>
    by_cases hn : n = 0
    · left; rw [hn]; exact decompress_null_size H E fuel sp method P
    · by_cases hg : method = H.NHR_GZ_METHOD_GZIP
      · subst hg
        cases hs : nhr_gz_is_gzip_file P n with
        | none =>
          right; left
          simp only [nhr_gz_decompress, hn, if_false, if_true, hs]
        | some g =>
          by_cases h0 : g = 0
          · left
            simp only [nhr_gz_decompress, hn, if_false, if_true, hs, h0, ne_eq, not_true]
          · right; right
            refine hrun P NHR_GZ_HEADER_SIZE
              ((n % UINT_RANGE + UINT_RANGE - NHR_GZ_HEADER_SIZE - NHR_GZ_FOOTER_SIZE)
                % UINT_RANGE)
              (E.inflateInit2 NHR_GZ_WINDOWS_BITS)
              (Event.inflateInit2 NHR_GZ_WINDOWS_BITS (E.inflateInit2 NHR_GZ_WINDOWS_BITS).1)
              hn rfl (Or.inl ⟨_, rfl, rfl⟩) ?_
            simp only [nhr_gz_decompress, hn, if_false, if_true, hs, h0, ne_eq, not_false_eq_true]
      · by_cases hd : method = H.NHR_GZ_METHOD_DEFLATE
        · subst hd
          right; right
          exact hrun P _ _ E.inflateInit _ hn rfl (Or.inr rfl)
            (decompress_deflate_eq H E fuel P n sp hn)
        · left; exact decompress_unsupported H E fuel sp method hg hd P n

theorem growinv_account {σ : Type} (L : Locals σ) (a : Int) (g : GrowInv L) :
    GrowInv (decompress_account L a) := by
  unfold decompress_account
  simp only []
  split
  · exact g
  · obtain ⟨hc, hl⟩ := g
    have ht : capacities (L.trace ++ [Event.malloc
        (nhr_gz_extend L.out_buff L.out_size NHR_GZ_CHUNK_SIZE).2, Event.free])
        = capacities L.trace ++ [L.out_size + NHR_GZ_CHUNK_SIZE] := by
      rw [capacities_append]
      rfl
    refine ⟨?_, ?_⟩
    · show chunk_steps (capacities (L.trace ++ _))
      rw [ht]; exact chunk_steps_concat hc hl
    · show (capacities (L.trace ++ _)).getLast? = _
      rw [ht, List.getLast?_append]
      rfl

theorem growinv_round {σ : Type} (H : Host) (E : Engine σ) (inp : List Nat) (L : Locals σ)
    (mem : List Nat) (g : GrowInv L) : GrowInv (round_next H E inp L mem) :=
  growinv_account _ _ (growinv_step (point_out L) _ mem _ rfl g)

theorem capacities_tail (tr : List Event) (evs : List Event)
    (h : ∀ e ∈ evs, e.alloc = none) : capacities (tr ++ evs) = capacities tr := by
  rw [capacities_append]
  have : capacities evs = [] := by
    unfold capacities
    rw [List.filterMap_eq_nil_iff]
    exact h
  rw [this, List.append_nil]

/-- The capacities over a run of the compress loops: chunk steps, then at most
one step of 8 bytes made by the footer writer (gzip method only). -/
theorem compress_feed_growth {σ : Type} (H : Host) (E : Engine σ) (inp : List Nat) (n : Nat)
    (sp : Bool) (method : Nat) (fuel : Nat) (L : Locals σ) (g : GrowInv L) :
    ∃ cs fs, capacities (compress_feed H E inp n sp method fuel L).trace = cs ++ fs ∧
      chunk_steps cs ∧
      (fs = [] ∨ (method = H.NHR_GZ_METHOD_GZIP ∧
        ∃ c, cs.getLast? = some c ∧ fs = [c + NHR_GZ_FOOTER_SIZE])) := by
  have hends := compress_feed_ends H E inp n sp method GrowInv
    (fun L1 g1 _ => growinv_grow L1 g1)
    (fun L1 flush mem g1 _ _ => growinv_step L1 _ mem _ rfl g1) fuel L g
  rcases hends with ⟨L1, g1, hR⟩ | ⟨L1, g1, hR⟩ | ⟨L1, fl, g1, -, -, hR⟩ | ⟨L1, g1, hR⟩
  · rw [hR]
    unfold compress_tail
    by_cases hg : method = H.NHR_GZ_METHOD_GZIP
    · simp only [hg, if_true]
      have hf := footer_events H E L1.out_buff L1.out_size
        (L1.zip.total_out + NHR_GZ_HEADER_SIZE) inp n
      have hfs : capacities (nhr_gz_write_footer H E L1.out_buff L1.out_size
            (L1.zip.total_out + NHR_GZ_HEADER_SIZE) inp n).2 = [] ∨
          (True ∧
            ∃ c, (capacities L1.trace).getLast? = some c ∧
              capacities (nhr_gz_write_footer H E L1.out_buff L1.out_size
                (L1.zip.total_out + NHR_GZ_HEADER_SIZE) inp n).2
                = [c + NHR_GZ_FOOTER_SIZE]) := by
        rcases hf with h | h
        · exact Or.inl h
        · exact Or.inr ⟨trivial, _, g1.2, h⟩
      cases (nhr_gz_write_footer H E L1.out_buff L1.out_size
          (L1.zip.total_out + NHR_GZ_HEADER_SIZE) inp n).1 with
      | none =>
        exact ⟨_, _, capacities_append _ _, g1.1, hfs⟩
      | some bf =>
        refine ⟨_, _, ?_, g1.1, hfs⟩
        show capacities (L1.trace ++ _ ++ [Event.deflateEnd]) = _
        rw [capacities_tail _ [Event.deflateEnd] (by simp [Event.alloc]), capacities_append]
    · simp only [hg, if_false]
      refine ⟨_, [], ?_, g1.1, Or.inl rfl⟩
      show capacities (L1.trace ++ [Event.deflateEnd]) = _
      rw [capacities_tail _ _ (by simp [Event.alloc]), List.append_nil]
  · rw [hR]
    exact ⟨_, [], (List.append_nil _).symm, g1.1, Or.inl rfl⟩
  · rw [hR]
    refine ⟨_, [], ?_, g1.1, Or.inl rfl⟩
    show capacities (L1.trace ++ [_]) = _
    rw [capacities_tail _ _ (by simp [deflate_event, Event.alloc]), List.append_nil]
  · rw [hR]
    refine ⟨_, [], ?_, g1.1, Or.inl rfl⟩
    show capacities (L1.trace ++ [Event.deflateEnd, Event.free]) = _
    rw [capacities_tail _ _ (by simp [Event.alloc]), List.append_nil]

/-- The capacities over a run of the decompress loop go up in chunks. -/
theorem decompress_loop_growth {σ : Type} (H : Host) (E : Engine σ) (inp : List Nat) (sp : Bool)
    (fuel : Nat) (L : Locals σ) (g : GrowInv L) :
    chunk_steps (capacities (decompress_loop H E inp sp fuel L).trace) := by
  have hends := decompress_loop_ends H E inp sp GrowInv
    (fun L1 mem g1 _ _ _ => growinv_round H E inp L1 mem g1) fuel L g
  rcases hends with ⟨L1, g1, hR⟩ | ⟨L1, g1, -, hR⟩ | ⟨L1, mem, g1, -, -, hR⟩ |
    ⟨L1, mem, g1, -, -, -, hR⟩ | ⟨L1, mem, g1, -, -, -, -, g2, hR⟩
  · rw [hR]; exact g1.1
  · rw [hR]
    show chunk_steps (capacities (L1.trace ++ [_]))
    rw [capacities_tail _ _ (by simp [round_event_eq, Event.alloc])]
    exact g1.1
  · rw [hR]
    show chunk_steps (capacities (L1.trace ++ _))
    rw [capacities_tail _ _ (by simp [round_event_eq, Event.alloc])]
    exact g1.1
  · rw [hR]
    show chunk_steps (capacities (L1.trace ++ _))
    rw [capacities_tail _ _ (by simp [round_event_eq, Event.alloc])]
    exact g1.1
  · rw [hR]
    show chunk_steps (capacities ((round_next H E inp L1 mem).trace ++ [Event.inflateEnd]))
    rw [capacities_tail _ _ (by simp [Event.alloc])]
    exact g2.1

theorem chunk_steps_nil : chunk_steps [] := List.chain'_nil

/-- C12 (amended). Over every call of `nhr_gz_compress` the capacities of the
output buffer are a sequence in which each is the one before plus 512, followed
by at most one more capacity, the last plus 8, which only the gzip method
makes (the footer writer); over every call of `nhr_gz_decompress` each capacity
is the one before plus 512.  So the capacities never go down. -/
theorem growth_steps {σ : Type} (H : Host) (E : Engine σ) (now fuel : Nat)
    (buff : Option (List Nat)) (n : Nat) (sp : Bool) (method : Nat) :
    (∃ cs fs, capacities (nhr_gz_compress H E now fuel buff n sp method).trace = cs ++ fs ∧
      chunk_steps cs ∧
      (fs = [] ∨ (method = H.NHR_GZ_METHOD_GZIP ∧
        ∃ c, cs.getLast? = some c ∧ fs = [c + NHR_GZ_FOOTER_SIZE]))) ∧
    chunk_steps (capacities (nhr_gz_decompress H E fuel buff n sp method).trace) := by
  constructor
  · rcases compress_entry H E now fuel buff n sp method with h | ⟨ev, ha, -, -, -, h⟩ |
      ⟨P, -, -, -, -, h⟩ | ⟨P, -, -, -, -, -, h⟩
    · rw [h]; exact ⟨[], [], rfl, chunk_steps_nil, Or.inl rfl⟩
    · rw [h]
      refine ⟨[], [], ?_, chunk_steps_nil, Or.inl rfl⟩
      show capacities ([] ++ [ev]) = _
      rw [capacities_tail _ _ (by simpa using ha)]
      rfl
    · rw [h]
      exact compress_feed_growth H E P n sp method fuel _
        ⟨List.chain'_singleton _, rfl⟩
    · rw [h]
      exact compress_feed_growth H E P n sp method fuel _
        ⟨List.chain'_singleton _, rfl⟩
  · rcases decompress_entry H E fuel buff n sp method with h | h | ⟨ev, ha, -, -, -, h⟩ |
      ⟨P, ni, ai, res, ev, -, -, -, hev, h⟩
    · rw [h]; exact chunk_steps_nil
    · rw [h]; exact chunk_steps_nil
    · rw [h]
      show chunk_steps (capacities ([] ++ [ev]))
      rw [capacities_tail _ _ (by simpa using ha)]
      exact chunk_steps_nil
    · rw [h]
      refine decompress_loop_growth H E P sp fuel _ ⟨?_, ?_⟩
      · rcases hev with h1 | h1 <;> rw [h1] <;> exact List.chain'_singleton _
      · rcases hev with h1 | h1 <;> rw [h1] <;> rfl

/-- C12 as stated fails: with an engine that emits 506 bytes for a 1-byte
payload, `nhr_gz_compress` with the gzip method on a 32-bit host allocates 522
bytes and then, in the footer writer, 530 bytes: a growth of 8, not of 512. -/
theorem footer_grows_by_eight :
    capacities (nhr_gz_compress hostILP32
        (scriptEngine Z_OK [⟨Z_OK, 1, List.replicate 506 0⟩, ⟨Z_STREAM_END, 0, []⟩])
        0 3 (some [0]) 1 true 2).trace = [522, 530] ∧
    ¬ chunk_steps [522, 530] := by
  constructor
  · decide
  · unfold chunk_steps
    simp [NHR_GZ_CHUNK_SIZE]

/-! ## The output window of the compress loops -/

theorem compress_finish_ends_pos {σ : Type} (H : Host) (E : Engine σ) (inp : List Nat) (n : Nat)
    (sp : Bool) (method : Nat) (I : Locals σ → Prop)
    (hgrow : ∀ L, I L → L.zip.avail_out = 0 → I (compress_grow L))
    (hstep : ∀ L flush mem, I L → L.zip.avail_out ≠ 0 →
      store L.out_buff L.zip.next_out (deflate_call E inp flush L).produced = some mem →
      I (after_step H L (deflate_call E inp flush L) mem
          (deflate_event flush L (deflate_call E inp flush L)))) :
    ∀ fuel L, I L → CompressEnds H E inp n sp method I (compress_finish H E inp n sp method fuel L) := by
  intro fuel
  induction fuel with
  | zero => intro L hL; exact Or.inr (Or.inl ⟨L, hL, rfl⟩)
  | succ fuel ih =>
    intro L hL
    have hL1 : I (maybe_grow L) ∧ (maybe_grow L).zip.avail_out ≠ 0 := by
      unfold maybe_grow
      by_cases h0 : L.zip.avail_out = 0
      · rw [if_pos h0]; exact ⟨hgrow L hL h0, by simp [compress_grow, NHR_GZ_CHUNK_SIZE]⟩
      · rw [if_neg h0]; exact ⟨hL, h0⟩
    unfold compress_finish
    simp only
    cases hst : store (maybe_grow L).out_buff (maybe_grow L).zip.next_out
        (deflate_call E inp Z_FINISH (maybe_grow L)).produced with
    | none =>
      exact Or.inr (Or.inr (Or.inl ⟨maybe_grow L, Z_FINISH, hL1.1, Or.inr rfl, hst, rfl⟩))
    | some mem =>
      have hL2 := hstep (maybe_grow L) Z_FINISH mem hL1.1 hL1.2 hst
      simp only
      by_cases hok : (deflate_call E inp Z_FINISH (maybe_grow L)).code = Z_OK
      · rw [if_pos hok]; exact ih _ hL2
      · rw [if_neg hok]
        by_cases hend : (deflate_call E inp Z_FINISH (maybe_grow L)).code ≠ Z_STREAM_END
        · rw [if_pos hend]; exact Or.inr (Or.inr (Or.inr ⟨_, hL2, rfl⟩))
        · rw [if_neg hend]; exact Or.inl ⟨_, hL2, rfl⟩

theorem compress_feed_ends_pos {σ : Type} (H : Host) (E : Engine σ) (inp : List Nat) (n : Nat)
    (sp : Bool) (method : Nat) (I : Locals σ → Prop)
    (hgrow : ∀ L, I L → L.zip.avail_out = 0 → I (compress_grow L))
    (hstep : ∀ L flush mem, I L → L.zip.avail_out ≠ 0 →
      store L.out_buff L.zip.next_out (deflate_call E inp flush L).produced = some mem →
      I (after_step H L (deflate_call E inp flush L) mem
          (deflate_event flush L (deflate_call E inp flush L)))) :
    ∀ fuel L, I L → L.zip.avail_out ≠ 0 →
      CompressEnds H E inp n sp method I (compress_feed H E inp n sp method fuel L) := by
  intro fuel
  induction fuel with
  | zero => intro L hL _; exact Or.inr (Or.inl ⟨L, hL, rfl⟩)
  | succ fuel ih =>
    intro L hL hpos
    unfold compress_feed
    by_cases hin : L.zip.avail_in = 0
    · rw [if_pos hin]; exact compress_finish_ends_pos H E inp n sp method I hgrow hstep _ L hL
    · rw [if_neg hin]
      simp only
      cases hst : store L.out_buff L.zip.next_out (deflate_call E inp Z_NO_FLUSH L).produced with
      | none => exact Or.inr (Or.inr (Or.inl ⟨L, Z_NO_FLUSH, hL, Or.inl rfl, hst, rfl⟩))
      | some mem =>
        have hL2 := hstep L Z_NO_FLUSH mem hL hpos hst
        simp only
        by_cases hok : (deflate_call E inp Z_NO_FLUSH L).code ≠ Z_OK
        · rw [if_pos hok]; exact Or.inr (Or.inr (Or.inr ⟨_, hL2, rfl⟩))
        · rw [if_neg hok]
          unfold maybe_grow
          split
          · exact ih _ (hgrow _ hL2 (by assumption)) (by simp [compress_grow, NHR_GZ_CHUNK_SIZE])
          · exact ih _ hL2 (by assumption)

theorem windows_append (a b : List Event) : windows (a ++ b) = windows a ++ windows b := by
  unfold windows
  exact List.filterMap_append _ _ _

theorem winv_grow {σ : Type} {H : Host} {h : Nat} {hdr : List Nat} (L : Locals σ) (c : CInv H h hdr L)
    (w : WInv L) (h0 : L.zip.avail_out = 0) : WInv (compress_grow L) := by
  have ht : windows (compress_grow L).trace = windows L.trace := by
    show windows (L.trace ++ _) = _
    rw [windows_append]
    exact List.append_nil _
  have hp : pending (compress_grow L) = pending L := by
    have h1 := c.win
    have h2 := c.wr
    simp only [pending, compress_grow, h0, if_true, extend_snd, NHR_GZ_CHUNK_SIZE] at h1 h2 ⊢
    simp only [Prod.mk.injEq]
    refine ⟨by omega, ?_, ?_⟩
    · norm_num
    · norm_num
  exact ⟨by rw [ht]; exact w.ins, by rw [ht]; exact w.chain, by rw [ht, hp]; exact w.last⟩

theorem winv_step {σ : Type} {H : Host} (E : Engine σ) (inp : List Nat) {h : Nat} {hdr : List Nat}
    (L : Locals σ) (flush : Int) (mem : List Nat) (c : CInv H h hdr L) (w : WInv L)
    (hpos : L.zip.avail_out ≠ 0) :
    WInv (after_step H L (deflate_call E inp flush L) mem
      (deflate_event flush L (deflate_call E inp flush L))) := by
  have hprod : (deflate_call E inp flush L).produced.length ≤ L.zip.avail_out :=
    E.deflate_produced _ _ _ _
  have ht : windows (after_step H L (deflate_call E inp flush L) mem
        (deflate_event flush L (deflate_call E inp flush L))).trace
      = windows L.trace ++ [⟨L.zip.next_out, L.zip.avail_out, L.out_buff.length,
          (deflate_call E inp flush L).produced.length⟩] := by
    show windows (L.trace ++ [_]) = _
    rw [windows_append]
    rfl
  have hcur : pending L = (L.zip.next_out, L.zip.avail_out, L.out_buff.length) := by
    simp only [pending, if_neg hpos, c.len]
  refine ⟨?_, ?_, ?_⟩
  · rw [ht]
    intro x hx
    rcases List.mem_append.mp hx with hx | hx
    · exact w.ins x hx
    · rw [List.mem_singleton] at hx
      rw [hx]
      have h1 := c.win
      have h2 := c.len
      refine ⟨Nat.pos_of_ne_zero hpos, ?_, ?_⟩
      · show L.zip.next_out < L.out_buff.length
        omega
      · show L.zip.next_out + L.zip.avail_out ≤ L.out_buff.length
        omega
  · rw [ht, List.chain'_append]
    refine ⟨w.chain, List.chain'_singleton _, ?_⟩
    intro x hx y hy
    simp only [Option.mem_def, List.head?_cons, Option.some.injEq] at hx hy
    rw [← hy]
    show _ = x.next
    rw [w.last x hx, hcur]
  · rw [ht, List.getLast?_append]
    intro x hx
    simp only [List.getLast?_singleton, Option.or_some, Option.some.injEq] at hx
    rw [← hx]
    simp only [Win.next, pending, after_step, zstep, c.len]
    simp only [Prod.mk.injEq, true_and]
    by_cases hfull : (deflate_call E inp flush L).produced.length = L.zip.avail_out
    · rw [if_pos hfull, if_pos hfull, if_pos (by omega), if_pos (by omega)]
      exact ⟨rfl, rfl⟩
    · rw [if_neg hfull, if_neg hfull, if_neg (by omega), if_neg (by omega)]
      exact ⟨rfl, rfl⟩

theorem windows_tail (tr : List Event) (evs : List Event)
    (h : ∀ e ∈ evs, e.win = none) : windows (tr ++ evs) = windows tr := by
  rw [windows_append]
  have : windows evs = [] := by
    unfold windows
    rw [List.filterMap_eq_nil_iff]
    exact h
  rw [this, List.append_nil]

theorem footer_no_windows {σ : Type} (H : Host) (E : Engine σ) (buff : List Nat)
    (buff_size writed : Nat) (src : List Nat) (n : Nat) :
    ∀ e ∈ (nhr_gz_write_footer H E buff buff_size writed src n).2, e.win = none := by
  unfold nhr_gz_write_footer
  simp only []
  split
  · intro e he
    simp only [List.mem_cons, List.mem_singleton, List.not_mem_nil, or_false] at he
    rcases he with rfl | rfl <;> rfl
  · intro e he
    exact absurd he (List.not_mem_nil e)

theorem sizeof_uLong_ge (H : Host) : 4 ≤ H.abi.sizeof_uLong := by
  cases h : H.abi <;> simp [DataModel.sizeof_uLong]

theorem tail_windows {σ : Type} (H : Host) (E : Engine σ) (inp : List Nat) (n : Nat) (sp : Bool)
    (method : Nat) (L : Locals σ) :
    windows (compress_tail H E inp n sp method L).trace = windows L.trace := by
  unfold compress_tail
  by_cases hg : method = H.NHR_GZ_METHOD_GZIP
  · simp only [hg, if_true]
    have hf := footer_no_windows H E L.out_buff L.out_size
      (L.zip.total_out + NHR_GZ_HEADER_SIZE) inp n
    cases (nhr_gz_write_footer H E L.out_buff L.out_size
        (L.zip.total_out + NHR_GZ_HEADER_SIZE) inp n).1 with
    | none => exact windows_tail _ _ hf
    | some bf =>
      show windows (L.trace ++ _ ++ [Event.deflateEnd]) = _
      rw [windows_tail _ [Event.deflateEnd] (by simp [Event.win]), windows_tail _ _ hf]
  · simp only [hg, if_false]
    exact windows_tail _ _ (by simp [Event.win])

theorem tail_fits {σ : Type} (H : Host) (E : Engine σ) (inp : List Nat) (n : Nat) (sp : Bool)
    (method : Nat) (hdr : List Nat) (L : Locals σ) (c : CInv H (header_size H method) hdr L)
    (buf : List Nat) (len : Nat)
    (hret : (compress_tail H E inp n sp method L).ret = some buf)
    (hsz : (compress_tail H E inp n sp method L).size_out = some len) :
    len ≤ buf.length := by
  have hlen := c.len; have hwin := c.win; have hpos := c.pos; have hav := c.avail
  have htl := c.total_le
  unfold compress_tail at hret hsz
  by_cases hg : method = H.NHR_GZ_METHOD_GZIP
  · simp only [header_size, hg, if_true] at hret hsz hpos
    rw [← hlen] at hret hsz
    cases hf : (nhr_gz_write_footer H E L.out_buff L.out_buff.length
        (L.zip.total_out + NHR_GZ_HEADER_SIZE) inp n).1 with
    | none => rw [hf] at hret; simp [Run.crash] at hret
    | some b =>
      rw [hf] at hret hsz
      simp only [Run.ok, Option.some.injEq] at hret
      obtain ⟨-, hle⟩ := footer_bytes H E L.out_buff _ inp n b hf
      have h4 := sizeof_uLong_ge H
      subst hret
      cases sp with
      | false => simp [Run.ok] at hsz
      | true =>
        simp only [Run.ok, if_true, Option.some.injEq] at hsz
        simp only [NHR_GZ_FOOTER_SIZE] at hsz
        omega
  · simp only [header_size, hg, if_false] at hret hsz hpos
    simp only [Run.ok, Option.some.injEq] at hret
    subst hret
    cases sp with
    | false => simp [Run.ok] at hsz
    | true =>
      simp only [Run.ok, if_true, Option.some.injEq] at hsz
      omega

/-- The windows over a run of the compress loops from locals that satisfy the
layout and the window invariant. -/
theorem compress_feed_windows {σ : Type} (H : Host) (E : Engine σ) (inp : List Nat) (n : Nat)
    (sp : Bool) (method : Nat) (hdr : List Nat) (fuel : Nat) (L : Locals σ)
    (c : CInv H (header_size H method) hdr L) (w : WInv L) (hpos : L.zip.avail_out ≠ 0) :
    (∀ x ∈ windows (compress_feed H E inp n sp method fuel L).trace, x.inside) ∧
    List.Chain' Win.follows (windows (compress_feed H E inp n sp method fuel L).trace) ∧
    (∀ buf len, (compress_feed H E inp n sp method fuel L).ret = some buf →
      (compress_feed H E inp n sp method fuel L).size_out = some len → len ≤ buf.length) := by
  have hends := compress_feed_ends_pos H E inp n sp method
    (fun L1 => CInv H (header_size H method) hdr L1 ∧ WInv L1)
    (fun L1 g h0 => ⟨cinv_grow L1 g.1 h0, winv_grow L1 g.1 g.2 h0⟩)
    (fun L1 flush mem g hp hst =>
      ⟨cinv_step E inp L1 flush mem g.1 hst, winv_step E inp L1 flush mem g.1 g.2 hp⟩)
    fuel L ⟨c, w⟩ hpos
  rcases hends with ⟨L1, ⟨c1, w1⟩, hR⟩ | ⟨L1, ⟨c1, w1⟩, hR⟩ | ⟨L1, fl, ⟨c1, w1⟩, -, hst, hR⟩ |
    ⟨L1, ⟨c1, w1⟩, hR⟩
  · rw [hR, tail_windows]
    exact ⟨w1.ins, w1.chain, fun buf len => tail_fits H E inp n sp method hdr L1 c1 buf len⟩
  · rw [hR]
    exact ⟨w1.ins, w1.chain, fun buf len h => by simp [Run.timeout] at h⟩
  · exact absurd hst (cinv_store E inp L1 fl c1)
  · rw [hR]
    have ht : windows (Run.null (L1.trace ++ [Event.deflateEnd, Event.free])).trace
        = windows L1.trace := windows_tail _ _ (by simp [Event.win])
    rw [ht]
    exact ⟨w1.ins, w1.chain, fun buf len h => by simp [Run.null] at h⟩

theorem winv_start {σ : Type} (L : Locals σ) (h : windows L.trace = []) : WInv L :=
  ⟨by rw [h]; intro w hw; exact absurd hw (List.not_mem_nil w),
   by rw [h]; exact List.chain'_nil,
   by rw [h]; intro w hw; simp at hw⟩

/-- C13. Over every call of `nhr_gz_compress`, every `deflate` step of either
loop is given a non-empty output window that starts inside the output block and
ends inside it (`next_out + avail_out <= capacity`); the window of a step
starts at the end of the bytes written by the step before, and when that step
filled its window the block is 512 bytes larger and the new window is 512 bytes,
else the block is the same and the window is what was left; and the length
reported with a returned block is at most the size of the block. -/
theorem compress_windows {σ : Type} (H : Host) (E : Engine σ) (now fuel : Nat)
    (buff : Option (List Nat)) (n : Nat) (sp : Bool) (method : Nat) :
    (∀ x ∈ windows (nhr_gz_compress H E now fuel buff n sp method).trace, x.inside) ∧
    List.Chain' Win.follows (windows (nhr_gz_compress H E now fuel buff n sp method).trace) ∧
    (∀ buf len, (nhr_gz_compress H E now fuel buff n sp method).ret = some buf →
      (nhr_gz_compress H E now fuel buff n sp method).size_out = some len →
      len ≤ buf.length) := by
  have hnone : ∀ tr : List Event, windows tr = [] →
      (∀ x ∈ windows (Run.null tr).trace, x.inside) ∧
      List.Chain' Win.follows (windows (Run.null tr).trace) ∧
      (∀ buf len, (Run.null tr).ret = some buf → (Run.null tr).size_out = some len →
        len ≤ buf.length) := by
    intro tr h
    refine ⟨?_, ?_, fun buf len hb => by simp [Run.null] at hb⟩
    · show ∀ x ∈ windows tr, x.inside
      rw [h]; intro x hx; exact absurd hx (List.not_mem_nil x)
    · show List.Chain' Win.follows (windows tr)
      rw [h]; exact List.chain'_nil
  rcases compress_entry H E now fuel buff n sp method with h | ⟨ev, -, -, -, hev, h⟩ |
    ⟨P, -, -, hm, -, h⟩ | ⟨P, -, -, hg, hm, -, h⟩
  · rw [h]; exact hnone [] rfl
  · rw [h]
    apply hnone
    rcases hev with ⟨l, m, w, k, s, rc, h1, -⟩ | ⟨l, rc, h1, -⟩ <;> rw [h1] <;> rfl
  · rw [h]
    refine compress_feed_windows H E P n sp method (gz_header now) fuel _ ?_
      (winv_start _ rfl) (by simp [start_gzip, NHR_GZ_CHUNK_SIZE])
    rw [show header_size H method = 10 by rw [hm]; simp [header_size, NHR_GZ_HEADER_SIZE]]
    exact cinv_start_gzip E now n
  · rw [h]
    refine compress_feed_windows H E P n sp method [] fuel _ ?_
      (winv_start _ rfl) (by simp [start_deflate, NHR_GZ_CHUNK_SIZE])
    rw [show header_size H method = 0 by simp [header_size, hg]]
    exact cinv_start_deflate E n

/-- Witness of `compress_windows`: the store engine on a 20-byte payload, gzip
method, takes two steps, with the windows `(10, 512)` and `(31, 491)` of a
522-byte block. -/
theorem compress_windows_witness :
    windows (nhr_gz_compress hostILP32 storeEngine 0 5 (some fox) 20 true 2).trace
      = [⟨10, 512, 522, 21⟩, ⟨31, 491, 522, 0⟩] ∧
    ∀ x ∈ windows (nhr_gz_compress hostILP32 storeEngine 0 5 (some fox) 20 true 2).trace,
      x.inside :=
  ⟨by decide, (compress_windows hostILP32 storeEngine 0 5 (some fox) 20 true 2).1⟩

/-! ## The teardown of the engine -/

theorem torn_down_null (tr : List Event) (h0 : tr.countP Event.is_end = 0)
    (hi : tr.any Event.init_ok = false)
    (hm : tr.countP Event.is_malloc = tr.countP Event.is_free) :
    torn_down (Run.null tr) := by
  refine ⟨?_, ?_, ?_⟩
  · show tr.countP Event.is_end = if tr.any Event.init_ok then 1 else 0
    rw [h0, hi]; rfl
  · intro pre e post htr he
    have := List.countP_eq_zero.mp h0 e (by
      show e ∈ tr
      rw [show tr = pre ++ e :: post from htr]; simp)
    exact absurd he this
  · show tr.countP Event.is_malloc = tr.countP Event.is_free + 0
    rw [hm, Nat.add_zero]

theorem countP_skip (p : Event → Bool) (tr rest : List Event) (e : Event) (h : p e = false) :
    (tr ++ e :: rest).countP p = (tr ++ rest).countP p := by
  rw [List.countP_append, List.countP_append, List.countP_cons_of_neg _ _ (by simp [h])]

theorem torn_down_mk (tr rest : List Event) (e : Event) (ret : Option (List Nat))
    (sz : Option Nat) (he : e.is_end = true) (h0 : tr.countP Event.is_end = 0)
    (hi : tr.any Event.init_ok = true) (hfree : ∀ x ∈ rest, x = Event.free)
    (hm : (tr ++ rest).countP Event.is_malloc
      = (tr ++ rest).countP Event.is_free + (if ret.isSome then 1 else 0)) :
    torn_down ⟨Status.returned, ret, sz, tr ++ e :: rest⟩ := by
  have h2 : e.is_malloc = false := by
    cases e <;> first | rfl | exact absurd he (by simp [Event.is_end])
  have h3 : e.is_free = false := by
    cases e <;> first | rfl | exact absurd he (by simp [Event.is_end])
  have hrest : ∀ x ∈ rest, ¬ (x.is_end = true) := by
    intro x hx; rw [hfree x hx]; decide
  have htr : ∀ x ∈ tr, ¬ (x.is_end = true) := List.countP_eq_zero.mp h0
  refine ⟨?_, ?_, ?_⟩
  · show (tr ++ e :: rest).countP Event.is_end = if (tr ++ e :: rest).any Event.init_ok then 1 else 0
    rw [List.any_append, hi, Bool.true_or, if_pos rfl, List.countP_append, h0,
      List.countP_cons_of_pos _ _ he, List.countP_eq_zero.mpr hrest]
  · intro pre e2 post h he2
    obtain ⟨-, -, hp⟩ := split_unique (fun x => x.is_end = true) he2 htr hrest h
    rw [hp]; exact hfree
  · show (tr ++ e :: rest).countP Event.is_malloc
      = (tr ++ e :: rest).countP Event.is_free + (if ret.isSome then 1 else 0)
    rw [countP_skip _ tr rest e h2, countP_skip _ tr rest e h3]
    exact hm

theorem balance_free (tr : List Event)
    (hm : tr.countP Event.is_malloc = tr.countP Event.is_free + 1) :
    (tr ++ [Event.free]).countP Event.is_malloc = (tr ++ [Event.free]).countP Event.is_free := by
  rw [List.countP_append, List.countP_append, hm]
  rfl

theorem balance_step (tr : List Event) (e : Event) (h2 : e.is_malloc = false)
    (h3 : e.is_free = false)
    (hm : tr.countP Event.is_malloc = tr.countP Event.is_free + 1) :
    (tr ++ [e]).countP Event.is_malloc = (tr ++ [e]).countP Event.is_free + 1 := by
  rw [countP_skip _ tr [] e h2, countP_skip _ tr [] e h3, List.append_nil]
  exact hm

theorem tinv_grow {σ : Type} (L : Locals σ) (t : TInv L) : TInv (compress_grow L) := by
  obtain ⟨h0, hi, hm⟩ := t
  refine ⟨?_, ?_, ?_⟩
  · show (L.trace ++ _).countP Event.is_end = 0
    rw [List.countP_append, h0]; rfl
  · show (L.trace ++ _).any Event.init_ok = true
    rw [List.any_append, hi]; rfl
  · show (L.trace ++ _).countP Event.is_malloc = (L.trace ++ _).countP Event.is_free + 1
    rw [List.countP_append, List.countP_append, hm]
    simp [List.countP_cons, Event.is_malloc, Event.is_free]

theorem tinv_step {σ : Type} {H : Host} (L : Locals σ) (r : Step σ) (mem : List Nat) (ev : Event)
    (h1 : ev.is_end = false) (h2 : ev.is_malloc = false) (h3 : ev.is_free = false)
    (t : TInv L) : TInv (after_step H L r mem ev) := by
  obtain ⟨h0, hi, hm⟩ := t
  refine ⟨?_, ?_, ?_⟩
  · show (L.trace ++ [ev]).countP Event.is_end = 0
    rw [List.countP_append, h0]; simp [List.countP_cons, h1]
  · show (L.trace ++ [ev]).any Event.init_ok = true
    rw [List.any_append, hi]; rfl
  · show (L.trace ++ [ev]).countP Event.is_malloc = (L.trace ++ [ev]).countP Event.is_free + 1
    rw [List.countP_append, List.countP_append, hm]
    simp [List.countP_cons, h2, h3]

theorem tinv_account {σ : Type} (L : Locals σ) (a : Int) (t : TInv L) :
    TInv (decompress_account L a) := by
  unfold decompress_account
  simp only []
  split
  · exact t
  · obtain ⟨h0, hi, hm⟩ := t
    refine ⟨?_, ?_, ?_⟩
    · show (L.trace ++ _).countP Event.is_end = 0
      rw [List.countP_append, h0]; rfl
    · show (L.trace ++ _).any Event.init_ok = true
      rw [List.any_append, hi]; rfl
    · show (L.trace ++ _).countP Event.is_malloc = (L.trace ++ _).countP Event.is_free + 1
      rw [List.countP_append, List.countP_append, hm]
      simp [List.countP_cons, Event.is_malloc, Event.is_free]

theorem tinv_round {σ : Type} (H : Host) (E : Engine σ) (inp : List Nat) (L : Locals σ)
    (mem : List Nat) (t : TInv L) : TInv (round_next H E inp L mem) :=
  tinv_account _ _ (tinv_step (point_out L) _ mem _ rfl rfl rfl t)

theorem footer_events_shape {σ : Type} (H : Host) (E : Engine σ) (buff : List Nat)
    (buff_size writed : Nat) (src : List Nat) (n : Nat) :
    (nhr_gz_write_footer H E buff buff_size writed src n).2 = [] ∨
    ∃ k, (nhr_gz_write_footer H E buff buff_size writed src n).2
      = [Event.malloc k, Event.free] := by
  unfold nhr_gz_write_footer
  simp only []
  split
  · right; exact ⟨_, rfl⟩
  · left; rfl

theorem tinv_events {σ : Type} (L : Locals σ) (evs : List Event) (t : TInv L)
    (h : evs = [] ∨ ∃ k, evs = [Event.malloc k, Event.free]) :
    (L.trace ++ evs).countP Event.is_end = 0 ∧ (L.trace ++ evs).any Event.init_ok = true ∧
    (L.trace ++ evs).countP Event.is_malloc = (L.trace ++ evs).countP Event.is_free + 1 := by
  obtain ⟨h0, hi, hm⟩ := t
  rcases h with rfl | ⟨k, rfl⟩
  · rw [List.append_nil]; exact ⟨h0, hi, hm⟩
  · refine ⟨?_, ?_, ?_⟩
    · rw [List.countP_append, h0]; rfl
    · rw [List.any_append, hi]; rfl
    · rw [List.countP_append, List.countP_append, hm]
      simp [List.countP_cons, Event.is_malloc, Event.is_free]

theorem tail_teardown {σ : Type} (H : Host) (E : Engine σ) (inp : List Nat) (n : Nat)
    (sp : Bool) (method : Nat) (L : Locals σ) (t : TInv L)
    (hst : (compress_tail H E inp n sp method L).status = Status.returned) :
    torn_down (compress_tail H E inp n sp method L) := by
  unfold compress_tail at hst ⊢
  by_cases hg : method = H.NHR_GZ_METHOD_GZIP
  · simp only [hg, if_true] at hst ⊢
    obtain ⟨h0, hi, hm⟩ := tinv_events L _ t (footer_events_shape H E L.out_buff L.out_size
      (L.zip.total_out + NHR_GZ_HEADER_SIZE) inp n)
    cases hf : (nhr_gz_write_footer H E L.out_buff L.out_size
        (L.zip.total_out + NHR_GZ_HEADER_SIZE) inp n).1 with
    | none => rw [hf] at hst; exact absurd hst (by simp [Run.crash])
    | some b =>
      simp only []
      exact torn_down_mk _ [] Event.deflateEnd (some b) _ rfl h0 hi
        (fun x hx => absurd hx (List.not_mem_nil x)) (by rw [List.append_nil]; exact hm)
  · simp only [hg, if_false] at hst ⊢
    obtain ⟨h0, hi, hm⟩ := t
    exact torn_down_mk _ [] Event.deflateEnd (some L.out_buff) _ rfl h0 hi
      (fun x hx => absurd hx (List.not_mem_nil x)) (by rw [List.append_nil]; exact hm)

theorem compress_feed_teardown {σ : Type} (H : Host) (E : Engine σ) (inp : List Nat) (n : Nat)
    (sp : Bool) (method : Nat) (fuel : Nat) (L : Locals σ) (t : TInv L)
    (hst : (compress_feed H E inp n sp method fuel L).status = Status.returned) :
    torn_down (compress_feed H E inp n sp method fuel L) := by
  have hends := compress_feed_ends H E inp n sp method TInv
    (fun L1 t1 _ => tinv_grow L1 t1)
    (fun L1 flush mem t1 _ _ => tinv_step L1 _ mem _ rfl rfl rfl t1) fuel L t
  rcases hends with ⟨L1, t1, hR⟩ | ⟨L1, t1, hR⟩ | ⟨L1, fl, t1, -, -, hR⟩ | ⟨L1, t1, hR⟩
  · rw [hR] at hst ⊢
    exact tail_teardown H E inp n sp method L1 t1 hst
  · rw [hR] at hst; exact absurd hst (by simp [Run.timeout])
  · rw [hR] at hst; exact absurd hst (by simp [Run.crash])
  · rw [hR]
    obtain ⟨h0, hi, hm⟩ := t1
    exact torn_down_mk _ [Event.free] Event.deflateEnd none none rfl h0 hi
      (fun x hx => List.mem_singleton.mp hx) (balance_free _ hm)

theorem decompress_loop_teardown {σ : Type} (H : Host) (E : Engine σ) (inp : List Nat) (sp : Bool)
    (fuel : Nat) (L : Locals σ) (t : TInv L)
    (hst : (decompress_loop H E inp sp fuel L).status = Status.returned) :
    torn_down (decompress_loop H E inp sp fuel L) := by
  have hends := decompress_loop_ends H E inp sp TInv
    (fun L1 mem t1 _ _ _ => tinv_round H E inp L1 mem t1) fuel L t
  rcases hends with ⟨L1, t1, hR⟩ | ⟨L1, t1, -, hR⟩ | ⟨L1, mem, t1, -, -, hR⟩ |
    ⟨L1, mem, t1, -, -, -, hR⟩ | ⟨L1, mem, t1, -, -, -, -, t2, hR⟩
  · rw [hR] at hst; exact absurd hst (by simp [Run.timeout])
  · rw [hR] at hst; exact absurd hst (by simp [Run.crash])
  · rw [hR]
    obtain ⟨h0, hi, hm⟩ := t1
    have hshape : L1.trace ++ [round_event E inp L1, Event.free, Event.inflateEnd]
        = (L1.trace ++ [round_event E inp L1, Event.free]) ++ Event.inflateEnd :: [] := by
      simp
    rw [hshape]
    have hev : (round_event E inp L1).is_end = false ∧
        (round_event E inp L1).is_malloc = false ∧ (round_event E inp L1).is_free = false :=
      ⟨rfl, rfl, rfl⟩
    have hs := balance_step _ _ hev.2.1 hev.2.2 hm
    refine torn_down_mk _ [] Event.inflateEnd none none rfl ?_ ?_
      (fun x hx => absurd hx (List.not_mem_nil x)) ?_
    · rw [List.countP_append, h0]; rfl
    · rw [List.any_append, hi]; rfl
    · rw [List.append_nil]
      have := balance_free _ hs
      rw [List.append_assoc] at this
      exact this
  · rw [hR]
    obtain ⟨h0, hi, hm⟩ := t1
    have hshape : L1.trace ++ [round_event E inp L1, Event.inflateEnd, Event.free]
        = (L1.trace ++ [round_event E inp L1]) ++ Event.inflateEnd :: [Event.free] := by
      simp
    rw [hshape]
    have hs := balance_step _ (round_event E inp L1) rfl rfl hm
    refine torn_down_mk _ [Event.free] Event.inflateEnd none none rfl ?_ ?_
      (fun x hx => List.mem_singleton.mp hx) (balance_free _ hs)
    · rw [List.countP_append, h0]; rfl
    · rw [List.any_append, hi]; rfl
  · rw [hR]
    obtain ⟨h0, hi, hm⟩ := t2
    exact torn_down_mk _ [] Event.inflateEnd (some _) _ rfl h0 hi
      (fun x hx => absurd hx (List.not_mem_nil x)) (by rw [List.append_nil]; exact hm)

/-- C18. Every call of `nhr_gz_compress` and of `nhr_gz_decompress` that
returns has made the engine's end call (`deflateEnd`, `inflateEnd`) exactly
once when its init call succeeded, on the success path and on every failure
path, with nothing but `nhr_free` after it, and has not made it when no init
call was made or the init call failed; and every block it allocated is freed
but the one it returns, so that on a failure path no block is left. -/
theorem end_call_once {σ : Type} (H : Host) (E : Engine σ) (now fuel : Nat)
    (buff : Option (List Nat)) (n : Nat) (sp : Bool) (method : Nat) :
    ((nhr_gz_compress H E now fuel buff n sp method).status = Status.returned →
      torn_down (nhr_gz_compress H E now fuel buff n sp method)) ∧
    ((nhr_gz_decompress H E fuel buff n sp method).status = Status.returned →
      torn_down (nhr_gz_decompress H E fuel buff n sp method)) := by
  constructor
  · intro hst
    rcases compress_entry H E now fuel buff n sp method with h | ⟨ev, -, -, -, hev, h⟩ |
      ⟨P, -, -, -, hok, h⟩ | ⟨P, -, -, -, -, hok, h⟩
    · rw [h]; exact torn_down_null [] rfl rfl rfl
    · rw [h]
      rcases hev with ⟨l, m, w, k, s, rc, h1, hrc⟩ | ⟨l, rc, h1, hrc⟩
      · rw [h1]
        exact torn_down_null _ rfl (by simp [Event.init_ok, hrc]) rfl
      · rw [h1]
        exact torn_down_null _ rfl (by simp [Event.init_ok, hrc]) rfl
    · rw [h] at hst ⊢
      exact compress_feed_teardown H E P n sp method fuel _
        ⟨rfl, by simp [start_gzip, Event.init_ok, hok], rfl⟩ hst
    · rw [h] at hst ⊢
      exact compress_feed_teardown H E P n sp method fuel _
        ⟨rfl, by simp [start_deflate, Event.init_ok, hok], rfl⟩ hst
  · intro hst
    rcases decompress_entry H E fuel buff n sp method with h | h | ⟨ev, -, -, -, hev, h⟩ |
      ⟨P, ni, ai, res, ev, -, -, hok, hev, h⟩
    · rw [h]; exact torn_down_null [] rfl rfl rfl
    · rw [h] at hst; exact absurd hst (by simp [Run.crash])
    · rw [h]
      rcases hev with ⟨w, rc, h1, hrc⟩ | ⟨rc, h1, hrc⟩
      · rw [h1]
        exact torn_down_null _ rfl (by simp [Event.init_ok, hrc]) rfl
      · rw [h1]
        exact torn_down_null _ rfl (by simp [Event.init_ok, hrc]) rfl
    · rw [h] at hst ⊢
      refine decompress_loop_teardown H E P sp fuel _ ⟨?_, ?_, ?_⟩ hst
      · rcases hev with h1 | h1 <;> rw [h1] <;> rfl
      · rcases hev with h1 | h1 <;> rw [h1] <;> simp [start_inflate, Event.init_ok, hok]
      · rcases hev with h1 | h1 <;> rw [h1] <;> rfl

/-- Witness of `end_call_once`: the store engine on a 20-byte payload returns a block
after one `deflateEnd`; on a stream it rejects, `nhr_gz_decompress` returns no
block after one `inflateEnd`. -/
theorem end_call_once_witness :
    torn_down (nhr_gz_compress hostILP32 storeEngine 0 5 (some fox) 20 true 2) ∧
    (nhr_gz_compress hostILP32 storeEngine 0 5 (some fox) 20 true 2).trace.countP
      Event.is_end = 1 ∧
    torn_down (nhr_gz_decompress hostILP32 storeEngine 5 (some fox) 20 true 1) ∧
    (nhr_gz_decompress hostILP32 storeEngine 5 (some fox) 20 true 1).trace.countP
      Event.is_end = 1 ∧
    (nhr_gz_decompress hostILP32 storeEngine 5 (some fox) 20 true 1).ret = none :=
  ⟨(end_call_once hostILP32 storeEngine 0 5 (some fox) 20 true 2).1 (by decide), by decide,
   (end_call_once hostILP32 storeEngine 0 5 (some fox) 20 true 1).2 (by decide), by decide,
   by decide⟩

/-! ## The clock and the output of `nhr_gz_compress` -/

theorem rehead_length (q m : List Nat) (h : q.length ≤ m.length) :
    (rehead q m).length = m.length := by
  unfold rehead
  rw [List.length_append, List.length_drop]
  omega

theorem store_behind (p m x : List Nat) (k : Nat) :
    store (p ++ m) (p.length + k) x = (store m k x).map (fun r => p ++ r) := by
  unfold store
  by_cases h : k + x.length ≤ m.length
  · rw [if_pos h, if_pos (by rw [List.length_append]; omega)]
    simp only [Option.map_some', Option.some.injEq]
    rw [List.take_append, show p.length + k + x.length = p.length + (k + x.length) by omega,
      List.drop_append, List.append_assoc, List.append_assoc, List.append_assoc]
  · rw [if_neg h, if_neg (by rw [List.length_append]; omega)]
    rfl

theorem rehead_store (q m x : List Nat) (off : Nat) (h1 : q.length ≤ off)
    (h2 : q.length ≤ m.length) :
    store (rehead q m) off x = (store m off x).map (rehead q) := by
  obtain ⟨j, rfl⟩ : ∃ j, off = q.length + j := ⟨off - q.length, by omega⟩
  have hm : m = m.take q.length ++ m.drop q.length := (List.take_append_drop _ _).symm
  have hp : (m.take q.length).length = q.length := by
    rw [List.length_take]; omega
  have e1 : store (rehead q m) (q.length + j) x
      = (store (m.drop q.length) j x).map (fun r => q ++ r) := store_behind q _ x j
  have e2 : store m (q.length + j) x
      = (store (m.drop q.length) j x).map (fun r => m.take q.length ++ r) := by
    have := store_behind (m.take q.length) (m.drop q.length) x j
    rw [hp, List.take_append_drop] at this
    exact this
  rw [e1, e2, Option.map_map]
  congr 1
  funext r
  show q ++ r = q ++ (m.take q.length ++ r).drop q.length
  rw [List.drop_left' hp]

theorem rehead_extend (q m : List Nat) (inc : Nat) (h2 : q.length ≤ m.length) :
    (nhr_gz_extend (rehead q m) m.length inc).1
      = rehead q (nhr_gz_extend m m.length inc).1 := by
  have hl := rehead_length q m h2
  have := extend_fst (rehead q m) inc
  rw [hl] at this
  rw [this, extend_fst]
  unfold rehead
  rw [List.drop_append_of_le_length h2, List.append_assoc]

theorem re_grow {σ : Type} (q : List Nat) (L : Locals σ) (hlen : L.out_buff.length = L.out_size)
    (hq : q.length ≤ L.out_size) :
    compress_grow (L.re q) = (compress_grow L).re q := by
  have h := rehead_extend q L.out_buff NHR_GZ_CHUNK_SIZE (by omega)
  rw [hlen] at h
  simp only [compress_grow, Locals.re, extend_snd, h]

theorem re_maybe_grow {σ : Type} (q : List Nat) (L : Locals σ)
    (hlen : L.out_buff.length = L.out_size) (hq : q.length ≤ L.out_size) :
    maybe_grow (L.re q) = (maybe_grow L).re q := by
  unfold maybe_grow
  by_cases h0 : L.zip.avail_out = 0
  · rw [if_pos h0, if_pos (show (L.re q).zip.avail_out = 0 from h0)]
    exact re_grow q L hlen hq
  · rw [if_neg h0, if_neg (show ¬ (L.re q).zip.avail_out = 0 from h0)]

theorem re_footer {σ : Type} (H : Host) (E : Engine σ) (q buff : List Nat) (w : Nat)
    (src : List Nat) (n : Nat) (hq : q.length ≤ buff.length) (hw : q.length ≤ w) :
    nhr_gz_write_footer H E (rehead q buff) buff.length w src n
      = ((nhr_gz_write_footer H E buff buff.length w src n).1.map (rehead q),
         (nhr_gz_write_footer H E buff buff.length w src n).2) := by
  have hbind : ∀ (g x y : List Nat), q.length ≤ g.length →
      ((store (rehead q g) w x).bind fun b => store b (w + H.abi.sizeof_uLong) y)
        = ((store g w x).bind fun b => store b (w + H.abi.sizeof_uLong) y).map (rehead q) := by
    intro g x y hg
    rw [rehead_store q g x w hw hg]
    cases h1 : store g w x with
    | none => rfl
    | some b =>
      show store (rehead q b) (w + H.abi.sizeof_uLong) y = _
      rw [rehead_store q b y _ (by omega) (by rw [store_length h1]; exact hg)]
      rfl
  unfold nhr_gz_write_footer
  simp only []
  by_cases h8 : (buff.length + H.abi.size_range - w) % H.abi.size_range < 8
  · simp only [if_pos h8, extend_snd, rehead_extend q buff 8 hq]
    rw [hbind _ _ _ (by rw [extend_fst, List.length_append]; omega)]
  · simp only [if_neg h8]
    rw [hbind _ _ _ hq]

theorem re_call {σ : Type} (E : Engine σ) (inp : List Nat) (flush : Int) (q : List Nat)
    (L : Locals σ) : deflate_call E inp flush (L.re q) = deflate_call E inp flush L := rfl

theorem re_event {σ : Type} (flush : Int) (q : List Nat) (L : Locals σ) (r : Step σ)
    (hq : q.length ≤ L.out_buff.length) :
    deflate_event flush (L.re q) r = deflate_event flush L r := by
  unfold deflate_event
  show Event.deflate flush L.zip.avail_in L.zip.next_out L.zip.avail_out
    (rehead q L.out_buff).length r.produced r.code = _
  rw [rehead_length q _ hq]

theorem re_after {σ : Type} {H : Host} (q : List Nat) (L : Locals σ) (r : Step σ) (mem : List Nat)
    (ev : Event) : after_step H (L.re q) r (rehead q mem) ev = (after_step H L r mem ev).re q :=
  rfl

theorem re_tail {σ : Type} (H : Host) (E : Engine σ) (inp : List Nat) (n : Nat) (sp : Bool)
    (method : Nat) (hdr q : List Nat) (hq : q.length ≤ 10) (L : Locals σ) (c : CInv H 10 hdr L) :
    compress_tail H E inp n sp method (L.re q)
      = (compress_tail H E inp n sp method L).re q := by
  have hlen := c.len
  have hpos := c.pos
  have hwin := c.win
  unfold compress_tail
  by_cases hg : method = H.NHR_GZ_METHOD_GZIP
  · simp only [hg, if_true]
    have hf := re_footer H E q L.out_buff (L.zip.total_out + NHR_GZ_HEADER_SIZE) inp n
      (by omega) (by simp only [NHR_GZ_HEADER_SIZE]; omega)
    rw [hlen] at hf
    show (match (nhr_gz_write_footer H E (rehead q L.out_buff) L.out_size
        (L.zip.total_out + NHR_GZ_HEADER_SIZE) inp n).1 with
      | none => Run.crash (L.trace ++ (nhr_gz_write_footer H E (rehead q L.out_buff) L.out_size
          (L.zip.total_out + NHR_GZ_HEADER_SIZE) inp n).2)
      | some b => Run.ok b (if sp = true then some (L.zip.total_out + NHR_GZ_HEADER_SIZE
          + NHR_GZ_FOOTER_SIZE) else none)
          (L.trace ++ (nhr_gz_write_footer H E (rehead q L.out_buff) L.out_size
            (L.zip.total_out + NHR_GZ_HEADER_SIZE) inp n).2 ++ [Event.deflateEnd])) = _
    rw [hf]
    cases (nhr_gz_write_footer H E L.out_buff L.out_size
        (L.zip.total_out + NHR_GZ_HEADER_SIZE) inp n).1 with
    | none => rfl
    | some b => rfl
  · simp only [hg, if_false]
    rfl

theorem re_finish {σ : Type} (H : Host) (E : Engine σ) (inp : List Nat) (n : Nat) (sp : Bool)
    (method : Nat) (hdr q : List Nat) (hq : q.length ≤ 10) :
    ∀ fuel (L : Locals σ), CInv H 10 hdr L →
      compress_finish H E inp n sp method fuel (L.re q)
        = (compress_finish H E inp n sp method fuel L).re q := by
  intro fuel
  induction fuel with
  | zero => intro L _; rfl
  | succ fuel ih =>
    intro L c
    obtain ⟨c1, -⟩ := maybe_grow_cinv L c
    have hlen := c.len; have hpos := c.pos; have hwin := c.win
    have hlen1 := c1.len; have hpos1 := c1.pos; have hwin1 := c1.win
    rw [compress_finish, compress_finish]
    simp only []
    rw [re_maybe_grow q L hlen (by omega), re_call, re_event _ q _ _ (by omega)]
    have hst : store ((maybe_grow L).re q).out_buff ((maybe_grow L).re q).zip.next_out
        (deflate_call E inp Z_FINISH (maybe_grow L)).produced
        = (store (maybe_grow L).out_buff (maybe_grow L).zip.next_out
            (deflate_call E inp Z_FINISH (maybe_grow L)).produced).map (rehead q) :=
      rehead_store q _ _ _ (show q.length ≤ (maybe_grow L).zip.next_out by omega) (by omega)
    rw [hst]
    cases hs : store (maybe_grow L).out_buff (maybe_grow L).zip.next_out
        (deflate_call E inp Z_FINISH (maybe_grow L)).produced with
    | none => rfl
    | some mem =>
      simp only [Option.map_some']
      rw [re_after]
      have c2 := cinv_step E inp (maybe_grow L) Z_FINISH mem c1 hs
      split
      · exact ih _ c2
      · split
        · rfl
        · exact re_tail H E inp n sp method hdr q hq _ c2

theorem re_feed {σ : Type} (H : Host) (E : Engine σ) (inp : List Nat) (n : Nat) (sp : Bool)
    (method : Nat) (hdr q : List Nat) (hq : q.length ≤ 10) :
    ∀ fuel (L : Locals σ), CInv H 10 hdr L →
      compress_feed H E inp n sp method fuel (L.re q)
        = (compress_feed H E inp n sp method fuel L).re q := by
  intro fuel
  induction fuel with
  | zero => intro L _; rfl
  | succ fuel ih =>
    intro L c
    have hlen := c.len; have hpos := c.pos; have hwin := c.win
    rw [compress_feed, compress_feed]
    by_cases hin : L.zip.avail_in = 0
    · rw [if_pos hin, if_pos (show (L.re q).zip.avail_in = 0 from hin)]
      exact re_finish H E inp n sp method hdr q hq _ L c
    · rw [if_neg hin, if_neg (show ¬ (L.re q).zip.avail_in = 0 from hin)]
      simp only []
      rw [re_call, re_event _ q _ _ (by omega)]
      have hst : store (L.re q).out_buff (L.re q).zip.next_out
          (deflate_call E inp Z_NO_FLUSH L).produced
          = (store L.out_buff L.zip.next_out
              (deflate_call E inp Z_NO_FLUSH L).produced).map (rehead q) :=
        rehead_store q _ _ _ (show q.length ≤ L.zip.next_out by omega) (by omega)
      rw [hst]
      cases hs : store L.out_buff L.zip.next_out (deflate_call E inp Z_NO_FLUSH L).produced with
      | none => rfl
      | some mem =>
        simp only [Option.map_some']
        rw [re_after]
        have c2 := cinv_step E inp L Z_NO_FLUSH mem c hs
        split
        · rfl
        · rw [re_maybe_grow q _ c2.len (by have := c2.pos; have := c2.win; omega)]
          exact ih _ (maybe_grow_cinv _ c2).1

theorem compress_clock_free {σ : Type} (H : Host) (E : Engine σ) (now now2 fuel : Nat)
    (buff : Option (List Nat)) (n : Nat) (sp : Bool) (method : Nat)
    (hg : method ≠ H.NHR_GZ_METHOD_GZIP) :
    nhr_gz_compress H E now fuel buff n sp method
      = nhr_gz_compress H E now2 fuel buff n sp method := by
  cases buff with
  | none => rfl
  | some P =>
    by_cases hn : n = 0
    · rw [hn, compress_null_size, compress_null_size]
    · by_cases hd : method = H.NHR_GZ_METHOD_DEFLATE
      · subst hd
        rw [compress_deflate_eq H E now fuel P n sp hn, compress_deflate_eq H E now2 fuel P n sp hn]
      · rw [compress_unsupported H E now fuel sp method hg hd,
          compress_unsupported H E now2 fuel sp method hg hd]

theorem gz_header_drop8 (now : Nat) : (gz_header now).drop 8 = [0, 0] := by
  simp [gz_header, le_bytes, List.range_succ]

theorem start_gzip_re {σ : Type} (E : Engine σ) (now now2 n : Nat) :
    start_gzip E now2 n = (start_gzip E now n).re ((gz_header now2).take 8) := by
  have h : gz_header now2 ++ List.replicate NHR_GZ_CHUNK_SIZE 0
      = rehead ((gz_header now2).take 8)
          (gz_header now ++ List.replicate NHR_GZ_CHUNK_SIZE 0) := by
    unfold rehead
    have hl : ((gz_header now2).take 8).length = 8 := by
      rw [List.length_take, gz_header_length]; rfl
    rw [hl, List.drop_append_of_le_length (by rw [gz_header_length]; omega), gz_header_drop8,
      ← gz_header_drop8 now2, ← List.append_assoc, List.take_append_drop]
  unfold start_gzip Locals.re
  simp only []
  rw [h]

theorem compress_gzip_clock {σ : Type} (H : Host) (E : Engine σ) (now now2 fuel : Nat)
    (P : List Nat) (n : Nat) (sp : Bool) (hn : n ≠ 0) :
    nhr_gz_compress H E now2 fuel (some P) n sp H.NHR_GZ_METHOD_GZIP
      = (nhr_gz_compress H E now fuel (some P) n sp H.NHR_GZ_METHOD_GZIP).re
          ((gz_header now2).take 8) := by
  rw [compress_gzip_eq H E now fuel P n sp hn, compress_gzip_eq H E now2 fuel P n sp hn]
  split
  · rfl
  · rw [start_gzip_re E now now2 n]
    exact re_feed H E P n sp _ (gz_header now) _
      (by rw [List.length_take, gz_header_length]; omega) fuel _ (cinv_start_gzip E now n)

theorem gzip_header_kept {σ : Type} (H : Host) (E : Engine σ) (now fuel : Nat) (P : List Nat)
    (n : Nat) (sp : Bool) (buf : List Nat)
    (hret : (nhr_gz_compress H E now fuel (some P) n sp H.NHR_GZ_METHOD_GZIP).ret = some buf) :
    buf.take 10 = gz_header now := by
  have hn : n ≠ 0 := by
    intro h0; subst h0
    rw [compress_null_size H E now fuel sp _ P] at hret
    simp [Run.null] at hret
  rw [compress_gzip_eq H E now fuel P n sp hn] at hret
  split at hret
  · simp [Run.null] at hret
  have c : CInv H (header_size H H.NHR_GZ_METHOD_GZIP) (gz_header now) (start_gzip E now n) := by
    simp only [header_size, if_true, NHR_GZ_HEADER_SIZE]; exact cinv_start_gzip E now n
  have hhd := (feed_layout H E P n sp _ _ fuel _ c buf hret).2.1
  simp only [header_size, if_true, NHR_GZ_HEADER_SIZE] at hhd
  exact hhd

theorem rehead_get (q m : List Nat) (i : Nat) (hi : q.length ≤ i) :
    (rehead q m)[i]? = m[i]? := by
  unfold rehead
  rw [List.getElem?_append_right hi, List.getElem?_drop]
  congr 1
  omega

/-- C20. With a method other than gzip (the deflate method in particular) the
run of `nhr_gz_compress` does not depend on the clock: outcome, block, length
and calls are the same at every clock value.  With any method, gzip included,
two runs at the clock values `now` and `now2` have the same outcome, the same
reported length and the same calls; they both return a block or both return
none, and two returned blocks have the same size and the same byte at every
offset outside `4 .. 7`. -/
theorem clock_touches_only_mtime {σ : Type} (H : Host) (E : Engine σ) (now now2 fuel : Nat)
    (buff : Option (List Nat)) (n : Nat) (sp : Bool) (method : Nat) :
    (method ≠ H.NHR_GZ_METHOD_GZIP →
      nhr_gz_compress H E now fuel buff n sp method
        = nhr_gz_compress H E now2 fuel buff n sp method) ∧
    (nhr_gz_compress H E now fuel buff n sp method).status
      = (nhr_gz_compress H E now2 fuel buff n sp method).status ∧
    (nhr_gz_compress H E now fuel buff n sp method).size_out
      = (nhr_gz_compress H E now2 fuel buff n sp method).size_out ∧
    (nhr_gz_compress H E now fuel buff n sp method).trace
      = (nhr_gz_compress H E now2 fuel buff n sp method).trace ∧
    ((nhr_gz_compress H E now fuel buff n sp method).ret = none ↔
      (nhr_gz_compress H E now2 fuel buff n sp method).ret = none) ∧
    (∀ b1 b2, (nhr_gz_compress H E now fuel buff n sp method).ret = some b1 →
      (nhr_gz_compress H E now2 fuel buff n sp method).ret = some b2 →
      b1.length = b2.length ∧ ∀ i, i < 4 ∨ 8 ≤ i → b1[i]? = b2[i]?) := by
  refine ⟨compress_clock_free H E now now2 fuel buff n sp method, ?_⟩
  by_cases hg : method = H.NHR_GZ_METHOD_GZIP
  · subst hg
    cases buff with
    | none => exact ⟨rfl, rfl, rfl, Iff.rfl, fun b1 b2 h => by simp [nhr_gz_compress, Run.null] at h⟩
    | some P =>
      by_cases hn : n = 0
      · rw [hn, compress_null_size, compress_null_size]
        exact ⟨rfl, rfl, rfl, Iff.rfl, fun b1 b2 h => by simp [Run.null] at h⟩
      · have hre := compress_gzip_clock H E now now2 fuel P n sp hn
        have hql : ((gz_header now2).take 8).length = 8 := by
          rw [List.length_take, gz_header_length]; rfl
        refine ⟨?_, ?_, ?_, ?_, ?_⟩
        · rw [hre]; rfl
        · rw [hre]; rfl
        · rw [hre]; rfl
        · rw [hre]
          show _ ↔ Option.map _ _ = none
          rw [Option.map_eq_none']
        · intro b1 b2 h1 h2
          have hk := gzip_header_kept H E now fuel P n sp b1 h1
          have hl1 : 10 ≤ b1.length := by
            have := congrArg List.length hk
            rw [List.length_take, gz_header_length] at this
            omega
          rw [hre] at h2
          have h2b : b2 = rehead ((gz_header now2).take 8) b1 := by
            have : Option.map (rehead ((gz_header now2).take 8))
                (nhr_gz_compress H E now fuel (some P) n sp H.NHR_GZ_METHOD_GZIP).ret
                = some b2 := h2
            rw [h1] at this
            exact (Option.some.inj this).symm
          refine ⟨?_, ?_⟩
          · rw [h2b, rehead_length _ _ (by omega)]
          · intro i hi
            rcases hi with hi | hi
            · have e1 : b1[i]? = (gz_header now)[i]? := take_get hk i (by omega)
              have e2 : b2[i]? = (gz_header now2)[i]? := by
                rw [h2b]
                unfold rehead
                rw [List.getElem?_append_left (by omega), List.getElem?_take, if_pos (by omega)]
              have e3 : ∀ t, (gz_header t)[i]? = [0x1f, 0x8b, 8, 0][i]? := by
                intro t
                exact take_get (gz_header_take4 t) i hi
              rw [e1, e2, e3, e3]
            · rw [h2b, rehead_get _ _ i (by omega)]
  · rw [← compress_clock_free H E now now2 fuel buff n sp method hg]
    exact ⟨rfl, rfl, rfl, Iff.rfl, fun b1 b2 h1 h2 => by
      rw [h1] at h2
      rw [Option.some.inj h2]
      exact ⟨rfl, fun i _ => rfl⟩⟩

/-- Witness of `clock_touches_only_mtime`: the store engine on a 20-byte payload
at the clock values 0 and `0x01020304`; the two blocks differ, and differ only
at offsets `4 .. 7`. -/
theorem clock_touches_only_mtime_witness :
    (nhr_gz_compress hostILP32 storeEngine 0 5 (some fox) 20 true 2).ret
      ≠ (nhr_gz_compress hostILP32 storeEngine 0x01020304 5 (some fox) 20 true 2).ret ∧
    ((nhr_gz_compress hostILP32 storeEngine 0x01020304 5 (some fox) 20 true 2).ret.map
      (fun b => (b.drop 4).take 4)) = some [4, 3, 2, 1] ∧
    (nhr_gz_compress hostILP32 storeEngine 0 5 (some fox) 20 true 2).size_out
      = (nhr_gz_compress hostILP32 storeEngine 0x01020304 5 (some fox) 20 true 2).size_out :=
  ⟨by decide, by decide,
   (clock_touches_only_mtime hostILP32 storeEngine 0 0x01020304 5 (some fox) 20 true 2).2.2.1⟩

/-! ## The decompress loop on rounds that leave the window partly filled -/

/-- The length accounting of `nhr_gz_decompress` relies on the stop rule of
`inflate` (`StopRule`).  An engine without it, which yields 3 bytes with `Z_OK`
in the first round although it has more to give, and 2 bytes with
`Z_STREAM_END` in the second, 5 bytes in all: `nhr_gz_decompress` returns a
block and reports the length 8, the 3 bytes of the first round being counted
again in the second.  The first 5 bytes of the block are the 5 bytes produced;
the 3 after them were never written. -/
theorem length_counts_twice :
    (nhr_gz_decompress hostLP64 twoPartEngine 5 (some [0]) 1 true 1).status
      = Status.returned ∧
    emitted (nhr_gz_decompress hostLP64 twoPartEngine 5 (some [0]) 1 true 1).trace
      = [1, 2, 3, 4, 5] ∧
    (nhr_gz_decompress hostLP64 twoPartEngine 5 (some [0]) 1 true 1).size_out = some 8 ∧
    (nhr_gz_decompress hostLP64 twoPartEngine 5 (some [0]) 1 true 1).ret.map (List.take 8)
      = some [1, 2, 3, 4, 5, 0, 0, 0] := by
  decide

/-- C14, the code at a failing input. On an engine that behaves as `inflate`
does on a stream cut short (300 bytes with `Z_OK`, then nothing with
`Z_BUF_ERROR`), the third `inflate` step of `nhr_gz_decompress` is given a
window of 512 bytes at offset 600 of a block of 1024 bytes: the window ends 88
bytes past the block.  On an engine that fills that window the store falls
outside the block. -/
theorem window_leaves_block :
    windows (nhr_gz_decompress hostLP64 cutShortEngine 5 (some [0]) 1 true 1).trace
      = [⟨0, 512, 512, 300⟩, ⟨300, 212, 512, 0⟩, ⟨600, 512, 1024, 0⟩] ∧
    ¬ (⟨600, 512, 1024, 0⟩ : Win).inside ∧
    windows (nhr_gz_decompress hostLP64 lateFillEngine 5 (some [0]) 1 true 1).trace
      = [⟨0, 512, 512, 300⟩, ⟨300, 212, 512, 0⟩, ⟨600, 512, 1024, 512⟩] ∧
    (nhr_gz_decompress hostLP64 lateFillEngine 5 (some [0]) 1 true 1).status
      = Status.fault := by
  decide

/-- C15, the code at a failing input. The second round of the engine yields no
byte and reports `Z_STREAM_END` (no hard error), after a first round that left
the window partly filled (3 bytes, `Z_OK`).  `nhr_gz_decompress` does not abort:
it returns a block and the length 6.  On an engine that behaves as `inflate`
does on a stream cut short, the second round yields no byte either
(`Z_BUF_ERROR`) and the loop goes on to a third round. -/
theorem silent_round_not_aborted :
    windows (nhr_gz_decompress hostLP64 silentEndEngine 5 (some [0]) 1 true 1).trace
      = [⟨0, 512, 512, 3⟩, ⟨3, 509, 512, 0⟩] ∧
    step_codes (nhr_gz_decompress hostLP64 silentEndEngine 5 (some [0]) 1 true 1).trace
      = [Z_OK, Z_STREAM_END] ∧
    (nhr_gz_decompress hostLP64 silentEndEngine 5 (some [0]) 1 true 1).status
      = Status.returned ∧
    (nhr_gz_decompress hostLP64 silentEndEngine 5 (some [0]) 1 true 1).ret.map (List.take 6)
      = some [1, 2, 3, 0, 0, 0] ∧
    (nhr_gz_decompress hostLP64 silentEndEngine 5 (some [0]) 1 true 1).size_out = some 6 ∧
    step_codes (nhr_gz_decompress hostLP64 cutShortEngine 5 (some [0]) 1 true 1).trace
      = [Z_OK, Z_BUF_ERROR, Z_BUF_ERROR] := by
  decide

/-! ## The decompress loop when every round before the last fills its window -/

theorem FInv.count {σ : Type} {L : Locals σ} (f : FInv L) :
    (emitted L.trace).length = L.writed := by
  rw [← f.got, List.length_take]
  have := f.wr; have := f.len
  omega

theorem round_windows {σ : Type} (E : Engine σ) (inp : List Nat) (L : Locals σ) (evs : List Event)
    (h : ∀ e ∈ evs, e.win = none) :
    windows (L.trace ++ round_event E inp L :: evs)
      = windows L.trace ++ [⟨L.writed, L.zip.avail_out, L.out_buff.length,
          (round_call E inp L).produced.length⟩] := by
  have : L.trace ++ round_event E inp L :: evs = (L.trace ++ [round_event E inp L]) ++ evs := by
    simp
  rw [this, windows_tail _ _ h, windows_append]
  rfl

theorem round_next_windows {σ : Type} (H : Host) (E : Engine σ) (inp : List Nat) (L : Locals σ)
    (mem : List Nat) :
    windows (round_next H E inp L mem).trace
      = windows L.trace ++ [⟨L.writed, L.zip.avail_out, L.out_buff.length,
          (round_call E inp L).produced.length⟩] := by
  rcases round_next_trace H E inp L mem with h | h
  · rw [h]
    exact round_windows E inp L [] (fun e he => absurd he (List.not_mem_nil e))
  · rw [h, List.append_assoc]
    exact round_windows E inp L
      [Event.malloc ((round_after H E inp L mem).out_size + NHR_GZ_CHUNK_SIZE), Event.free] (by
      intro e he
      simp only [List.mem_cons, List.mem_singleton, List.not_mem_nil, or_false] at he
      rcases he with rfl | rfl <;> rfl)

theorem round_next_emitted {σ : Type} (H : Host) (E : Engine σ) (inp : List Nat) (L : Locals σ)
    (mem : List Nat) :
    emitted (round_next H E inp L mem).trace
      = emitted L.trace ++ (round_call E inp L).produced := by
  rcases round_next_trace H E inp L mem with h | h
  · rw [h, emitted_append]
    simp [emitted, round_event_eq, Event.output]
  · rw [h, emitted_append, emitted_append]
    simp [emitted, round_event_eq, Event.output]

theorem round_produced_le {σ : Type} (E : Engine σ) (inp : List Nat) (L : Locals σ) :
    (round_call E inp L).produced.length ≤ L.zip.avail_out :=
  E.inflate_produced _ _ _ _

theorem round_available {σ : Type} (H : Host) (E : Engine σ) (inp : List Nat) (L : Locals σ)
    (mem : List Nat) :
    available (round_after H E inp L mem)
      = (NHR_GZ_CHUNK_SIZE : Int)
          - ((L.zip.avail_out - (round_call E inp L).produced.length : Nat) : Int) := rfl

theorem take_stored {mem buf p : List Nat} {off : Nat} (h : store buf off p = some mem) :
    mem.take (off + p.length) = buf.take off ++ p := by
  rw [List.take_add, store_take h off (le_refl _), store_drop h, List.take_left' rfl]

theorem finv_round {σ : Type} (H : Host) (E : Engine σ) (inp : List Nat) (L : Locals σ) (mem : List Nat)
    (f : FInv L) (hst : round_store E inp L = some mem) :
    (round_next H E inp L mem).writed = L.writed + (round_call E inp L).produced.length ∧
    (round_next H E inp L mem).out_buff.take (L.writed + (round_call E inp L).produced.length)
      = emitted L.trace ++ (round_call E inp L).produced ∧
    ((round_call E inp L).produced.length = NHR_GZ_CHUNK_SIZE →
      FInv (round_next H E inp L mem)) := by
  have hp := round_produced_le E inp L
  have hav := f.av; have hwr := f.wr; have hlen := f.len
  have hml : mem.length = L.out_buff.length := store_length hst
  have htk : mem.take (L.writed + (round_call E inp L).produced.length)
      = emitted L.trace ++ (round_call E inp L).produced := by
    rw [take_stored hst, f.got]
  have hto : (available (round_after H E inp L mem)).toNat
      = (round_call E inp L).produced.length := by
    rw [round_available]
    simp only [NHR_GZ_CHUNK_SIZE] at hav ⊢
    omega
  have hem := round_next_emitted H E inp L mem
  unfold round_next decompress_account at hem ⊢
  simp only [] at hem ⊢
  rw [hto] at hem ⊢
  have hw : (round_after H E inp L mem).writed = L.writed := rfl
  have hs : (round_after H E inp L mem).out_size = L.out_size := rfl
  have hb : (round_after H E inp L mem).out_buff = mem := rfl
  rw [hw, hs, hb] at hem ⊢
  by_cases hlt : L.writed + (round_call E inp L).produced.length < L.out_size
  · rw [if_pos hlt] at hem ⊢
    refine ⟨rfl, htk, ?_⟩
    intro hfull
    simp only [NHR_GZ_CHUNK_SIZE] at hfull hwr
    omega
  · rw [if_neg hlt] at hem ⊢
    have hfull : (round_call E inp L).produced.length = NHR_GZ_CHUNK_SIZE := by
      simp only [NHR_GZ_CHUNK_SIZE] at hav hwr ⊢
      omega
    have hext : (nhr_gz_extend mem L.out_size NHR_GZ_CHUNK_SIZE).1
        = mem ++ List.replicate NHR_GZ_CHUNK_SIZE 0 := by
      rw [← hlen, ← hml]; exact extend_fst mem _
    have htk2 : (mem ++ List.replicate NHR_GZ_CHUNK_SIZE 0).take
        (L.writed + (round_call E inp L).produced.length)
        = emitted L.trace ++ (round_call E inp L).produced := by
      rw [List.take_append_of_le_length (by omega), htk]
    refine ⟨rfl, ?_, ?_⟩
    · show (nhr_gz_extend mem L.out_size NHR_GZ_CHUNK_SIZE).1.take _ = _
      rw [hext, htk2]
    · intro _
      refine ⟨rfl, ?_, ?_, ?_⟩
      · show L.writed + (round_call E inp L).produced.length + NHR_GZ_CHUNK_SIZE
          = (nhr_gz_extend mem L.out_size NHR_GZ_CHUNK_SIZE).2
        rw [extend_snd]; omega
      · show (nhr_gz_extend mem L.out_size NHR_GZ_CHUNK_SIZE).1.length
          = (nhr_gz_extend mem L.out_size NHR_GZ_CHUNK_SIZE).2
        rw [hext, extend_snd, List.length_append, List.length_replicate]; omega
      · show (nhr_gz_extend mem L.out_size NHR_GZ_CHUNK_SIZE).1.take _ = _
        rw [hext, htk2]
        exact hem.symm

theorem full_before_last_concat (ws : List Win) (w : Win)
    (h : full_before_last (ws ++ [w])) :
    (∀ x ∈ ws, x.produced = x.avail_out) ∧ full_before_last ws := by
  unfold full_before_last at h ⊢
  rw [List.dropLast_concat] at h
  exact ⟨h, fun x hx => h x (List.dropLast_subset ws hx)⟩

theorem fullinv_last {σ : Type} (L : Locals σ) (k : Nat) (j : FullInv L)
    (h : full_before_last (windows L.trace
      ++ [⟨L.writed, L.zip.avail_out, L.out_buff.length, k⟩])) :
    FInv L ∧ ∀ x ∈ windows L.trace ++ [⟨L.writed, L.zip.avail_out, L.out_buff.length, k⟩],
      x.inside := by
  obtain ⟨hall, hfb⟩ := full_before_last_concat _ _ h
  obtain ⟨hin, hf⟩ := j hfb
  have f := hf hall
  refine ⟨f, ?_⟩
  intro x hx
  rcases List.mem_append.mp hx with hx | hx
  · exact hin x hx
  · rw [List.mem_singleton] at hx
    rw [hx]
    have := f.av; have := f.wr; have := f.len
    refine ⟨?_, ?_, ?_⟩
    · show 0 < L.zip.avail_out
      simp only [NHR_GZ_CHUNK_SIZE] at *; omega
    · show L.writed < L.out_buff.length
      simp only [NHR_GZ_CHUNK_SIZE] at *; omega
    · show L.writed + L.zip.avail_out ≤ L.out_buff.length
      simp only [NHR_GZ_CHUNK_SIZE] at *; omega

theorem fullinv_round {σ : Type} (H : Host) (E : Engine σ) (inp : List Nat) (L : Locals σ)
    (mem : List Nat) (j : FullInv L) (hst : round_store E inp L = some mem) :
    FullInv (round_next H E inp L mem) := by
  intro h
  rw [round_next_windows] at h ⊢
  obtain ⟨f, hin⟩ := fullinv_last L _ j h
  refine ⟨hin, ?_⟩
  intro hall
  have hfull := hall _ (List.mem_append_right _ (List.mem_singleton.mpr rfl))
  apply (finv_round H E inp L mem f hst).2.2
  show (round_call E inp L).produced.length = NHR_GZ_CHUNK_SIZE
  rw [← f.av]
  exact hfull

/-- On a run of the decompress loop in which every round before the last fills
its window, every window lies inside the block and a returned block holds the
bytes the engine produced, their number being the reported length. -/
theorem decompress_loop_full {σ : Type} (H : Host) (E : Engine σ) (inp : List Nat) (sp : Bool)
    (fuel : Nat) (L : Locals σ) (j : FullInv L)
    (h : full_before_last (windows (decompress_loop H E inp sp fuel L).trace)) :
    (∀ w ∈ windows (decompress_loop H E inp sp fuel L).trace, w.inside) ∧
    (∀ buf, (decompress_loop H E inp sp fuel L).ret = some buf →
      buf.take (emitted (decompress_loop H E inp sp fuel L).trace).length
        = emitted (decompress_loop H E inp sp fuel L).trace ∧
      (decompress_loop H E inp sp fuel L).size_out
        = if sp then some (emitted (decompress_loop H E inp sp fuel L).trace).length
          else none) := by
  have hends := decompress_loop_ends H E inp sp FullInv
    (fun L1 mem j1 hst _ _ => fullinv_round H E inp L1 mem j1 hst) fuel L j
  rcases hends with ⟨L1, j1, hR⟩ | ⟨L1, j1, -, hR⟩ | ⟨L1, mem, j1, -, -, hR⟩ |
    ⟨L1, mem, j1, -, -, -, hR⟩ | ⟨L1, mem, j1, hst, -, -, -, -, hR⟩
  · rw [hR] at h ⊢
    exact ⟨(j1 h).1, fun buf hb => by simp [Run.timeout] at hb⟩
  · rw [hR] at h ⊢
    have hw := round_windows E inp L1 [] (fun e he => absurd he (List.not_mem_nil e))
    change full_before_last (windows (L1.trace ++ [round_event E inp L1])) at h
    rw [hw] at h
    refine ⟨?_, fun buf hb => by simp [Run.crash] at hb⟩
    show ∀ w ∈ windows (L1.trace ++ [round_event E inp L1]), w.inside
    rw [hw]
    exact (fullinv_last L1 _ j1 h).2
  · rw [hR] at h ⊢
    have hw := round_windows E inp L1 [Event.free, Event.inflateEnd] (by
      intro e he
      simp only [List.mem_cons, List.mem_singleton, List.not_mem_nil, or_false] at he
      rcases he with rfl | rfl <;> rfl)
    change full_before_last (windows (L1.trace ++ _)) at h
    rw [hw] at h
    refine ⟨?_, fun buf hb => by simp [Run.null] at hb⟩
    show ∀ w ∈ windows (L1.trace ++ _), w.inside
    rw [hw]
    exact (fullinv_last L1 _ j1 h).2
  · rw [hR] at h ⊢
    have hw := round_windows E inp L1 [Event.inflateEnd, Event.free] (by
      intro e he
      simp only [List.mem_cons, List.mem_singleton, List.not_mem_nil, or_false] at he
      rcases he with rfl | rfl <;> rfl)
    change full_before_last (windows (L1.trace ++ _)) at h
    rw [hw] at h
    refine ⟨?_, fun buf hb => by simp [Run.null] at hb⟩
    show ∀ w ∈ windows (L1.trace ++ _), w.inside
    rw [hw]
    exact (fullinv_last L1 _ j1 h).2
  · rw [hR] at h ⊢
    have hw : windows ((round_next H E inp L1 mem).trace ++ [Event.inflateEnd])
        = windows L1.trace ++ [⟨L1.writed, L1.zip.avail_out, L1.out_buff.length,
          (round_call E inp L1).produced.length⟩] := by
      rw [windows_tail _ _ (by simp [Event.win]), round_next_windows]
    have he : emitted ((round_next H E inp L1 mem).trace ++ [Event.inflateEnd])
        = emitted L1.trace ++ (round_call E inp L1).produced := by
      rw [emitted_append, round_next_emitted]
      simp [emitted, Event.output]
    change full_before_last (windows ((round_next H E inp L1 mem).trace ++ _)) at h
    rw [hw] at h
    obtain ⟨f, hin⟩ := fullinv_last L1 _ j1 h
    obtain ⟨h1, h2, -⟩ := finv_round H E inp L1 mem f hst
    refine ⟨?_, ?_⟩
    · show ∀ w ∈ windows ((round_next H E inp L1 mem).trace ++ _), w.inside
      rw [hw]; exact hin
    · intro buf hb
      have hbuf : buf = (round_next H E inp L1 mem).out_buff := by
        simp only [Run.ok, Option.some.injEq] at hb
        exact hb.symm
      show buf.take (emitted ((round_next H E inp L1 mem).trace ++ _)).length
          = emitted ((round_next H E inp L1 mem).trace ++ _) ∧
        (if sp then some (round_next H E inp L1 mem).writed else none)
          = if sp then some (emitted ((round_next H E inp L1 mem).trace ++ _)).length else none
      rw [he, List.length_append, f.count, hbuf, h1]
      exact ⟨h2, rfl⟩

theorem fullinv_start {σ : Type} (ni ai : Nat) (res : Int × σ) (ev : Event)
    (hev : ev = Event.inflateInit2 NHR_GZ_WINDOWS_BITS res.1 ∨ ev = Event.inflateInit res.1) :
    FullInv (start_inflate ni ai res ev) := by
  have hw : windows (start_inflate ni ai res ev).trace = [] := by
    rcases hev with h | h <;> rw [h] <;> rfl
  have he : emitted (start_inflate ni ai res ev).trace = [] := by
    rcases hev with h | h <;> rw [h] <;> rfl
  intro _
  refine ⟨by rw [hw]; intro w hx; exact absurd hx (List.not_mem_nil w), fun _ => ?_⟩
  refine ⟨rfl, rfl, ?_, ?_⟩
  · show (nhr_malloc NHR_GZ_CHUNK_SIZE).length = NHR_GZ_CHUNK_SIZE
    simp only [nhr_malloc, List.length_replicate]
  · rw [he]; rfl

/-- The decompress driver on runs in which every round before the last fills
its window (what `inflate` does when it is given the whole of a complete
stream): every `inflate` step gets a non-empty window that lies inside the
block, and a returned block starts with the bytes the engine produced, in
order, their number being the reported length. -/
theorem decompress_full_rounds {σ : Type} (H : Host) (E : Engine σ) (fuel : Nat)
    (buff : Option (List Nat)) (n : Nat) (sp : Bool) (method : Nat)
    (h : full_before_last (windows (nhr_gz_decompress H E fuel buff n sp method).trace)) :
    (∀ w ∈ windows (nhr_gz_decompress H E fuel buff n sp method).trace, w.inside) ∧
    (∀ buf, (nhr_gz_decompress H E fuel buff n sp method).ret = some buf →
      buf.take (emitted (nhr_gz_decompress H E fuel buff n sp method).trace).length
        = emitted (nhr_gz_decompress H E fuel buff n sp method).trace ∧
      (nhr_gz_decompress H E fuel buff n sp method).size_out
        = if sp then some (emitted (nhr_gz_decompress H E fuel buff n sp method).trace).length
          else none) := by
  rcases decompress_entry H E fuel buff n sp method with h0 | h0 | ⟨ev, -, -, -, hev, h0⟩ |
    ⟨P, ni, ai, res, ev, -, -, -, hev, h0⟩
  · rw [h0]
    exact ⟨fun w hw => absurd hw (List.not_mem_nil w), fun buf hb => by simp [Run.null] at hb⟩
  · rw [h0]
    exact ⟨fun w hw => absurd hw (List.not_mem_nil w), fun buf hb => by simp [Run.crash] at hb⟩
  · rw [h0]
    have hw : windows (Run.null [ev]).trace = [] := by
      rcases hev with ⟨w, rc, h1, -⟩ | ⟨rc, h1, -⟩ <;> rw [h1] <;> rfl
    rw [hw]
    exact ⟨fun w hw => absurd hw (List.not_mem_nil w), fun buf hb => by simp [Run.null] at hb⟩
  · rw [h0] at h ⊢
    exact decompress_loop_full H E P sp fuel _ (fullinv_start ni ai res ev hev) h

/-- Witness of `decompress_full_rounds`: the store engine on the stream of a
20-byte payload, one round. -/
theorem decompress_full_rounds_witness :
    windows (nhr_gz_decompress hostILP32 storeEngine 5 (some (0x78 :: fox)) 21 true 1).trace
      = [⟨0, 512, 512, 20⟩] ∧
    (nhr_gz_decompress hostILP32 storeEngine 5 (some (0x78 :: fox)) 21 true 1).size_out
      = some 20 ∧
    ∀ w ∈ windows (nhr_gz_decompress hostILP32 storeEngine 5 (some (0x78 :: fox)) 21 true
      1).trace, w.inside :=
  ⟨by decide, by decide,
   (decompress_full_rounds hostILP32 storeEngine 5 (some (0x78 :: fox)) 21 true 1
     (by decide)).1⟩

theorem step_codes_round {σ : Type} (E : Engine σ) (inp : List Nat) (L : Locals σ)
    (evs : List Event) (h : ∀ e ∈ evs, e.code = none) :
    step_codes (L.trace ++ round_event E inp L :: evs)
      = step_codes L.trace ++ [(round_call E inp L).code] := by
  unfold step_codes
  rw [List.filterMap_append, List.filterMap_cons_some (show (round_event E inp L).code
    = some (round_call E inp L).code from rfl), List.filterMap_eq_nil_iff.mpr h]

theorem account_avail_le {σ : Type} (L : Locals σ) (a : Int) (h0 : 0 ≤ a) :
    (decompress_account L a).zip.avail_out ≤ NHR_GZ_CHUNK_SIZE := by
  unfold decompress_account
  simp only []
  split
  · show ((NHR_GZ_CHUNK_SIZE : Int) - a).toNat ≤ NHR_GZ_CHUNK_SIZE
    simp only [NHR_GZ_CHUNK_SIZE]
    omega
  · exact le_refl _

/-- A round of `nhr_gz_decompress` that produces a byte is never taken for a
round without output: when the call returns no block after a last round whose
return code is no hard error, that round produced no byte. -/
theorem abort_only_on_empty_round {σ : Type} (H : Host) (E : Engine σ) (fuel : Nat)
    (buff : Option (List Nat)) (n : Nat) (sp : Bool) (method : Nat)
    (hst : (nhr_gz_decompress H E fuel buff n sp method).status = Status.returned)
    (hret : (nhr_gz_decompress H E fuel buff n sp method).ret = none)
    (w : Win) (c : Int)
    (hw : (windows (nhr_gz_decompress H E fuel buff n sp method).trace).getLast? = some w)
    (hc : (step_codes (nhr_gz_decompress H E fuel buff n sp method).trace).getLast? = some c)
    (hh : ¬ hard_error c) : w.produced = 0 := by
  rcases decompress_entry H E fuel buff n sp method with h0 | h0 | ⟨ev, -, -, -, hev, h0⟩ |
    ⟨P, ni, ai, res, ev, -, -, -, hev, h0⟩
  · rw [h0] at hw; simp [Run.null, windows] at hw
  · rw [h0] at hw; simp [Run.crash, windows] at hw
  · rw [h0] at hw
    have : windows (Run.null [ev]).trace = [] := by
      rcases hev with ⟨w, rc, h1, -⟩ | ⟨rc, h1, -⟩ <;> rw [h1] <;> rfl
    rw [this] at hw; simp at hw
  · rw [h0] at hst hret hw hc
    have hends := decompress_loop_ends H E P sp
      (fun L : Locals σ => L.zip.avail_out ≤ NHR_GZ_CHUNK_SIZE)
      (fun L1 mem h1 _ _ hav => account_avail_le _ _ (le_of_lt hav)) fuel
      (start_inflate ni ai res ev) (le_refl _)
    rcases hends with ⟨L1, j1, hR⟩ | ⟨L1, j1, -, hR⟩ | ⟨L1, mem, j1, -, hhard, hR⟩ |
      ⟨L1, mem, j1, -, -, hzero, hR⟩ | ⟨L1, mem, j1, -, -, -, -, -, hR⟩
    · rw [hR] at hst; simp [Run.timeout] at hst
    · rw [hR] at hst; simp [Run.crash] at hst
    · rw [hR] at hc
      have := step_codes_round E P L1 [Event.free, Event.inflateEnd] (by
        intro e he
        simp only [List.mem_cons, List.mem_singleton, List.not_mem_nil, or_false] at he
        rcases he with rfl | rfl <;> rfl)
      change (step_codes (L1.trace ++ _)).getLast? = some c at hc
      rw [this, List.getLast?_append] at hc
      simp only [List.getLast?_singleton, Option.or_some, Option.some.injEq] at hc
      rw [← hc] at hh
      exact absurd hhard hh
    · rw [hR] at hw
      have := round_windows E P L1 [Event.inflateEnd, Event.free] (by
        intro e he
        simp only [List.mem_cons, List.mem_singleton, List.not_mem_nil, or_false] at he
        rcases he with rfl | rfl <;> rfl)
      change (windows (L1.trace ++ _)).getLast? = some w at hw
      rw [this, List.getLast?_append] at hw
      simp only [List.getLast?_singleton, Option.or_some, Option.some.injEq] at hw
      rw [← hw]
      show (round_call E P L1).produced.length = 0
      rw [round_available] at hzero
      have hp := round_produced_le E P L1
      simp only [NHR_GZ_CHUNK_SIZE] at hzero j1
      omega
    · rw [hR] at hret; simp [Run.ok] at hret

/-- Witness of `abort_only_on_empty_round`: an engine whose first round yields
nothing and reports `Z_BUF_ERROR`. -/
theorem abort_only_on_empty_round_witness :
    (nhr_gz_decompress hostILP32 (scriptEngine Z_OK []) 5 (some [0]) 1 true 1).ret = none ∧
    (⟨0, 512, 512, 0⟩ : Win).produced = 0 :=
  ⟨by decide,
   abort_only_on_empty_round hostILP32 (scriptEngine Z_OK []) 5 (some [0]) 1 true 1
     (by decide) (by decide) ⟨0, 512, 512, 0⟩ Z_BUF_ERROR (by decide) (by decide) (by decide)⟩

/-! ## The reported length of `nhr_gz_decompress` under the stop rule of `inflate` -/

end Nhr
